import Mathlib

/-!
# jo: an event driven JSON parser (src/parser.go)

A shallow embedding of the `Parser` state machine of `src/parser.go`:
`Parse`, `End`, `Depth`, `Skip`, `Reset`, `push`, `next` and the byte
classification helpers, followed by theorems about them.

Conventions of the embedding:
* a byte is a natural number (`Byte`); the byte literals of the source are
  written as their ASCII codes;
* the `queue` slice is a list whose head is the top of the stack
  (Go appends at the end of the slice and pops from the end);
* `depth`, `limit`, `drop` and `empty` are integers; `Parse` changes them by
  one per event, so they cannot leave the range of a Go `int` before the
  queue has outgrown the address space; the caller-supplied sum in `Skip`
  is taken with 64-bit wrap-around;
* a Go `panic` in `Skip` is the result `none`.
-/

namespace Jo

/-- A byte of input. -/
abbrev Byte := Nat

/-- The parser states of `src/parser.go`, in the order of the `iota` block. -/
inductive State
  | _StateValue
  | _StateDone
  | _StateObjectKeyOrBrace
  | _StateObjectKeyDone
  | _StateObjectColon
  | _StateObjectCommaOrBrace
  | _StateObjectKey
  | _StateArrayValueOrBracket
  | _StateArrayCommaOrBracket
  | _StateStringUnicode
  | _StateStringUnicode2
  | _StateStringUnicode3
  | _StateStringUnicode4
  | _StateString
  | _StateStringDone
  | _StateStringEscaped
  | _StateNumberNegative
  | _StateNumberZero
  | _StateNumber
  | _StateNumberDotFirstDigit
  | _StateNumberDotDigit
  | _StateNumberExpSign
  | _StateNumberExpFirstDigit
  | _StateNumberExpDigit
  | _StateTrue
  | _StateTrue2
  | _StateTrue3
  | _StateFalse
  | _StateFalse2
  | _StateFalse3
  | _StateFalse4
  | _StateNull
  | _StateNull2
  | _StateNull3
  deriving DecidableEq, Repr

open State

/-- The `iota` value of a state constant in `src/parser.go`. The value 9 is
taken by the marker `_IgnoreSpace`, which is not a state. -/
def State.code : State → Nat
  | _StateValue => 0
  | _StateDone => 1
  | _StateObjectKeyOrBrace => 2
  | _StateObjectKeyDone => 3
  | _StateObjectColon => 4
  | _StateObjectCommaOrBrace => 5
  | _StateObjectKey => 6
  | _StateArrayValueOrBracket => 7
  | _StateArrayCommaOrBracket => 8
  | _StateStringUnicode => 10
  | _StateStringUnicode2 => 11
  | _StateStringUnicode3 => 12
  | _StateStringUnicode4 => 13
  | _StateString => 14
  | _StateStringDone => 15
  | _StateStringEscaped => 16
  | _StateNumberNegative => 17
  | _StateNumberZero => 18
  | _StateNumber => 19
  | _StateNumberDotFirstDigit => 20
  | _StateNumberDotDigit => 21
  | _StateNumberExpSign => 22
  | _StateNumberExpFirstDigit => 23
  | _StateNumberExpDigit => 24
  | _StateTrue => 25
  | _StateTrue2 => 26
  | _StateTrue3 => 27
  | _StateFalse => 28
  | _StateFalse2 => 29
  | _StateFalse3 => 30
  | _StateFalse4 => 31
  | _StateNull => 32
  | _StateNull2 => 33
  | _StateNull3 => 34

/-- The marker `_IgnoreSpace` of the `iota` block: leading whitespace is
consumed before any state with a smaller code is processed. -/
def _IgnoreSpace : Nat := 9

/-- Modelled from the spec: the `Event` constants used by `src/parser.go`
(`Continue`, `SyntaxError`, `Done` and the start and end events) are declared
in a file that is not under `src/`; the spec lists the kinds as
no-event/continue, syntax-error, done, string/number/bool/null start-or-end,
object/array start-or-end and object-key start-or-end. -/
inductive Event
  | Continue
  | SyntaxError
  | Done
  | StringStart
  | StringEnd
  | NumberStart
  | NumberEnd
  | BoolStart
  | BoolEnd
  | NullStart
  | NullEnd
  | ObjectStart
  | ObjectEnd
  | ArrayStart
  | ArrayEnd
  | KeyStart
  | KeyEnd
  deriving DecidableEq, Repr

open Event

/-- Modelled from the spec: the category mask `Composite` (absent from
`src/`) marks the object and array events. -/
def Event.isComposite : Event → Bool
  | ObjectStart | ObjectEnd | ArrayStart | ArrayEnd => true
  | _ => false

/-- Modelled from the spec: the category mask `Primitive` (absent from
`src/`) marks the string, number, bool and null events. -/
def Event.isPrimitive : Event → Bool
  | StringStart | StringEnd | NumberStart | NumberEnd
  | BoolStart | BoolEnd | NullStart | NullEnd => true
  | _ => false

/-- Modelled from the spec: the phase mask `Start` (absent from `src/`)
marks the start events, the one of an object key included. -/
def Event.isStart : Event → Bool
  | StringStart | NumberStart | BoolStart | NullStart
  | ObjectStart | ArrayStart | KeyStart => true
  | _ => false

/-- Modelled from the spec: the phase mask `End` (absent from `src/`)
marks the end events, the one of an object key included. -/
def Event.isEnd : Event → Bool
  | StringEnd | NumberEnd | BoolEnd | NullEnd
  | ObjectEnd | ArrayEnd | KeyEnd => true
  | _ => false

/-- The struct `Parser`; the zero value is the initial parser. -/
structure Parser where
  state : State := _StateValue
  queue : List State := []
  depth : Int := 0
  limit : Int := 0
  drop : Int := 0
  empty : Int := 0
  property : Bool := false
  deriving DecidableEq, Repr

/-- The zero value `Parser{}`. -/
def Parser.zero : Parser := {}

/-- `isSpace`: true if b is a whitespace character. -/
def isSpace (b : Byte) : Bool :=
  b == 32 || b == 9 || b == 10 || b == 13

/-- `isDecimal`: true if b is a decimal digit. -/
def isDecimal (b : Byte) : Bool :=
  decide (48 ≤ b) && decide (b ≤ 57)

/-- `isHex`: true if b is a hexadecimal character. -/
def isHex (b : Byte) : Bool :=
  isDecimal b || (decide (97 ≤ b) && decide (b ≤ 102)) || (decide (65 ≤ b) && decide (b ≤ 70))

/-- `push`: puts a new state at the top of the queue. -/
def Parser.push (p : Parser) (state : State) : Parser :=
  { p with queue := state :: p.queue }

/-- `next`: fetches the next state in the queue; if the queue is empty the
top level value has ended. -/
def Parser.next (p : Parser) : State × Parser :=
  match p.queue with
  | [] => (_StateDone, p)
  | state :: rest => (state, { p with queue := rest })

/-- The statement `p.state = p.next()`. -/
def Parser.toNext (p : Parser) : Parser :=
  { (p.next).2 with state := (p.next).1 }

/-- What one pass through the `switch` of `Parse` leaves behind: the parser,
the event, the error and whether `i--` was executed. -/
structure Step where
  p : Parser
  event : Event := Continue
  err : Option String := none
  rewind : Bool := false
  deriving DecidableEq, Repr

/-- The body of `case _StateObjectKey`, also reached by fallthrough. -/
def caseObjectKey (p : Parser) (b : Byte) : Step :=
  if b = 34 then
    { p := ({ p with state := _StateString }).push _StateObjectKeyDone, event := KeyStart }
  else
    { p := p, event := SyntaxError, err := some "expected object key" }

/-- The body of `case _StateNumberZero`, also reached by fallthrough. -/
def caseNumberZero (p : Parser) (b : Byte) : Step :=
  if b = 46 then
    { p := { p with state := _StateNumberDotFirstDigit } }
  else if b = 101 ∨ b = 69 then
    { p := { p with state := _StateNumberExpSign } }
  else
    { p := p.toNext, event := NumberEnd, rewind := true }

/-- The body of `case _StateNumberExpFirstDigit`, also reached by
fallthrough; `p.state++` leads to `_StateNumberExpDigit`. -/
def caseNumberExpFirstDigit (p : Parser) (b : Byte) : Step :=
  if ¬ isDecimal b then
    { p := p, event := SyntaxError, err := some "expected digit after exponent in number" }
  else
    { p := { p with state := _StateNumberExpDigit } }

/-- A literal state: the expected byte leads on, any other is an error. -/
def caseLiteral (p : Parser) (b expected : Byte) (onward : Step) (msg : String) : Step :=
  if b = expected then onward
  else { p := p, event := SyntaxError, err := some msg }

/-- The body of `case _StateValue`. -/
def caseValue (p : Parser) (b : Byte) : Step :=
  if b = 123 then { p := { p with state := _StateObjectKeyOrBrace }, event := ObjectStart }
  else if b = 91 then { p := { p with state := _StateArrayValueOrBracket }, event := ArrayStart }
  else if b = 34 then
    { p := ({ p with state := _StateString }).push _StateStringDone, event := StringStart }
  else if b = 45 then { p := { p with state := _StateNumberNegative }, event := NumberStart }
  else if b = 48 then { p := { p with state := _StateNumberZero }, event := NumberStart }
  else if 49 ≤ b ∧ b ≤ 57 then { p := { p with state := _StateNumber }, event := NumberStart }
  else if b = 116 then { p := { p with state := _StateTrue }, event := BoolStart }
  else if b = 102 then { p := { p with state := _StateFalse }, event := BoolStart }
  else if b = 110 then { p := { p with state := _StateNull }, event := NullStart }
  else { p := p, event := SyntaxError, err := some "expected beginning of JSON value" }

/-- The body of `case _StateObjectKeyOrBrace`: if the byte is not a brace the
state becomes `_StateObjectKey` and the case falls through. -/
def caseObjectKeyOrBrace (p : Parser) (b : Byte) : Step :=
  if b = 125 then { p := p.toNext, event := ObjectEnd }
  else caseObjectKey { p with state := _StateObjectKey } b

/-- The body of `case _StateObjectColon`. -/
def caseObjectColon (p : Parser) (b : Byte) : Step :=
  if b = 58 then { p := ({ p with state := _StateValue }).push _StateObjectCommaOrBrace }
  else { p := p, event := SyntaxError, err := some "expected ':' after object key" }

/-- The body of `case _StateObjectCommaOrBrace`. -/
def caseObjectCommaOrBrace (p : Parser) (b : Byte) : Step :=
  if b = 44 then { p := { p with state := _StateObjectKey } }
  else if b = 125 then { p := p.toNext, event := ObjectEnd }
  else { p := p, event := SyntaxError, err := some "expected ',' or '\x7d' after object value" }

/-- The body of `case _StateArrayValueOrBracket`: a byte other than the
bracket is left to `_StateValue` (`i--`). -/
def caseArrayValueOrBracket (p : Parser) (b : Byte) : Step :=
  if b = 93 then { p := p.toNext, event := ArrayEnd }
  else
    { p := ({ p with state := _StateValue }).push _StateArrayCommaOrBracket, rewind := true }

/-- The body of `case _StateArrayCommaOrBracket`. -/
def caseArrayCommaOrBracket (p : Parser) (b : Byte) : Step :=
  if b = 44 then { p := ({ p with state := _StateValue }).push _StateArrayCommaOrBracket }
  else if b = 93 then { p := p.toNext, event := ArrayEnd }
  else { p := p, event := SyntaxError, err := some "expected ',' or ']' after array value" }

/-- The body of the case of the four `_StateStringUnicode` states; `onward`
is the state that `p.state++` leads to. -/
def caseStringUnicode (p : Parser) (b : Byte) (onward : State) : Step :=
  if isHex b then { p := { p with state := onward } }
  else { p := p, event := SyntaxError,
         err := some "expected four hexadecimal chars after \"\\u\"" }

/-- The body of `case _StateString`: the closing quote is left to the state
on top of the queue (`i--`). -/
def caseString (p : Parser) (b : Byte) : Step :=
  if b = 34 then { p := p.toNext, rewind := true }
  else if b = 92 then { p := { p with state := _StateStringEscaped } }
  else if b < 32 then
    { p := p, event := SyntaxError, err := some "expected valid string character" }
  else { p := p }

/-- The body of `case _StateStringEscaped`. -/
def caseStringEscaped (p : Parser) (b : Byte) : Step :=
  if b = 98 ∨ b = 102 ∨ b = 110 ∨ b = 114 ∨ b = 116 ∨ b = 92 ∨ b = 47 ∨ b = 34 then
    { p := { p with state := _StateString } }
  else if b = 117 then { p := { p with state := _StateStringUnicode } }
  else { p := p, event := SyntaxError, err := some "expected valid escape sequence after '\\'" }

/-- The body of `case _StateNumberNegative`. -/
def caseNumberNegative (p : Parser) (b : Byte) : Step :=
  if b = 48 then { p := { p with state := _StateNumberZero } }
  else if 49 ≤ b ∧ b ≤ 57 then { p := { p with state := _StateNumber } }
  else { p := p, event := SyntaxError, err := some "expected digit after '-'" }

/-- The body of `case _StateNumber`: a byte that is no digit falls through
to `_StateNumberZero`. -/
def caseNumber (p : Parser) (b : Byte) : Step :=
  if isDecimal b then { p := p }
  else caseNumberZero p b

/-- The body of `case _StateNumberDotFirstDigit`. -/
def caseNumberDotFirstDigit (p : Parser) (b : Byte) : Step :=
  if isDecimal b then { p := { p with state := _StateNumberDotDigit } }
  else { p := p, event := SyntaxError, err := some "expected digit after dot in number" }

/-- The body of `case _StateNumberDotDigit`. -/
def caseNumberDotDigit (p : Parser) (b : Byte) : Step :=
  if b = 101 ∨ b = 69 then { p := { p with state := _StateNumberExpSign } }
  else if ¬ isDecimal b then { p := p.toNext, event := NumberEnd, rewind := true }
  else { p := p }

/-- The body of `case _StateNumberExpSign`: the state becomes
`_StateNumberExpFirstDigit`; a byte that is no sign falls through. -/
def caseNumberExpSign (p : Parser) (b : Byte) : Step :=
  if b = 43 ∨ b = 45 then { p := { p with state := _StateNumberExpFirstDigit } }
  else caseNumberExpFirstDigit { p with state := _StateNumberExpFirstDigit } b

/-- The body of `case _StateNumberExpDigit`. -/
def caseNumberExpDigit (p : Parser) (b : Byte) : Step :=
  if ¬ isDecimal b then { p := p.toNext, event := NumberEnd, rewind := true }
  else { p := p }

/-- The `switch s` of `Parse` on one byte. -/
def transition (p : Parser) (b : Byte) : Step :=
  match p.state with
  | _StateValue => caseValue p b
  | _StateObjectKeyOrBrace => caseObjectKeyOrBrace p b
  | _StateObjectKey => caseObjectKey p b
  | _StateObjectKeyDone => { p := { p with state := _StateObjectColon }, event := KeyEnd }
  | _StateObjectColon => caseObjectColon p b
  | _StateObjectCommaOrBrace => caseObjectCommaOrBrace p b
  | _StateArrayValueOrBracket => caseArrayValueOrBracket p b
  | _StateArrayCommaOrBracket => caseArrayCommaOrBracket p b
  | _StateStringUnicode => caseStringUnicode p b _StateStringUnicode2
  | _StateStringUnicode2 => caseStringUnicode p b _StateStringUnicode3
  | _StateStringUnicode3 => caseStringUnicode p b _StateStringUnicode4
  | _StateStringUnicode4 => caseStringUnicode p b _StateString
  | _StateString => caseString p b
  | _StateStringDone => { p := p.toNext, event := StringEnd }
  | _StateStringEscaped => caseStringEscaped p b
  | _StateNumberNegative => caseNumberNegative p b
  | _StateNumber => caseNumber p b
  | _StateNumberZero => caseNumberZero p b
  | _StateNumberDotFirstDigit => caseNumberDotFirstDigit p b
  | _StateNumberDotDigit => caseNumberDotDigit p b
  | _StateNumberExpSign => caseNumberExpSign p b
  | _StateNumberExpFirstDigit => caseNumberExpFirstDigit p b
  | _StateNumberExpDigit => caseNumberExpDigit p b
  | _StateTrue =>
    caseLiteral p b 114 { p := { p with state := _StateTrue2 } } "expected 'r' in literal true"
  | _StateTrue2 =>
    caseLiteral p b 117 { p := { p with state := _StateTrue3 } } "expected 'u' in literal true"
  | _StateTrue3 =>
    caseLiteral p b 101 { p := p.toNext, event := BoolEnd } "expected 'e' in literal true"
  | _StateFalse =>
    caseLiteral p b 97 { p := { p with state := _StateFalse2 } } "expected 'a' in literal false"
  | _StateFalse2 =>
    caseLiteral p b 108 { p := { p with state := _StateFalse3 } } "expected 'l' in literal false"
  | _StateFalse3 =>
    caseLiteral p b 115 { p := { p with state := _StateFalse4 } } "expected 's' in literal false"
  | _StateFalse4 =>
    caseLiteral p b 101 { p := p.toNext, event := BoolEnd } "expected 'e' in literal false"
  | _StateNull =>
    caseLiteral p b 117 { p := { p with state := _StateNull2 } } "expected 'u' in literal false"
  | _StateNull2 =>
    caseLiteral p b 108 { p := { p with state := _StateNull3 } } "expected 'l' in literal false"
  | _StateNull3 =>
    caseLiteral p b 108 { p := p.toNext, event := NullEnd } "expected 'l' in literal false"
  | _StateDone =>
    { p := p, event := SyntaxError, err := some "expected EOF after top-level value" }

/-- The `switch` that keeps `p.depth` accurate (lines 415 to 428). -/
def updateDepth (p : Parser) (event : Event) : Parser :=
  if event = KeyStart then
    { p with depth := p.depth + 1, property := true }
  else if (event.isComposite || event.isPrimitive) && event.isStart then
    if ¬ p.property then { p with depth := p.depth + 1 }
    else { p with property := false }
  else if (event.isComposite || event.isPrimitive) && event.isEnd then
    { p with depth := p.depth - 1 }
  else p

/-- How one iteration of the `for` loop of `Parse` ends. -/
inductive Outcome
  /-- The statement `continue` with the byte consumed: on to the next byte. -/
  | advance (p : Parser)
  /-- The statement `continue` after `i--`: the same byte is read again. -/
  | again (p : Parser)
  /-- A `return`; `consumed` tells whether the byte at `i` is counted. -/
  | ret (p : Parser) (consumed : Bool) (event : Event) (err : Option String)
  deriving DecidableEq, Repr

/-- The statement `continue`, after a possible `i--`. -/
def Outcome.cont (rewind : Bool) (p : Parser) : Outcome :=
  if rewind then Outcome.again p else Outcome.advance p

/-- Lines 405 to 450 of `Parse`: what happens with the event of a step. -/
def settle (t : Step) : Outcome :=
  if t.event = Continue then Outcome.cont t.rewind t.p
  else if t.event = SyntaxError then Outcome.ret t.p false SyntaxError t.err
  else
    let p := updateDepth t.p t.event
    if p.drop ≠ 0 ∨ p.empty ≠ 0 then
      if p.depth > p.limit then Outcome.cont t.rewind p
      else
        let p := { p with limit := p.limit - 1 }
        if p.drop > 0 then Outcome.cont t.rewind { p with drop := p.drop - 1 }
        else
          let p := { p with empty := p.empty - 1 }
          if t.event.isEnd = false then Outcome.cont t.rewind p
          else Outcome.ret p (!t.rewind) t.event none
    else Outcome.ret p (!t.rewind) t.event none

/-- One iteration of the `for` loop of `Parse` on the byte `b`. -/
def iter (p : Parser) (b : Byte) : Outcome :=
  if p.state.code < _IgnoreSpace ∧ isSpace b = true then Outcome.advance p
  else settle (transition p b)

/-- The iterations of the loop on one byte: while the byte is read again the
loop goes on; `fuel` bounds the number of repetitions. -/
def loopByte : Nat → Parser → Byte → Outcome
  | 0, p, b => iter p b
  | fuel + 1, p, b =>
    match iter p b with
    | Outcome.again p' => loopByte fuel p' b
    | o => o

/-- The result triple of `Parse`. -/
structure ParseResult where
  consumed : Nat
  event : Event
  err : Option String
  deriving DecidableEq, Repr

/-- The loop of `Parse` from index `i` on, over the bytes not yet read.
A byte is read again only after a pop of the queue or in the state
`_StateArrayValueOrBracket`, so `queue.length + 1` repetitions are enough
(`loopByte_fuel`); the result `none` stands for a loop that would not end. -/
def parseFrom (i : Nat) : Parser → List Byte → Option (ParseResult × Parser)
  | p, [] => some (⟨i, Continue, none⟩, p)
  | p, b :: rest =>
    match loopByte (p.queue.length + 1) p b with
    | Outcome.advance p' => parseFrom (i + 1) p' rest
    | Outcome.again _ => none
    | Outcome.ret p' consumed event err =>
      some (⟨if consumed then i + 1 else i, event, err⟩, p')

/-- `Parse`: parses a byte slice; returns the number of bytes read, an event
and, for `SyntaxError`, an error, together with the parser it leaves. -/
def Parse (p : Parser) (input : List Byte) : Option (ParseResult × Parser) :=
  parseFrom 0 p input

/-- `End`: informs the parser not to expect any further input. -/
def End (p : Parser) : (Event × Option String) × Parser :=
  match p.state with
  | _StateDone => ((Done, none), p)
  | _StateNumberZero | _StateNumber | _StateNumberDotDigit | _StateNumberExpDigit =>
    if p.depth = 1 then ((NumberEnd, none), { p with state := _StateDone })
    else ((SyntaxError, some "unexpected EOF"), p)
  | _ => ((SyntaxError, some "unexpected EOF"), p)

/-- `Depth`: the current depth. -/
def Depth (p : Parser) : Int := p.depth

/-- The value of a Go `int` (64 bits, two's complement) for an integer. -/
def wrapInt (x : Int) : Int :=
  (x + 2 ^ 63) % 2 ^ 64 - 2 ^ 63

/-- `Skip`: silences events based on depth; `none` is a panic. -/
def Skip (p : Parser) (drop empty : Int) : Option Parser :=
  if drop < 0 ∨ empty < 0 then none
  else if wrapInt (drop + empty) > p.depth then none
  else
    let shift : Bool := p.property && decide (drop = 0) && decide (empty > 0)
    let drop := if shift then drop + 1 else drop
    let empty := if shift then empty - 1 else empty
    some { p with drop := drop, empty := empty, limit := p.depth - 1 }

/-- `Reset`: resets the parser struct to its initial state. -/
def Reset (_p : Parser) : Parser := Parser.zero


/-- What driving a parser over a buffer yields: the events other than
`Continue` in the order of delivery (a `SyntaxError` is the last one), the
sum of the consumed counts, whether a `SyntaxError` was returned, its error,
and the parser left behind. -/
structure Run where
  events : List Event
  consumed : Nat
  failed : Bool
  err : Option String
  p : Parser
  deriving DecidableEq, Repr

/-- The caller's loop: `Parse` is called on the bytes not yet consumed until
it returns `Continue` (everything is consumed) or `SyntaxError`; every call
takes one unit of `fuel`. -/
def driveFuel : Nat → Parser → List Byte → Option Run
  | 0, _, _ => none
  | fuel + 1, p, input =>
    match Parse p input with
    | none => none
    | some (r, p') =>
      if r.event = SyntaxError then some ⟨[SyntaxError], r.consumed, true, r.err, p'⟩
      else if r.event = Continue then some ⟨[], r.consumed, false, none, p'⟩
      else
        match driveFuel fuel p' (input.drop r.consumed) with
        | none => none
        | some run =>
          some ⟨r.event :: run.events, r.consumed + run.consumed, run.failed, run.err, run.p⟩

/-- Driving a parser over a buffer. Every call of `Parse` but the last
returns an event, and there are at most `4 * input.length + queue.length + 1`
of them (`drive_total`), so the fuel is never used up. -/
def drive (p : Parser) (input : List Byte) : Option Run :=
  driveFuel (4 * input.length + p.queue.length + 2) p input

/-- Driving a parser over consecutive chunks; the caller stops at the first
`SyntaxError`. -/
def driveChunks : Parser → List (List Byte) → Option Run
  | p, [] => some ⟨[], 0, false, none, p⟩
  | p, chunk :: chunks =>
    match drive p chunk with
    | none => none
    | some r =>
      if r.failed then some r
      else
        match driveChunks r.p chunks with
        | none => none
        | some r' =>
          some ⟨r.events ++ r'.events, r.consumed + r'.consumed, r'.failed, r'.err, r'.p⟩

/-- Feeding a buffer one byte at a time: `Parse` is called once on every
byte, up to the first `SyntaxError`; the results of the calls are collected. -/
def parseEach : Parser → List Byte → Option (List ParseResult × Parser)
  | p, [] => some ([], p)
  | p, b :: rest =>
    match Parse p [b] with
    | none => none
    | some (r, p') =>
      if r.event = SyntaxError then some ([r], p')
      else
        match parseEach p' rest with
        | none => none
        | some (rs, p'') => some (r :: rs, p'')

/-- The event that one iteration of the loop of `Parse` computes, before the
skip decides whether it is delivered: `Continue` for skipped whitespace,
otherwise the event that the switch sets. -/
def computedEvent (p : Parser) (b : Byte) : Event :=
  if p.state.code < _IgnoreSpace ∧ isSpace b = true then Continue
  else (transition p b).event

/-- Calling `End` until it returns `Done` or `SyntaxError`: after a
`NumberEnd` the caller calls `End` once more. -/
def finish (p : Parser) : List Event × Option String × Parser :=
  match End p with
  | ((NumberEnd, _), p1) =>
    match End p1 with
    | ((e2, err2), p2) => ([NumberEnd, e2], err2, p2)
  | ((e1, err1), p1) => ([e1], err1, p1)

/-- The parsers a caller can reach from the zero value with `Parse`, `End`,
`Skip` calls that do not panic, and `Reset`. -/
inductive Reachable : Parser → Prop
  | zero : Reachable Parser.zero
  | parse {p p' : Parser} {r : ParseResult} (input : List Byte) :
      Reachable p → Parse p input = some (r, p') → Reachable p'
  | endCall {p : Parser} : Reachable p → Reachable (End p).2
  | skip {p p' : Parser} (drop empty : Int) :
      Reachable p → Skip p drop empty = some p' → Reachable p'
  | reset {p : Parser} : Reachable p → Reachable (Reset p)

/-! ## The JSON grammar of the specification (section 4.1) -/

/-- Insignificant whitespace: space, tab, line feed, carriage return. -/
def Ws (w : List Byte) : Prop := ∀ b ∈ w, b = 32 ∨ b = 9 ∨ b = 10 ∨ b = 13

/-- A run of decimal digits. -/
def Digits (ds : List Byte) : Prop := ∀ b ∈ ds, 48 ≤ b ∧ b ≤ 57

/-- The integer part `0 | [1-9][0-9]*`. -/
def IntPart (w : List Byte) : Prop :=
  w = [48] ∨ ∃ d ds, w = d :: ds ∧ 49 ≤ d ∧ d ≤ 57 ∧ Digits ds

/-- The optional fraction `(\.[0-9]+)?`. -/
def FracPart (w : List Byte) : Prop :=
  w = [] ∨ ∃ d ds, w = 46 :: d :: ds ∧ Digits (d :: ds)

/-- The optional exponent `([eE][+-]?[0-9]+)?`. -/
def ExpPart (w : List Byte) : Prop :=
  w = [] ∨ ∃ e sgn d ds, w = e :: (sgn ++ d :: ds) ∧ (e = 101 ∨ e = 69) ∧
    (sgn = [] ∨ sgn = [43] ∨ sgn = [45]) ∧ Digits (d :: ds)

/-- The number grammar `-? (0 | [1-9][0-9]*) (\.[0-9]+)? ([eE][+-]?[0-9]+)?`. -/
def NumberLexeme (w : List Byte) : Prop :=
  ∃ sgn i f e, w = sgn ++ (i ++ (f ++ e)) ∧ (sgn = [] ∨ sgn = [45]) ∧
    IntPart i ∧ FracPart f ∧ ExpPart e

/-- A hexadecimal digit `0-9`, `a-f`, `A-F`. -/
def HexDigit (b : Byte) : Prop :=
  (48 ≤ b ∧ b ≤ 57) ∨ (97 ≤ b ∧ b ≤ 102) ∨ (65 ≤ b ∧ b ≤ 70)

/-- The byte after a backslash in a two-byte escape: one of
`b f n r t \ / "`. -/
def EscapeChar (b : Byte) : Prop :=
  b = 98 ∨ b = 102 ∨ b = 110 ∨ b = 114 ∨ b = 116 ∨ b = 92 ∨ b = 47 ∨ b = 34

/-- The bytes between the quotes of a string: plain bytes from 0x20 on other
than the quote and the backslash, two-byte escapes, and `\u` with four
hexadecimal digits. -/
inductive StringBody : List Byte → Prop
  | nil : StringBody []
  | char (b : Byte) (s : List Byte) :
      32 ≤ b → b ≠ 34 → b ≠ 92 → StringBody s → StringBody (b :: s)
  | escape (b : Byte) (s : List Byte) :
      EscapeChar b → StringBody s → StringBody (92 :: b :: s)
  | unicode (h1 h2 h3 h4 : Byte) (s : List Byte) :
      HexDigit h1 → HexDigit h2 → HexDigit h3 → HexDigit h4 → StringBody s →
      StringBody (92 :: 117 :: h1 :: h2 :: h3 :: h4 :: s)

/-- A JSON value; numbers, strings and keys carry their bytes. -/
inductive JValue
  | null
  | bool (b : Bool)
  | number (lexeme : List Byte)
  | string (body : List Byte)
  | array (items : List JValue)
  | object (members : List (List Byte × JValue))

mutual
/-- The pre-order Start/End traversal of a value. -/
def traversal : JValue → List Event
  | JValue.null => [NullStart, NullEnd]
  | JValue.bool _ => [BoolStart, BoolEnd]
  | JValue.number _ => [NumberStart, NumberEnd]
  | JValue.string _ => [StringStart, StringEnd]
  | JValue.array items => ArrayStart :: (traversalItems items ++ [ArrayEnd])
  | JValue.object members => ObjectStart :: (traversalMembers members ++ [ObjectEnd])
/-- The traversal of the elements of an array. -/
def traversalItems : List JValue → List Event
  | [] => []
  | v :: vs => traversal v ++ traversalItems vs
/-- The traversal of the members of an object: `KeyStart` and `KeyEnd`
around each key. -/
def traversalMembers : List (List Byte × JValue) → List Event
  | [] => []
  | (_, v) :: ms => KeyStart :: KeyEnd :: (traversal v ++ traversalMembers ms)
end

mutual
/-- The relation `Ser v d`: d is a serialization of the value v, without
whitespace around it. -/
inductive Ser : JValue → List Byte → Prop
  | null : Ser JValue.null [110, 117, 108, 108]
  | boolTrue : Ser (JValue.bool true) [116, 114, 117, 101]
  | boolFalse : Ser (JValue.bool false) [102, 97, 108, 115, 101]
  | number (w : List Byte) : NumberLexeme w → Ser (JValue.number w) w
  | string (s : List Byte) : StringBody s → Ser (JValue.string s) (34 :: (s ++ [34]))
  | arrayEmpty (w : List Byte) : Ws w → Ser (JValue.array []) (91 :: (w ++ [93]))
  | array (v : JValue) (vs : List JValue) (d : List Byte) :
      SerItems (v :: vs) d → Ser (JValue.array (v :: vs)) (91 :: (d ++ [93]))
  | objectEmpty (w : List Byte) : Ws w → Ser (JValue.object []) (123 :: (w ++ [125]))
  | object (m : List Byte × JValue) (ms : List (List Byte × JValue)) (d : List Byte) :
      SerMembers (m :: ms) d → Ser (JValue.object (m :: ms)) (123 :: (d ++ [125]))
/-- The elements of a non-empty array, separated by commas, each with
optional whitespace around it. -/
inductive SerItems : List JValue → List Byte → Prop
  | last (v : JValue) (w1 d w2 : List Byte) :
      Ws w1 → Ser v d → Ws w2 → SerItems [v] (w1 ++ (d ++ w2))
  | cons (v : JValue) (vs : List JValue) (w1 d w2 ds : List Byte) :
      Ws w1 → Ser v d → Ws w2 → SerItems vs ds →
      SerItems (v :: vs) (w1 ++ (d ++ (w2 ++ 44 :: ds)))
/-- The members of a non-empty object: a key string, a colon and a value,
separated by commas, with optional whitespace between the tokens. -/
inductive SerMembers : List (List Byte × JValue) → List Byte → Prop
  | last (k : List Byte) (v : JValue) (w1 w2 w3 d w4 : List Byte) :
      Ws w1 → StringBody k → Ws w2 → Ws w3 → Ser v d → Ws w4 →
      SerMembers [(k, v)] (w1 ++ 34 :: (k ++ 34 :: (w2 ++ 58 :: (w3 ++ (d ++ w4)))))
  | cons (k : List Byte) (v : JValue) (ms : List (List Byte × JValue))
      (w1 w2 w3 d w4 ds : List Byte) :
      Ws w1 → StringBody k → Ws w2 → Ws w3 → Ser v d → Ws w4 → SerMembers ms ds →
      SerMembers ((k, v) :: ms)
        (w1 ++ 34 :: (k ++ 34 :: (w2 ++ 58 :: (w3 ++ (d ++ (w4 ++ 44 :: ds))))))
end

/-- A well-formed JSON text: exactly one value, optionally surrounded by
whitespace. -/
def JsonText (v : JValue) (d : List Byte) : Prop :=
  ∃ w1 body w2, d = w1 ++ (body ++ w2) ∧ Ws w1 ∧ Ser v body ∧ Ws w2

/-- The end event that closes a start event. -/
def closes : Event → Event → Bool
  | StringStart, StringEnd => true
  | NumberStart, NumberEnd => true
  | BoolStart, BoolEnd => true
  | NullStart, NullEnd => true
  | ObjectStart, ObjectEnd => true
  | ArrayStart, ArrayEnd => true
  | KeyStart, KeyEnd => true
  | _, _ => false

/-- The bracket structure of an event sequence: every start event is pushed,
every end event must close the start event on top of the stack; the sequence
balances when the stack it leaves is the one it began with. -/
def nesting : List Event → List Event → Option (List Event)
  | [], stack => some stack
  | e :: es, stack =>
    if e.isStart then nesting es (e :: stack)
    else
      match stack with
      | s :: rest => if closes s e then nesting es rest else none
      | [] => none

/-! ## Auxiliary notions of the proofs -/

/-- States whose case can execute `i--`. -/
def State.rewinds : State → Bool
  | _StateArrayValueOrBracket | _StateString | _StateNumberZero | _StateNumber
  | _StateNumberDotDigit | _StateNumberExpDigit => true
  | _ => false

/-- A bound on the number of times the byte at hand can still be read again. -/
def againBound (p : Parser) : Nat :=
  match p.state with
  | _StateArrayValueOrBracket => 1
  | _StateString | _StateNumberZero | _StateNumber
  | _StateNumberDotDigit | _StateNumberExpDigit => p.queue.length + 1
  | _ => 0

/-- The weight of a parser in the count of the events still to come. -/
def weight (p : Parser) : Nat :=
  p.queue.length + (if p.state.rewinds then 1 else 0)

/-- What every pass through the switch satisfies: only the state and the
queue change, at most one state is pushed, an error comes exactly with
`SyntaxError`, and `i--` is executed either by the array state, which hands
the byte to `_StateValue`, or by a string or number state, which pops the
queue. -/
def StepOk (p : Parser) (t : Step) : Prop :=
  t.p.depth = p.depth ∧ t.p.limit = p.limit ∧ t.p.drop = p.drop ∧ t.p.empty = p.empty ∧
  t.p.property = p.property ∧ t.p.queue.length ≤ p.queue.length + 1 ∧
  (t.event = SyntaxError ↔ t.err ≠ none) ∧
  (t.rewind = true →
    (p.state = _StateArrayValueOrBracket ∧ t.event = Continue ∧
      t.p = ({ p with state := _StateValue }).push _StateArrayCommaOrBracket) ∨
    (p.state.rewinds = true ∧ p.state ≠ _StateArrayValueOrBracket ∧ t.p = p.toNext ∧
      (t.event = Continue ∨ t.event = NumberEnd)))

/-- The parser an iteration leaves behind. -/
def Outcome.parser : Outcome → Parser
  | Outcome.advance p => p
  | Outcome.again p => p
  | Outcome.ret p _ _ _ => p

/-- What the lines after the switch satisfy: they keep the state and the
queue, and their outcome tells what the switch did. -/
def SettleOk (t : Step) (o : Outcome) : Prop :=
  o.parser.state = t.p.state ∧ o.parser.queue = t.p.queue ∧
  (∀ p', o = Outcome.again p' → t.rewind = true) ∧
  (∀ p', o = Outcome.advance p' → t.rewind = false) ∧
  (∀ p' c ev err, o = Outcome.ret p' c ev err →
    (ev = SyntaxError ∧ t.event = SyntaxError ∧ c = false ∧ err = t.err ∧ p' = t.p) ∨
    (ev = t.event ∧ ev ≠ SyntaxError ∧ ev ≠ Continue ∧ c = !t.rewind ∧ err = none))

/-- The run of a parser over a buffer told one loop iteration at a time:
`Runs p input r` holds when the calls of `Parse` on the bytes not yet
consumed deliver the events of `r`, consume `r.consumed` bytes in all and
leave the parser `r.p`. -/
inductive Runs : Parser → List Byte → Run → Prop
  | nil (p : Parser) : Runs p [] ⟨[], 0, false, none, p⟩
  | advance {p p' : Parser} {b : Byte} {rest : List Byte} {r : Run} :
      iter p b = Outcome.advance p' → Runs p' rest r →
      Runs p (b :: rest) ⟨r.events, r.consumed + 1, r.failed, r.err, r.p⟩
  | again {p p' : Parser} {b : Byte} {rest : List Byte} {r : Run} :
      iter p b = Outcome.again p' → Runs p' (b :: rest) r → Runs p (b :: rest) r
  | emit {p p' : Parser} {b : Byte} {rest : List Byte} {r : Run} {ev : Event}
      {err : Option String} :
      iter p b = Outcome.ret p' true ev err → ev ≠ SyntaxError → Runs p' rest r →
      Runs p (b :: rest) ⟨ev :: r.events, r.consumed + 1, r.failed, r.err, r.p⟩
  | emitAgain {p p' : Parser} {b : Byte} {rest : List Byte} {r : Run} {ev : Event}
      {err : Option String} :
      iter p b = Outcome.ret p' false ev err → ev ≠ SyntaxError → Runs p' (b :: rest) r →
      Runs p (b :: rest) ⟨ev :: r.events, r.consumed, r.failed, r.err, r.p⟩
  | fail {p p' : Parser} {b : Byte} {rest : List Byte} {c : Bool} {err : Option String} :
      iter p b = Outcome.ret p' c SyntaxError err →
      Runs p (b :: rest) ⟨[SyntaxError], 0, true, err, p'⟩

/-- The run `r` preceded by the events `es` and `n` consumed bytes. -/
def Run.after (es : List Event) (n : Nat) (r : Run) : Run :=
  ⟨es ++ r.events, n + r.consumed, r.failed, r.err, r.p⟩

/-- The parser after the start event of a value that leads from
`_StateValue` to the state `s`: the depth grows unless an object key has
counted the value already. -/
def startValue (p : Parser) (s : State) : Parser :=
  { p with state := s, depth := if p.property then p.depth else p.depth + 1, property := false }

/-- The parser after the end event of a value that began at the parser `p`
in `_StateValue`: the state on top of the queue is resumed and the depth is
the one before the value (and its key). -/
def afterValue (p : Parser) : Parser :=
  { p.toNext with depth := if p.property then p.depth - 1 else p.depth, property := false }

/-- A run that delivers no event, consumes the whole buffer and leaves the
parser `p'`. -/
def Quiet (p : Parser) (d : List Byte) (p' : Parser) : Prop :=
  Runs p d ⟨[], d.length, false, none, p'⟩

/-- The bytes that can follow a value inside a well-formed text: whitespace,
comma, closing bracket and closing brace. -/
def isDelim (b : Byte) : Prop :=
  b = 32 ∨ b = 9 ∨ b = 10 ∨ b = 13 ∨ b = 44 ∨ b = 93 ∨ b = 125

/-- The number states in which the lexeme read so far is complete. -/
def State.numberComplete : State → Bool
  | _StateNumberZero | _StateNumber | _StateNumberDotDigit | _StateNumberExpDigit => true
  | _ => false

/-- The buffer begins with a byte that can follow a value. -/
def DelimHead (z : List Byte) : Prop := ∃ c z', z = c :: z' ∧ isDelim c

/-- The queue holds only the states to resume after an element of an array
or after a member value of an object. -/
def Frames (q : List State) : Prop :=
  ∀ s ∈ q, s = _StateArrayCommaOrBracket ∨ s = _StateObjectCommaOrBrace

/-- The invariant of the parser: the queue holds one frame for every open
array or object whose element is being read; a string has its closing state
on top; the depth counts the frames, the value or container at hand and the
key of the member being read; the property flag is set from the key's
opening quote to the start of the member value. After `End` has delivered a
pending `NumberEnd` the parser is done with depth 1. -/
def Inv (p : Parser) : Prop :=
  match p.state with
  | _StateValue =>
    Frames p.queue ∧
      ((p.queue.head? = some _StateObjectCommaOrBrace ∧ p.property = true ∧
          p.depth = p.queue.length + 1) ∨
        (p.queue.head? ≠ some _StateObjectCommaOrBrace ∧ p.property = false ∧
          p.depth = p.queue.length))
  | _StateDone => p.queue = [] ∧ p.property = false ∧ (p.depth = 0 ∨ p.depth = 1)
  | _StateObjectColon | _StateObjectKeyDone =>
    Frames p.queue ∧ p.property = true ∧ p.depth = p.queue.length + 2
  | _StateString | _StateStringEscaped | _StateStringUnicode | _StateStringUnicode2
  | _StateStringUnicode3 | _StateStringUnicode4 =>
    ∃ q', Frames q' ∧
      ((p.queue = _StateStringDone :: q' ∧ p.property = false ∧ p.depth = q'.length + 1) ∨
        (p.queue = _StateObjectKeyDone :: q' ∧ p.property = true ∧ p.depth = q'.length + 2))
  | _ => Frames p.queue ∧ p.property = false ∧ p.depth = p.queue.length + 1

/-- The parser that an iteration leaves, as far as the state, the queue, the
depth and the property flag go: the depth is updated for every event other
than `Continue` and `SyntaxError`. -/
def Step.core (t : Step) : Parser :=
  if t.event = Continue ∨ t.event = SyntaxError then t.p else updateDepth t.p t.event

/-- The invariant holds for what a pass through the switch leaves. -/
def CoreInv (t : Step) : Prop := Inv t.core

/-! ## The switch as a table -/

/-- The rows of the switch that change the state only:
`KeepRow s b ev s'` says that in state `s` the byte `b` sets the event `ev`
and leads to the state `s'`. -/
inductive KeepRow : State → Byte → Event → State → Prop
  | objectStart : KeepRow _StateValue 123 ObjectStart _StateObjectKeyOrBrace
  | arrayStart : KeepRow _StateValue 91 ArrayStart _StateArrayValueOrBracket
  | minus : KeepRow _StateValue 45 NumberStart _StateNumberNegative
  | zero : KeepRow _StateValue 48 NumberStart _StateNumberZero
  | digit (b : Byte) : 49 ≤ b ∧ b ≤ 57 → KeepRow _StateValue b NumberStart _StateNumber
  | litTrue : KeepRow _StateValue 116 BoolStart _StateTrue
  | litFalse : KeepRow _StateValue 102 BoolStart _StateFalse
  | litNull : KeepRow _StateValue 110 NullStart _StateNull
  | keyEnd (b : Byte) : KeepRow _StateObjectKeyDone b KeyEnd _StateObjectColon
  | memberComma : KeepRow _StateObjectCommaOrBrace 44 Continue _StateObjectKey
  | unicode1 (b : Byte) : isHex b = true →
      KeepRow _StateStringUnicode b Continue _StateStringUnicode2
  | unicode2 (b : Byte) : isHex b = true →
      KeepRow _StateStringUnicode2 b Continue _StateStringUnicode3
  | unicode3 (b : Byte) : isHex b = true →
      KeepRow _StateStringUnicode3 b Continue _StateStringUnicode4
  | unicode4 (b : Byte) : isHex b = true →
      KeepRow _StateStringUnicode4 b Continue _StateString
  | backslash : KeepRow _StateString 92 Continue _StateStringEscaped
  | char (b : Byte) : ¬ b = 34 → ¬ b = 92 → ¬ b < 32 →
      KeepRow _StateString b Continue _StateString
  | escape (b : Byte) :
      b = 98 ∨ b = 102 ∨ b = 110 ∨ b = 114 ∨ b = 116 ∨ b = 92 ∨ b = 47 ∨ b = 34 →
      KeepRow _StateStringEscaped b Continue _StateString
  | escapeU : KeepRow _StateStringEscaped 117 Continue _StateStringUnicode
  | negZero : KeepRow _StateNumberNegative 48 Continue _StateNumberZero
  | negDigit (b : Byte) : 49 ≤ b ∧ b ≤ 57 →
      KeepRow _StateNumberNegative b Continue _StateNumber
  | intDigit (b : Byte) : isDecimal b = true → KeepRow _StateNumber b Continue _StateNumber
  | intDot : KeepRow _StateNumber 46 Continue _StateNumberDotFirstDigit
  | intExp (b : Byte) : b = 101 ∨ b = 69 → KeepRow _StateNumber b Continue _StateNumberExpSign
  | zeroDot : KeepRow _StateNumberZero 46 Continue _StateNumberDotFirstDigit
  | zeroExp (b : Byte) : b = 101 ∨ b = 69 →
      KeepRow _StateNumberZero b Continue _StateNumberExpSign
  | fracFirst (b : Byte) : isDecimal b = true →
      KeepRow _StateNumberDotFirstDigit b Continue _StateNumberDotDigit
  | fracExp (b : Byte) : b = 101 ∨ b = 69 →
      KeepRow _StateNumberDotDigit b Continue _StateNumberExpSign
  | fracDigit (b : Byte) : isDecimal b = true →
      KeepRow _StateNumberDotDigit b Continue _StateNumberDotDigit
  | expSign (b : Byte) : b = 43 ∨ b = 45 →
      KeepRow _StateNumberExpSign b Continue _StateNumberExpFirstDigit
  | expNoSign (b : Byte) : ¬ (b = 43 ∨ b = 45) → isDecimal b = true →
      KeepRow _StateNumberExpSign b Continue _StateNumberExpDigit
  | expFirst (b : Byte) : isDecimal b = true →
      KeepRow _StateNumberExpFirstDigit b Continue _StateNumberExpDigit
  | expDigit (b : Byte) : isDecimal b = true →
      KeepRow _StateNumberExpDigit b Continue _StateNumberExpDigit
  | true1 : KeepRow _StateTrue 114 Continue _StateTrue2
  | true2 : KeepRow _StateTrue2 117 Continue _StateTrue3
  | false1 : KeepRow _StateFalse 97 Continue _StateFalse2
  | false2 : KeepRow _StateFalse2 108 Continue _StateFalse3
  | false3 : KeepRow _StateFalse3 115 Continue _StateFalse4
  | null1 : KeepRow _StateNull 117 Continue _StateNull2
  | null2 : KeepRow _StateNull2 108 Continue _StateNull3

/-- The rows of the switch that push a state: `PushRow s b ev x s' rewind`
says that in state `s` the byte `b` sets the event `ev`, pushes `x` and
leads to the state `s'`. -/
inductive PushRow : State → Byte → Event → State → State → Bool → Prop
  | stringStart : PushRow _StateValue 34 StringStart _StateStringDone _StateString false
  | firstKey : PushRow _StateObjectKeyOrBrace 34 KeyStart _StateObjectKeyDone _StateString false
  | nextKey : PushRow _StateObjectKey 34 KeyStart _StateObjectKeyDone _StateString false
  | colon : PushRow _StateObjectColon 58 Continue _StateObjectCommaOrBrace _StateValue false
  | firstItem (b : Byte) : ¬ b = 93 →
      PushRow _StateArrayValueOrBracket b Continue _StateArrayCommaOrBracket _StateValue true
  | nextItem :
      PushRow _StateArrayCommaOrBracket 44 Continue _StateArrayCommaOrBracket _StateValue false

/-- The rows of the switch that pop the queue: `PopRow s b ev rewind` says
that in state `s` the byte `b` sets the event `ev` and resumes the state on
top of the queue. -/
inductive PopRow : State → Byte → Event → Bool → Prop
  | emptyObject : PopRow _StateObjectKeyOrBrace 125 ObjectEnd false
  | objectEnd : PopRow _StateObjectCommaOrBrace 125 ObjectEnd false
  | emptyArray : PopRow _StateArrayValueOrBracket 93 ArrayEnd false
  | arrayEnd : PopRow _StateArrayCommaOrBracket 93 ArrayEnd false
  | quote : PopRow _StateString 34 Continue true
  | stringEnd (b : Byte) : PopRow _StateStringDone b StringEnd false
  | intEnd (b : Byte) : ¬ isDecimal b = true → ¬ b = 46 → ¬ (b = 101 ∨ b = 69) →
      PopRow _StateNumber b NumberEnd true
  | zeroEnd (b : Byte) : ¬ b = 46 → ¬ (b = 101 ∨ b = 69) →
      PopRow _StateNumberZero b NumberEnd true
  | fracEnd (b : Byte) : ¬ (b = 101 ∨ b = 69) → ¬ isDecimal b = true →
      PopRow _StateNumberDotDigit b NumberEnd true
  | expEnd (b : Byte) : ¬ isDecimal b = true → PopRow _StateNumberExpDigit b NumberEnd true
  | trueEnd : PopRow _StateTrue3 101 BoolEnd false
  | falseEnd : PopRow _StateFalse4 101 BoolEnd false
  | nullEnd : PopRow _StateNull3 108 NullEnd false

/-- The switch as a relation: `Move p b t` holds when the pass through the
switch on the byte `b` can leave the step `t`. -/
inductive Move : Parser → Byte → Step → Prop
  | keep (p : Parser) (b : Byte) (ev : Event) (s' : State) :
      KeepRow p.state b ev s' → Move p b ⟨{ p with state := s' }, ev, none, false⟩
  | push (p : Parser) (b : Byte) (ev : Event) (x s' : State) (rewind : Bool) :
      PushRow p.state b ev x s' rewind →
      Move p b ⟨{ p with state := s', queue := x :: p.queue }, ev, none, rewind⟩
  | pop (p : Parser) (b : Byte) (ev : Event) (rewind : Bool) :
      PopRow p.state b ev rewind → Move p b ⟨p.toNext, ev, none, rewind⟩
  | error (p : Parser) (b : Byte) (s' : State) (msg : String) :
      s' = p.state ∨ (p.state = _StateObjectKeyOrBrace ∧ s' = _StateObjectKey) ∨
        (p.state = _StateNumberExpSign ∧ s' = _StateNumberExpFirstDigit) →
      Move p b ⟨{ p with state := s' }, SyntaxError, some msg, false⟩

/-- The outcome of an iteration agrees with `Step.core` on the state, the
queue, the depth and the property flag. -/
def CoreOk (t : Step) (o : Outcome) : Prop :=
  o.parser.state = t.core.state ∧ o.parser.queue = t.core.queue ∧
  o.parser.depth = t.core.depth ∧ o.parser.property = t.core.property

/-! ## What remains to be read in a well-formed text -/

/-- After an element of an array: nothing, or a comma and further elements. -/
def ItemsTail (t : List Byte) : Prop := t = [] ∨ ∃ vs ds, SerItems vs ds ∧ t = 44 :: ds

/-- After a member of an object: nothing, or a comma and further members. -/
def MembersTail (t : List Byte) : Prop := t = [] ∨ ∃ ms ds, SerMembers ms ds ∧ t = 44 :: ds

/-- What can follow a complete value when the queue is `q`: for every frame
the rest of its array or object, and whitespace after the top-level value. -/
def After : List State → List Byte → Prop
  | [], z => Ws z
  | s :: q, z =>
    (s = _StateArrayCommaOrBracket ∧
      ∃ w t z', z = w ++ (t ++ 93 :: z') ∧ Ws w ∧ ItemsTail t ∧ After q z') ∨
    (s = _StateObjectCommaOrBrace ∧
      ∃ w t z', z = w ++ (t ++ 125 :: z') ∧ Ws w ∧ MembersTail t ∧ After q z')

/-- What completes a number lexeme in each of the number states. -/
def NumTail : State → List Byte → Prop
  | _StateNumberNegative, t =>
    ∃ i f x, t = i ++ (f ++ x) ∧ IntPart i ∧ FracPart f ∧ ExpPart x
  | _StateNumberZero, t => ∃ f x, t = f ++ x ∧ FracPart f ∧ ExpPart x
  | _StateNumber, t => ∃ ds f x, t = ds ++ (f ++ x) ∧ Digits ds ∧ FracPart f ∧ ExpPart x
  | _StateNumberDotFirstDigit, t => ∃ d ds x, t = d :: (ds ++ x) ∧ Digits (d :: ds) ∧ ExpPart x
  | _StateNumberDotDigit, t => ∃ ds x, t = ds ++ x ∧ Digits ds ∧ ExpPart x
  | _StateNumberExpSign, t =>
    ∃ sgn d ds, t = sgn ++ d :: ds ∧ (sgn = [] ∨ sgn = [43] ∨ sgn = [45]) ∧ Digits (d :: ds)
  | _StateNumberExpFirstDigit, t => ∃ d ds, t = d :: ds ∧ Digits (d :: ds)
  | _StateNumberExpDigit, t => Digits t
  | _, _ => False

/-- What completes a string body in each of the string states. -/
def StrTail : State → List Byte → Prop
  | _StateString, t => StringBody t
  | _StateStringEscaped, t =>
    ∃ c s, t = c :: s ∧
      ((EscapeChar c ∧ StringBody s) ∨
        (c = 117 ∧ ∃ h1 h2 h3 h4 s', s = h1 :: h2 :: h3 :: h4 :: s' ∧ HexDigit h1 ∧
          HexDigit h2 ∧ HexDigit h3 ∧ HexDigit h4 ∧ StringBody s'))
  | _StateStringUnicode, t =>
    ∃ h1 h2 h3 h4 s, t = h1 :: h2 :: h3 :: h4 :: s ∧ HexDigit h1 ∧ HexDigit h2 ∧
      HexDigit h3 ∧ HexDigit h4 ∧ StringBody s
  | _StateStringUnicode2, t =>
    ∃ h2 h3 h4 s, t = h2 :: h3 :: h4 :: s ∧ HexDigit h2 ∧ HexDigit h3 ∧ HexDigit h4 ∧
      StringBody s
  | _StateStringUnicode3, t =>
    ∃ h3 h4 s, t = h3 :: h4 :: s ∧ HexDigit h3 ∧ HexDigit h4 ∧ StringBody s
  | _StateStringUnicode4, t => ∃ h4 s, t = h4 :: s ∧ HexDigit h4 ∧ StringBody s
  | _, _ => False

/-- What completes a literal in each of the literal states. -/
def LitTail : State → List Byte
  | _StateTrue => [114, 117, 101]
  | _StateTrue2 => [117, 101]
  | _StateTrue3 => [101]
  | _StateFalse => [97, 108, 115, 101]
  | _StateFalse2 => [108, 115, 101]
  | _StateFalse3 => [115, 101]
  | _StateFalse4 => [101]
  | _StateNull => [117, 108, 108]
  | _StateNull2 => [108, 108]
  | _StateNull3 => [108]
  | _ => []

/-- What remains in `_StateValue`: whitespace, a value, and what follows it. -/
def ValueRest (q : List State) (z : List Byte) : Prop :=
  ∃ w v body z', z = w ++ (body ++ z') ∧ Ws w ∧ Ser v body ∧ After q z'

/-- What remains after an object key: whitespace, the colon, and the member
value with what follows it. -/
def ColonRest (q : List State) (z : List Byte) : Prop :=
  ∃ w zz, z = w ++ 58 :: zz ∧ Ws w ∧ ValueRest (_StateObjectCommaOrBrace :: q) zz

/-- What remains inside a string whose closing state is `top`. -/
def StringRest (s top : State) (q : List State) (z : List Byte) : Prop :=
  ∃ t z', z = t ++ 34 :: z' ∧ StrTail s t ∧
    ((top = _StateStringDone ∧ After q z') ∨ (top = _StateObjectKeyDone ∧ ColonRest q z'))

/-- `Rest s q z`: in the state `s` with the queue `q`, the bytes `z` complete
the text read so far to a well-formed text. -/
def Rest (s : State) (q : List State) (z : List Byte) : Prop :=
  match s with
  | _StateValue => ValueRest q z
  | _StateDone => After q z
  | _StateArrayCommaOrBracket => After (_StateArrayCommaOrBracket :: q) z
  | _StateObjectCommaOrBrace => After (_StateObjectCommaOrBrace :: q) z
  | _StateArrayValueOrBracket =>
    ∃ inner z', z = inner ++ 93 :: z' ∧ (Ws inner ∨ ∃ vs, SerItems vs inner) ∧ After q z'
  | _StateObjectKeyOrBrace =>
    ∃ inner z', z = inner ++ 125 :: z' ∧ (Ws inner ∨ ∃ ms, SerMembers ms inner) ∧ After q z'
  | _StateObjectKey =>
    ∃ inner z', z = inner ++ 125 :: z' ∧ (∃ ms, SerMembers ms inner) ∧ After q z'
  | _StateObjectColon => ColonRest q z
  | _StateObjectKeyDone => ∃ z', z = 34 :: z' ∧ ColonRest q z'
  | _StateStringDone => ∃ z', z = 34 :: z' ∧ After q z'
  | _StateString | _StateStringEscaped | _StateStringUnicode | _StateStringUnicode2
  | _StateStringUnicode3 | _StateStringUnicode4 =>
    match q with
    | [] => False
    | top :: q' => StringRest s top q' z
  | _StateNumberNegative | _StateNumberZero | _StateNumber | _StateNumberDotFirstDigit
  | _StateNumberDotDigit | _StateNumberExpSign | _StateNumberExpFirstDigit
  | _StateNumberExpDigit => ∃ t z', z = t ++ z' ∧ NumTail s t ∧ After q z'
  | _StateTrue | _StateTrue2 | _StateTrue3 | _StateFalse | _StateFalse2 | _StateFalse3
  | _StateFalse4 | _StateNull | _StateNull2 | _StateNull3 =>
    ∃ z', z = LitTail s ++ z' ∧ After q z'

/-- The closing quote is at hand whenever the parser is in one of the two
states that take it unchecked. -/
def QuoteCond (p : Parser) (z : List Byte) : Prop :=
  (p.state = _StateObjectKeyDone ∨ p.state = _StateStringDone) → ∃ z', z = 34 :: z'

/-- The parsers on which `End` returns no error: the parser is done, or a
complete number is pending at depth 1. -/
def Accepts (p : Parser) : Prop :=
  p.state = _StateDone ∨ (p.state.numberComplete = true ∧ p.depth = 1)

/-- A pass through the switch that sets `SyntaxError` is repeated on the
parser it leaves: the same byte sets the same error and changes nothing. -/
def ErrStable (p : Parser) (b : Byte) (t : Step) : Prop :=
  t.event = SyntaxError →
    transition t.p b = ⟨t.p, SyntaxError, t.err, false⟩ ∧
    (t.p.state.code < _IgnoreSpace ↔ p.state.code < _IgnoreSpace)

/-! ## Notions for the skip controller -/

/-- The input of the example in the doc comment of `Skip`:
`[{"foo":"bar"},{"baz":[1,2,3]}]`. -/
def skipExample : List Byte :=
  [91, 123, 34, 102, 111, 111, 34, 58, 34, 98, 97, 114, 34, 125, 44,
   123, 34, 98, 97, 122, 34, 58, 91, 49, 44, 50, 44, 51, 93, 125, 93]

/-- The event that an iteration of the loop of `Parse` delivers to the
caller, if it returns. -/
def Outcome.delivered : Outcome → Option Event
  | Outcome.ret _ _ ev _ => some ev
  | _ => none

/-- Two parsers agree on the state, the queue, the depth and the property
flag; the skip fields `drop`, `empty` and `limit` may differ. -/
def SameCore (p q : Parser) : Prop :=
  p.state = q.state ∧ p.queue = q.queue ∧ p.depth = q.depth ∧ p.property = q.property

/-- No skip is active: the test `p.drop != 0 || p.empty != 0` of `Parse`
fails. -/
def NoSkip (p : Parser) : Prop := p.drop = 0 ∧ p.empty = 0

/-- The skip fields of a parser in the window that `Skip` opens at depth `D`
with the budgets `dr` (drop) and `N - dr` (empty), when `used` units of the
budget are spent: the drop budget is spent first, the limit is one below the
depth at which the next unit is spent, and the depth has not fallen to that
limit while budget is left. -/
def Window (D dr N used : Int) (p : Parser) : Prop :=
  0 ≤ used ∧ used ≤ N ∧ 0 ≤ dr ∧ dr ≤ N ∧
  p.drop = max (dr - used) 0 ∧ p.empty = min (N - used) (N - dr) ∧
  p.limit = D - 1 - used ∧ (used < N → D - used ≤ p.depth)

/-- A step with the skip fields of its parser replaced. -/
def Step.withSkip (t : Step) (limit drop empty : Int) : Step :=
  { t with p := { t.p with limit := limit, drop := drop, empty := empty } }

/-! ## Notions for the loop of one call and for the skip budget -/

/-- The loop of `Parse` with a bound on the re-examination of a byte: the
loop of `parseFrom`, in which a byte is read again at most `fuel` times;
`none` stands for a byte that would be read once more. -/
def parseWith (fuel : Nat) (i : Nat) : Parser → List Byte → Option (ParseResult × Parser)
  | p, [] => some (⟨i, Continue, none⟩, p)
  | p, b :: rest =>
    match loopByte fuel p b with
    | Outcome.advance p' => parseWith fuel (i + 1) p' rest
    | Outcome.again _ => none
    | Outcome.ret p' consumed event err =>
      some (⟨if consumed then i + 1 else i, event, err⟩, p')

/-- The configurations of the loop of one call of `Parse`:
`Loop p input q z` holds when the call on the parser `p` with the buffer
`input` comes to the head of the loop with the parser `q` and the bytes `z`
still to read, the first of them being the byte at index `i`. The statement
`continue` leads to the next byte, or after `i--` to the same byte. -/
inductive Loop (p : Parser) (input : List Byte) : Parser → List Byte → Prop
  | start : Loop p input p input
  | advance {q q' : Parser} {rest : List Byte} {b : Byte} :
      Loop p input q (b :: rest) → iter q b = Outcome.advance q' → Loop p input q' rest
  | again {q q' : Parser} {rest : List Byte} {b : Byte} :
      Loop p input q (b :: rest) → iter q b = Outcome.again q' →
      Loop p input q' (b :: rest)

/-- The two states whose case takes the byte for a quote without checking
it: `_StateObjectKeyDone` and `_StateStringDone`. -/
def State.unchecked : State → Bool
  | _StateObjectKeyDone | _StateStringDone => true
  | _ => false

/-- The budget invariant of the skip fields: the budgets are not negative,
and while a skip is active the limit is below the depth and the budgets sum
to at most the limit plus one. -/
def Budget (p : Parser) : Prop :=
  0 ≤ p.drop ∧ 0 ≤ p.empty ∧
  (p.drop + p.empty > 0 → p.limit < p.depth ∧ p.drop + p.empty ≤ p.limit + 1)

/-- The parsers a caller can reach from the zero value with `Parse`, `End`,
`Reset` and calls of `Skip` that do not panic and whose arguments have a sum
in the range of a Go `int`. -/
inductive InRange : Parser → Prop
  | zero : InRange Parser.zero
  | parse {p p' : Parser} {r : ParseResult} (input : List Byte) :
      InRange p → Parse p input = some (r, p') → InRange p'
  | endCall {p : Parser} : InRange p → InRange (End p).2
  | skip {p p' : Parser} (drop empty : Int) :
      InRange p → drop + empty < 2 ^ 63 → Skip p drop empty = some p' → InRange p'
  | reset {p : Parser} : InRange p → InRange (Reset p)

/-! ## Lemmas on one pass through the switch -/

theorem ite_ind {α : Type} {P : α → Prop} (c : Prop) [Decidable c] (a b : α)
    (ha : c → P a) (hb : ¬ c → P b) : P (if c then a else b) := by
  split
  · exact ha ‹_›
  · exact hb ‹_›

theorem againBound_le (p : Parser) : againBound p ≤ p.queue.length + 1 := by
  unfold againBound
  split <;> omega

theorem weight_le (p : Parser) : weight p ≤ p.queue.length + 1 := by
  unfold weight
  split <;> omega

theorem toNext_queue (p : Parser) :
    (p.queue = [] ∧ p.toNext.state = _StateDone ∧ p.toNext.queue = []) ∨
    (∃ s q, p.queue = s :: q ∧ p.toNext.state = s ∧ p.toNext.queue = q) := by
  rcases p with ⟨st, q, d, l, dr, e, pr⟩
  cases q <;> simp [Parser.toNext, Parser.next]

@[simp] theorem toNext_depth (p : Parser) : p.toNext.depth = p.depth := by
  rcases p with ⟨st, q, d, l, dr, e, pr⟩
  cases q <;> simp [Parser.toNext, Parser.next]

@[simp] theorem toNext_limit (p : Parser) : p.toNext.limit = p.limit := by
  rcases p with ⟨st, q, d, l, dr, e, pr⟩
  cases q <;> simp [Parser.toNext, Parser.next]

@[simp] theorem toNext_drop (p : Parser) : p.toNext.drop = p.drop := by
  rcases p with ⟨st, q, d, l, dr, e, pr⟩
  cases q <;> simp [Parser.toNext, Parser.next]

@[simp] theorem toNext_empty (p : Parser) : p.toNext.empty = p.empty := by
  rcases p with ⟨st, q, d, l, dr, e, pr⟩
  cases q <;> simp [Parser.toNext, Parser.next]

@[simp] theorem toNext_property (p : Parser) : p.toNext.property = p.property := by
  rcases p with ⟨st, q, d, l, dr, e, pr⟩
  cases q <;> simp [Parser.toNext, Parser.next]

theorem toNext_queue_le (p : Parser) : p.toNext.queue.length ≤ p.queue.length + 1 := by
  rcases p with ⟨st, q, d, l, dr, e, pr⟩
  cases q <;> simp [Parser.toNext, Parser.next]
  omega

theorem toNext_againBound (p : Parser) : againBound p.toNext ≤ p.queue.length := by
  rcases toNext_queue p with ⟨h1, h2, h3⟩ | ⟨s, q, h1, h2, h3⟩
  · simp [againBound, h2]
  · have := againBound_le p.toNext
    rw [h3] at this
    simpa [h1] using this

theorem toNext_weight (p : Parser) : weight p.toNext ≤ p.queue.length := by
  rcases toNext_queue p with ⟨h1, h2, h3⟩ | ⟨s, q, h1, h2, h3⟩
  · simp [weight, h2, h3, State.rewinds]
  · have := weight_le p.toNext
    rw [h3] at this
    simpa [h1] using this

/-- Every pass through the switch has the shape `StepOk`. -/
theorem transition_ok (p : Parser) (b : Byte) : StepOk p (transition p b) := by
  rcases p with ⟨st, q, d, l, dr, e, pr⟩
  cases st <;> simp only [transition] <;>
    (try unfold caseValue) <;> (try unfold caseObjectKeyOrBrace) <;>
    (try unfold caseObjectKey) <;> (try unfold caseObjectColon) <;>
    (try unfold caseObjectCommaOrBrace) <;> (try unfold caseArrayValueOrBracket) <;>
    (try unfold caseArrayCommaOrBracket) <;> (try unfold caseStringUnicode) <;>
    (try unfold caseString) <;> (try unfold caseStringEscaped) <;>
    (try unfold caseNumberNegative) <;> (try unfold caseNumber) <;>
    (try unfold caseNumberZero) <;> (try unfold caseNumberDotFirstDigit) <;>
    (try unfold caseNumberDotDigit) <;> (try unfold caseNumberExpSign) <;>
    (try unfold caseNumberExpFirstDigit) <;> (try unfold caseNumberExpDigit) <;>
    (try unfold caseLiteral) <;>
    (repeat' (refine ite_ind _ _ _ (fun _ => ?_) (fun _ => ?_))) <;>
    simp [StepOk, Parser.push, toNext_queue_le, State.rewinds]

/-- The switch follows its table. -/
theorem transition_move (p : Parser) (b : Byte) : Move p b (transition p b) := by
  rcases p with ⟨st, q, d, l, dr, e, pr⟩
  cases st <;> simp only [transition] <;>
    (try unfold caseValue) <;> (try unfold caseObjectKeyOrBrace) <;>
    (try unfold caseObjectKey) <;> (try unfold caseObjectColon) <;>
    (try unfold caseObjectCommaOrBrace) <;> (try unfold caseArrayValueOrBracket) <;>
    (try unfold caseArrayCommaOrBracket) <;> (try unfold caseStringUnicode) <;>
    (try unfold caseString) <;> (try unfold caseStringEscaped) <;>
    (try unfold caseNumberNegative) <;> (try unfold caseNumber) <;>
    (try unfold caseNumberZero) <;> (try unfold caseNumberDotFirstDigit) <;>
    (try unfold caseNumberDotDigit) <;> (try unfold caseNumberExpSign) <;>
    (try unfold caseNumberExpFirstDigit) <;> (try unfold caseNumberExpDigit) <;>
    (try unfold caseLiteral) <;>
    (repeat' (refine ite_ind _ _ _ (fun _ => ?_) (fun _ => ?_))) <;>
    first
      | exact Move.error _ _ _ _ (by simp)
      | exact Move.pop _ _ _ _ (by subst_vars; constructor <;> assumption)
      | exact Move.keep _ _ _ _
          (by subst_vars; constructor <;> first | assumption | simp_all)
      | exact Move.push _ _ _ _ _ _ (by subst_vars; constructor <;> assumption)

/-- An error of the switch is repeated on the parser that the switch leaves. -/
theorem transition_errStable (p : Parser) (b : Byte) : ErrStable p b (transition p b) := by
  rcases p with ⟨st, q, d, l, dr, e, pr⟩
  cases st <;> simp only [transition] <;>
    (try unfold caseValue) <;> (try unfold caseObjectKeyOrBrace) <;>
    (try unfold caseObjectKey) <;> (try unfold caseObjectColon) <;>
    (try unfold caseObjectCommaOrBrace) <;> (try unfold caseArrayValueOrBracket) <;>
    (try unfold caseArrayCommaOrBracket) <;> (try unfold caseStringUnicode) <;>
    (try unfold caseString) <;> (try unfold caseStringEscaped) <;>
    (try unfold caseNumberNegative) <;> (try unfold caseNumber) <;>
    (try unfold caseNumberZero) <;> (try unfold caseNumberDotFirstDigit) <;>
    (try unfold caseNumberDotDigit) <;> (try unfold caseNumberExpSign) <;>
    (try unfold caseNumberExpFirstDigit) <;> (try unfold caseNumberExpDigit) <;>
    (try unfold caseLiteral) <;>
    (repeat' (refine ite_ind _ _ _ (fun _ => ?_) (fun _ => ?_))) <;>
    first
      | (intro h; simp at h; done)
      | (intro _
         simp only [transition, caseValue, caseObjectKey, caseObjectColon,
           caseObjectCommaOrBrace, caseArrayCommaOrBracket, caseStringUnicode, caseString,
           caseStringEscaped, caseNumberNegative, caseNumberDotFirstDigit,
           caseNumberExpFirstDigit, caseLiteral, State.code, _IgnoreSpace]
         simp_all)

/-! ## Lemmas on one iteration of the loop -/

@[simp] theorem updateDepth_state (p : Parser) (ev : Event) :
    (updateDepth p ev).state = p.state := by
  unfold updateDepth
  split_ifs <;> rfl

@[simp] theorem updateDepth_queue (p : Parser) (ev : Event) :
    (updateDepth p ev).queue = p.queue := by
  unfold updateDepth
  split_ifs <;> rfl

@[simp] theorem updateDepth_limit (p : Parser) (ev : Event) :
    (updateDepth p ev).limit = p.limit := by
  unfold updateDepth
  split_ifs <;> rfl

@[simp] theorem updateDepth_drop (p : Parser) (ev : Event) :
    (updateDepth p ev).drop = p.drop := by
  unfold updateDepth
  split_ifs <;> rfl

@[simp] theorem updateDepth_empty (p : Parser) (ev : Event) :
    (updateDepth p ev).empty = p.empty := by
  unfold updateDepth
  split_ifs <;> rfl

theorem settleOk_cont (t : Step) (p2 : Parser) (h1 : p2.state = t.p.state)
    (h2 : p2.queue = t.p.queue) : SettleOk t (Outcome.cont t.rewind p2) := by
  unfold Outcome.cont
  cases h : t.rewind <;> simp [SettleOk, Outcome.parser, h1, h2, h]

theorem settleOk_again (t : Step) (p2 : Parser) (h1 : p2.state = t.p.state)
    (h2 : p2.queue = t.p.queue) (h : t.rewind = true) : SettleOk t (Outcome.again p2) := by
  simp [SettleOk, Outcome.parser, h1, h2, h]

theorem settleOk_advance (t : Step) (p2 : Parser) (h1 : p2.state = t.p.state)
    (h2 : p2.queue = t.p.queue) (h : ¬ t.rewind = true) : SettleOk t (Outcome.advance p2) := by
  simp [SettleOk, Outcome.parser, h1, h2, h]

theorem settleOk_ret (t : Step) (p2 : Parser) (h1 : p2.state = t.p.state)
    (h2 : p2.queue = t.p.queue) (h3 : t.event ≠ Continue) (h4 : t.event ≠ SyntaxError) :
    SettleOk t (Outcome.ret p2 (!t.rewind) t.event none) := by
  refine ⟨h1, h2, by simp, by simp, ?_⟩
  intro p' c ev err h
  cases h
  exact Or.inr ⟨rfl, h4, h3, rfl, rfl⟩

/-- The lines after the switch keep the state and the queue, and tell by
their outcome what the switch did. -/
theorem settle_spec (t : Step) : SettleOk t (settle t) := by
  unfold settle
  refine ite_ind _ _ _ (fun _ => settleOk_cont t _ rfl rfl) (fun h1 => ?_)
  refine ite_ind _ _ _ (fun h2 => ?_) (fun h2 => ?_)
  · simp [SettleOk, Outcome.parser, h2]
  · simp only []
    repeat' (refine ite_ind _ _ _ (fun _ => ?_) (fun _ => ?_))
    all_goals first
      | exact settleOk_again t _ (by simp) (by simp) ‹_›
      | exact settleOk_advance t _ (by simp) (by simp) ‹_›
      | exact settleOk_ret t _ (by simp) (by simp) h1 h2

theorem weight_congr {p q : Parser} (h1 : p.state = q.state) (h2 : p.queue = q.queue) :
    weight p = weight q := by
  simp [weight, h1, h2]

theorem againBound_congr {p q : Parser} (h1 : p.state = q.state) (h2 : p.queue = q.queue) :
    againBound p = againBound q := by
  simp [againBound, h1, h2]

/-- After `i--` the byte can be read again fewer times, and the weight pays
for the event. -/
theorem transition_rewind (p : Parser) (b : Byte) (h : (transition p b).rewind = true) :
    againBound (transition p b).p < againBound p ∧
    weight (transition p b).p + (if (transition p b).event = Continue then 0 else 1) ≤ weight p ∧
    (transition p b).event ≠ SyntaxError := by
  rcases (transition_ok p b).2.2.2.2.2.2.2 h with ⟨h1, h2, h3⟩ | ⟨h1, h2, h3, h4⟩
  · rw [h3, h2]
    simp [againBound, weight, h1, Parser.push, State.rewinds]
  · rw [h3]
    have hb := toNext_againBound p
    have hw := toNext_weight p
    have e1 : againBound p = p.queue.length + 1 := by
      unfold againBound
      revert h1 h2
      cases p.state <;> simp [State.rewinds]
    have e2 : weight p = p.queue.length + 1 := by simp [weight, h1]
    refine ⟨by omega, ?_, ?_⟩
    · split <;> omega
    · rcases h4 with h4 | h4 <;> simp [h4]

/-- An iteration keeps the state and the queue that the switch leaves, or
consumes a whitespace byte. -/
theorem iter_outcome (p : Parser) (b : Byte) :
    (iter p b = Outcome.advance p) ∨
    (iter p b = settle (transition p b) ∧
      (iter p b).parser.state = (transition p b).p.state ∧
      (iter p b).parser.queue = (transition p b).p.queue) := by
  unfold iter
  split
  · exact Or.inl rfl
  · exact Or.inr ⟨rfl, (settle_spec _).1, (settle_spec _).2.1⟩

theorem iter_again {p p' : Parser} {b : Byte} (h : iter p b = Outcome.again p') :
    againBound p' < againBound p ∧ weight p' ≤ weight p := by
  rcases iter_outcome p b with h0 | ⟨h0, h1, h2⟩
  · rw [h] at h0; cases h0
  · rw [h] at h1 h2 h0
    have hr := (settle_spec _).2.2.1 p' h0.symm
    have := transition_rewind p b hr
    simp only [Outcome.parser] at h1 h2
    rw [againBound_congr h1 h2, weight_congr h1 h2]
    omega

theorem iter_ret_false {p p' : Parser} {b : Byte} {ev : Event} {err : Option String}
    (h : iter p b = Outcome.ret p' false ev err) (hev : ev ≠ SyntaxError) :
    againBound p' < againBound p ∧ weight p' + 1 ≤ weight p := by
  rcases iter_outcome p b with h0 | ⟨h0, h1, h2⟩
  · rw [h] at h0; cases h0
  · rw [h] at h1 h2 h0
    rcases (settle_spec _).2.2.2.2 p' false ev err h0.symm with ⟨h3, _⟩ | ⟨h3, h4, h5, h6, h7⟩
    · exact absurd h3 hev
    · have hr : (transition p b).rewind = true := by
        revert h6; cases (transition p b).rewind <;> simp
      have := transition_rewind p b hr
      simp only [Outcome.parser] at h1 h2
      rw [againBound_congr h1 h2, weight_congr h1 h2]
      rw [← h3] at this
      simp [h5] at this
      omega

theorem iter_weight (p : Parser) (b : Byte) : weight (iter p b).parser ≤ weight p + 2 := by
  rcases iter_outcome p b with h0 | ⟨h0, h1, h2⟩
  · rw [h0]; simp [Outcome.parser]
  · have h3 := (transition_ok p b).2.2.2.2.2.1
    have h4 := weight_le (iter p b).parser
    have h5 := congrArg List.length h2
    have h6 : p.queue.length ≤ weight p := by unfold weight; omega
    omega

/-- A `SyntaxError` is returned without the byte being consumed, with an
error, and any other event without one. -/
theorem iter_ret {p p' : Parser} {b : Byte} {c : Bool} {ev : Event} {err : Option String}
    (h : iter p b = Outcome.ret p' c ev err) :
    ev ≠ Continue ∧ (ev = SyntaxError → c = false ∧ err ≠ none) ∧
    (ev ≠ SyntaxError → err = none) := by
  rcases iter_outcome p b with h0 | ⟨h0, h1, h2⟩
  · rw [h] at h0; cases h0
  · rw [h] at h0
    rcases (settle_spec _).2.2.2.2 p' c ev err h0.symm with
      ⟨h3, h4, h5, h6, _⟩ | ⟨h3, h4, h5, h6, h7⟩
    · refine ⟨by simp [h3], fun _ => ⟨h5, ?_⟩, fun hne => absurd h3 hne⟩
      rw [h6]
      exact (transition_ok p b).2.2.2.2.2.2.1.1 h4
    · exact ⟨h5, fun he => absurd he h4, fun _ => h7⟩

/-! ## The loop on one byte and the loop of `Parse` -/

theorem loopByte_of_not_again {p : Parser} {b : Byte} (f : Nat)
    (h : ∀ p', iter p b ≠ Outcome.again p') : loopByte f p b = iter p b := by
  cases f with
  | zero => rfl
  | succ f =>
    unfold loopByte
    split
    · next p' h' => exact absurd h' (h p')
    · rfl

theorem loopByte_of_again {p p' : Parser} {b : Byte} (f : Nat)
    (h : iter p b = Outcome.again p') : loopByte (f + 1) p b = loopByte f p' b := by
  rw [loopByte, h]

theorem againBound_pos {p p' : Parser} {b : Byte} (h : iter p b = Outcome.again p') :
    0 < againBound p := by
  have := (iter_again h).1
  omega

/-- With `againBound p` units of fuel the loop on a byte does not stop at a
byte that is to be read again, and more fuel does not change its outcome. -/
theorem loopByte_fuel (f : Nat) : ∀ (p : Parser) (b : Byte), againBound p ≤ f →
    (∀ p', loopByte f p b ≠ Outcome.again p') ∧ loopByte (f + 1) p b = loopByte f p b := by
  induction f with
  | zero =>
    intro p b hf
    have hna : ∀ p', iter p b ≠ Outcome.again p' := by
      intro p' h
      have := againBound_pos h
      omega
    exact ⟨fun p' => by rw [loopByte_of_not_again 0 hna]; exact hna p',
      by rw [loopByte_of_not_again 1 hna, loopByte_of_not_again 0 hna]⟩
  | succ f ih =>
    intro p b hf
    by_cases hna : ∀ p', iter p b ≠ Outcome.again p'
    · exact ⟨fun p' => by rw [loopByte_of_not_again _ hna]; exact hna p',
        by rw [loopByte_of_not_again _ hna, loopByte_of_not_again _ hna]⟩
    · push_neg at hna
      obtain ⟨p', hp'⟩ := hna
      have hlt := (iter_again hp').1
      have := ih p' b (by omega)
      rw [loopByte_of_again _ hp', loopByte_of_again _ hp']
      exact this

theorem loopByte_fuel_add (k f : Nat) (p : Parser) (b : Byte) (h : againBound p ≤ f) :
    loopByte (f + k) p b = loopByte f p b := by
  induction k with
  | zero => rfl
  | succ k ih =>
    rw [← Nat.add_assoc, (loopByte_fuel (f + k) p b (by omega)).2, ih]

theorem loopByte_fuel_eq {f g : Nat} (p : Parser) (b : Byte) (hf : againBound p ≤ f)
    (hg : againBound p ≤ g) : loopByte f p b = loopByte g p b := by
  have h1 := loopByte_fuel_add (f - againBound p) (againBound p) p b (le_refl _)
  have h2 := loopByte_fuel_add (g - againBound p) (againBound p) p b (le_refl _)
  rw [Nat.add_sub_cancel' hf] at h1
  rw [Nat.add_sub_cancel' hg] at h2
  rw [h1, h2]

/-- The loop of `Parse` on a byte that is read again is the loop on the
parser that the iteration leaves. -/
theorem loopByte_again {p p' : Parser} {b : Byte} (h : iter p b = Outcome.again p') :
    loopByte (p.queue.length + 1) p b = loopByte (p'.queue.length + 1) p' b := by
  rw [loopByte_of_again _ h]
  have h1 := (iter_again h).1
  have h2 := againBound_le p
  exact loopByte_fuel_eq p' b (by omega) (againBound_le p')

theorem loopByte_done {p : Parser} {b : Byte} {o : Outcome} (h : iter p b = o)
    (hna : ∀ p', o ≠ Outcome.again p') : loopByte (p.queue.length + 1) p b = o := by
  rw [loopByte_of_not_again _ (by rw [h]; exact hna), h]

/-- The index of the first byte only shifts the consumed count. -/
theorem parseFrom_shift (i : Nat) : ∀ (input : List Byte) (p : Parser),
    parseFrom i p input =
      (parseFrom 0 p input).map (fun x => (⟨x.1.consumed + i, x.1.event, x.1.err⟩, x.2)) := by
  intro input
  induction input generalizing i with
  | nil => intro p; simp [parseFrom]
  | cons b rest ih =>
    intro p
    simp only [parseFrom]
    split
    · rw [ih (i + 1), ih (0 + 1)]
      simp only [Option.map_map, Function.comp_def]
      congr 1
      funext x
      simp only [Nat.zero_add, Nat.add_assoc, Nat.add_comm 1 i]
    · rfl
    · next p' c ev err _ =>
      cases c <;> simp [Nat.add_comm]

theorem Parse_nil (p : Parser) : Parse p [] = some (⟨0, Continue, none⟩, p) := rfl

theorem Parse_advance {p p' : Parser} {b : Byte} (rest : List Byte)
    (h : iter p b = Outcome.advance p') :
    Parse p (b :: rest) =
      (Parse p' rest).map (fun x => (⟨x.1.consumed + 1, x.1.event, x.1.err⟩, x.2)) := by
  unfold Parse
  rw [parseFrom, loopByte_done h (by simp)]
  exact parseFrom_shift 1 rest p'

theorem Parse_again {p p' : Parser} {b : Byte} (rest : List Byte)
    (h : iter p b = Outcome.again p') : Parse p (b :: rest) = Parse p' (b :: rest) := by
  unfold Parse
  rw [parseFrom, parseFrom, loopByte_again h]

theorem Parse_ret {p p' : Parser} {b : Byte} {c : Bool} {ev : Event} {err : Option String}
    (rest : List Byte) (h : iter p b = Outcome.ret p' c ev err) :
    Parse p (b :: rest) = some (⟨if c then 1 else 0, ev, err⟩, p') := by
  unfold Parse
  rw [parseFrom, loopByte_done h (by simp)]

/-! ## The caller's loop and the relation `Runs` -/

theorem driveFuel_nil (f : Nat) (p : Parser) :
    driveFuel (f + 1) p [] = some ⟨[], 0, false, none, p⟩ := by
  simp [driveFuel, Parse_nil]

theorem driveFuel_advance {p p' : Parser} {b : Byte} (rest : List Byte) (f : Nat)
    (h : iter p b = Outcome.advance p') :
    driveFuel f p (b :: rest) =
      (driveFuel f p' rest).map
        (fun r => ⟨r.events, r.consumed + 1, r.failed, r.err, r.p⟩) := by
  cases f with
  | zero => rfl
  | succ f =>
    simp only [driveFuel, Parse_advance rest h]
    cases hP : Parse p' rest with
    | none => rfl
    | some x =>
      obtain ⟨res, p2⟩ := x
      simp only [Option.map_some']
      by_cases h1 : res.event = SyntaxError
      · simp [h1]
      · by_cases h2 : res.event = Continue
        · simp [h2]
        · simp only [h1, h2, if_false, List.drop_succ_cons]
          cases driveFuel f p2 (List.drop res.consumed rest) with
          | none => rfl
          | some run => simp [Nat.add_assoc, Nat.add_comm, Nat.add_left_comm]

theorem driveFuel_again {p p' : Parser} {b : Byte} (rest : List Byte) (f : Nat)
    (h : iter p b = Outcome.again p') :
    driveFuel f p (b :: rest) = driveFuel f p' (b :: rest) := by
  cases f with
  | zero => rfl
  | succ f => simp only [driveFuel, Parse_again rest h]

theorem driveFuel_emit {p p' : Parser} {b : Byte} {ev : Event} {err : Option String}
    (rest : List Byte) (f : Nat) (h : iter p b = Outcome.ret p' true ev err)
    (hev : ev ≠ SyntaxError) :
    driveFuel (f + 1) p (b :: rest) =
      (driveFuel f p' rest).map
        (fun r => ⟨ev :: r.events, r.consumed + 1, r.failed, r.err, r.p⟩) := by
  have hc := (iter_ret h).1
  simp only [driveFuel, Parse_ret rest h, hev, hc, if_false, if_true, List.drop_succ_cons,
    List.drop_zero]
  cases driveFuel f p' rest with
  | none => rfl
  | some run => simp [Nat.add_comm]

theorem driveFuel_emitAgain {p p' : Parser} {b : Byte} {ev : Event} {err : Option String}
    (rest : List Byte) (f : Nat) (h : iter p b = Outcome.ret p' false ev err)
    (hev : ev ≠ SyntaxError) :
    driveFuel (f + 1) p (b :: rest) =
      (driveFuel f p' (b :: rest)).map
        (fun r => ⟨ev :: r.events, r.consumed, r.failed, r.err, r.p⟩) := by
  have hc := (iter_ret h).1
  simp only [driveFuel, Parse_ret rest h, hev, hc, if_false, Bool.false_eq_true,
    List.drop_zero, Nat.zero_add]
  cases driveFuel f p' (b :: rest) with
  | none => rfl
  | some run => rfl

theorem driveFuel_fail {p p' : Parser} {b : Byte} {c : Bool} {err : Option String}
    (rest : List Byte) (f : Nat) (h : iter p b = Outcome.ret p' c SyntaxError err) :
    driveFuel (f + 1) p (b :: rest) = some ⟨[SyntaxError], 0, true, err, p'⟩ := by
  have hc := ((iter_ret h).2.1 rfl).1
  subst hc
  simp [driveFuel, Parse_ret rest h]

/-- A run told by `Runs` is what the caller's loop computes, given one unit
of fuel for each event and one more. -/
theorem Runs.driveFuel_eq {p : Parser} {d : List Byte} {r : Run} (h : Runs p d r) :
    ∀ f, r.events.length + 1 ≤ f → driveFuel f p d = some r := by
  induction h with
  | nil p =>
    intro f hf
    obtain ⟨f, rfl⟩ : ∃ g, f = g + 1 := ⟨f - 1, by omega⟩
    exact driveFuel_nil f p
  | advance h _ ih =>
    intro f hf
    rw [driveFuel_advance _ f h, ih f hf]
    rfl
  | again h _ ih =>
    intro f hf
    rw [driveFuel_again _ f h, ih f hf]
  | emit h hev _ ih =>
    intro f hf
    obtain ⟨f, rfl⟩ : ∃ g, f = g + 1 := ⟨f - 1, by omega⟩
    simp only [List.length_cons] at hf
    rw [driveFuel_emit _ f h hev, ih f (by omega)]
    rfl
  | emitAgain h hev _ ih =>
    intro f hf
    obtain ⟨f, rfl⟩ : ∃ g, f = g + 1 := ⟨f - 1, by omega⟩
    simp only [List.length_cons] at hf
    rw [driveFuel_emitAgain _ f h hev, ih f (by omega)]
    rfl
  | fail h =>
    intro f hf
    obtain ⟨f, rfl⟩ : ∃ g, f = g + 1 := ⟨f - 1, by omega⟩
    exact driveFuel_fail _ f h

/-- The number of events of a run is bounded by the length of the buffer and
the weight of the parser. -/
theorem Runs.events_le {p : Parser} {d : List Byte} {r : Run} (h : Runs p d r) :
    r.events.length ≤ 4 * d.length + weight p := by
  induction h with
  | nil p => simp
  | @advance p p' b rest r h _ ih =>
    have := iter_weight p b
    rw [h] at this
    simp only [Outcome.parser] at this
    simp only [List.length_cons]
    omega
  | again h _ ih =>
    have := (iter_again h).2
    omega
  | @emit p p' b rest r ev err h hev _ ih =>
    have := iter_weight p b
    rw [h] at this
    simp only [Outcome.parser] at this
    simp only [List.length_cons]
    omega
  | emitAgain h hev _ ih =>
    have := (iter_ret_false h hev).2
    simp only [List.length_cons] at ih ⊢
    omega
  | fail h =>
    simp only [List.length_cons, List.length_nil]
    omega

/-- The caller's loop computes every run told by `Runs`. -/
theorem Runs.drive_eq {p : Parser} {d : List Byte} {r : Run} (h : Runs p d r) :
    drive p d = some r := by
  have h1 := h.events_le
  have h2 := weight_le p
  exact h.driveFuel_eq _ (by omega)

theorem Runs.total_cons (b : Byte) (rest : List Byte) (ih : ∀ p, ∃ r, Runs p rest r) :
    ∀ (n : Nat) (p : Parser), againBound p ≤ n → ∃ r, Runs p (b :: rest) r := by
  intro n
  induction n with
  | zero =>
    intro p hp
    cases h : iter p b with
    | advance p' =>
      obtain ⟨r, hr⟩ := ih p'
      exact ⟨_, Runs.advance h hr⟩
    | again p' =>
      have := againBound_pos h
      omega
    | ret p' c ev err =>
      by_cases hev : ev = SyntaxError
      · subst hev
        exact ⟨_, Runs.fail h⟩
      · cases c with
        | true =>
          obtain ⟨r, hr⟩ := ih p'
          exact ⟨_, Runs.emit h hev hr⟩
        | false =>
          have := (iter_ret_false h hev).1
          omega
  | succ n ihn =>
    intro p hp
    cases h : iter p b with
    | advance p' =>
      obtain ⟨r, hr⟩ := ih p'
      exact ⟨_, Runs.advance h hr⟩
    | again p' =>
      have := (iter_again h).1
      obtain ⟨r, hr⟩ := ihn p' (by omega)
      exact ⟨_, Runs.again h hr⟩
    | ret p' c ev err =>
      by_cases hev : ev = SyntaxError
      · subst hev
        exact ⟨_, Runs.fail h⟩
      · cases c with
        | true =>
          obtain ⟨r, hr⟩ := ih p'
          exact ⟨_, Runs.emit h hev hr⟩
        | false =>
          have := (iter_ret_false h hev).1
          obtain ⟨r, hr⟩ := ihn p' (by omega)
          exact ⟨_, Runs.emitAgain h hev hr⟩

/-- Every parser has a run over every buffer. -/
theorem Runs.total (d : List Byte) : ∀ p : Parser, ∃ r, Runs p d r := by
  induction d with
  | nil => exact fun p => ⟨_, Runs.nil p⟩
  | cons b rest ih => exact fun p => Runs.total_cons b rest ih _ p (le_refl _)

/-- The caller's loop ends on every parser and every buffer. -/
theorem drive_total (p : Parser) (d : List Byte) : ∃ r, drive p d = some r := by
  obtain ⟨r, hr⟩ := Runs.total d p
  exact ⟨r, hr.drive_eq⟩

/-- The caller's loop computes exactly the runs told by `Runs`. -/
theorem drive_iff (p : Parser) (d : List Byte) (r : Run) : drive p d = some r ↔ Runs p d r := by
  constructor
  · intro h
    obtain ⟨r', hr'⟩ := Runs.total d p
    have := hr'.drive_eq
    rw [h] at this
    cases this
    exact hr'
  · exact Runs.drive_eq

theorem Runs.det {p : Parser} {d : List Byte} {r r' : Run} (h : Runs p d r) (h' : Runs p d r') :
    r = r' := by
  have h1 := h.drive_eq
  rw [h'.drive_eq] at h1
  cases h1
  rfl

/-! ## Runs over concatenated buffers -/

@[simp] theorem Run.after_nil_zero (r : Run) : r.after [] 0 = r := by
  cases r; simp [Run.after]

theorem Run.after_after (es1 es2 : List Event) (n1 n2 : Nat) (r : Run) :
    (r.after es2 n2).after es1 n1 = r.after (es1 ++ es2) (n1 + n2) := by
  simp [Run.after, Nat.add_assoc]

theorem Runs.step_advance {p p' : Parser} {b : Byte} {z : List Byte} {r : Run}
    (h : iter p b = Outcome.advance p') (hr : Runs p' z r) : Runs p (b :: z) (r.after [] 1) := by
  have := Runs.advance h hr
  simpa [Run.after, Nat.add_comm] using this

theorem Runs.step_emit {p p' : Parser} {b : Byte} {z : List Byte} {r : Run} {ev : Event}
    {err : Option String} (h : iter p b = Outcome.ret p' true ev err) (hev : ev ≠ SyntaxError)
    (hr : Runs p' z r) : Runs p (b :: z) (r.after [ev] 1) := by
  have := Runs.emit h hev hr
  simpa [Run.after, Nat.add_comm] using this

theorem Runs.step_emitAgain {p p' : Parser} {b : Byte} {z : List Byte} {r : Run} {ev : Event}
    {err : Option String} (h : iter p b = Outcome.ret p' false ev err) (hev : ev ≠ SyntaxError)
    (hr : Runs p' (b :: z) r) : Runs p (b :: z) (r.after [ev] 0) := by
  have := Runs.emitAgain h hev hr
  simpa [Run.after] using this

/-- A run that does not fail goes on with the run of the parser it leaves. -/
theorem Runs.append {p : Parser} {d1 : List Byte} {r1 : Run} (h1 : Runs p d1 r1)
    (hok : r1.failed = false) {d2 : List Byte} {r2 : Run} (h2 : Runs r1.p d2 r2) :
    Runs p (d1 ++ d2) (r2.after r1.events r1.consumed) := by
  induction h1 with
  | nil p => simpa using h2
  | advance h _ ih =>
    have := Runs.step_advance h (ih hok h2)
    simpa [Run.after_after, Nat.add_comm] using this
  | again h _ ih => exact Runs.again h (ih hok h2)
  | emit h hev _ ih =>
    have := Runs.step_emit h hev (ih hok h2)
    simpa [Run.after_after, Nat.add_comm] using this
  | emitAgain h hev _ ih =>
    have := Runs.step_emitAgain h hev (ih hok h2)
    simpa [Run.after_after] using this
  | fail h => simp at hok

/-- A run that fails is the run over every longer buffer. -/
theorem Runs.append_failed {p : Parser} {d1 : List Byte} {r1 : Run} (h1 : Runs p d1 r1)
    (hf : r1.failed = true) (d2 : List Byte) : Runs p (d1 ++ d2) r1 := by
  induction h1 with
  | nil p => simp at hf
  | advance h _ ih => exact Runs.advance h (ih hf)
  | again h _ ih => exact Runs.again h (ih hf)
  | emit h hev _ ih => exact Runs.emit h hev (ih hf)
  | emitAgain h hev _ ih => exact Runs.emitAgain h hev (ih hf)
  | fail h => exact Runs.fail h

/-- Driving chunk by chunk is driving over the whole buffer. -/
theorem driveChunks_eq_drive (chunks : List (List Byte)) :
    ∀ p : Parser, driveChunks p chunks = drive p chunks.flatten := by
  induction chunks with
  | nil =>
    intro p
    exact ((Runs.nil p).drive_eq).symm
  | cons c cs ih =>
    intro p
    obtain ⟨r, hr⟩ := drive_total p c
    have hR := (drive_iff p c r).1 hr
    simp only [driveChunks, hr, List.flatten_cons]
    by_cases hf : r.failed = true
    · simp only [hf, if_true]
      exact ((hR.append_failed hf _).drive_eq).symm
    · simp only [hf, if_false]
      obtain ⟨r2, hr2⟩ := drive_total r.p cs.flatten
      rw [ih r.p, hr2]
      have hR2 := (drive_iff _ _ _).1 hr2
      have := (hR.append (by simpa using hf) hR2).drive_eq
      rw [this]
      rfl

/-! ## Quiet runs -/

theorem Quiet.nil_quiet (p : Parser) : Quiet p [] p := Runs.nil p

theorem Quiet.trans {p p1 p2 : Parser} {d1 d2 : List Byte} (h1 : Quiet p d1 p1)
    (h2 : Quiet p1 d2 p2) : Quiet p (d1 ++ d2) p2 := by
  have := Runs.append h1 rfl h2
  simpa [Quiet, Run.after] using this

theorem Quiet.step {p p' : Parser} {b : Byte} (h : iter p b = Outcome.advance p') :
    Quiet p [b] p' := by
  have := Runs.step_advance h (Runs.nil p')
  simpa [Quiet, Run.after] using this

theorem Quiet.cons_quiet {p m p2 : Parser} {b : Byte} {d : List Byte}
    (h : iter p b = Outcome.advance m) (h2 : Quiet m d p2) : Quiet p (b :: d) p2 :=
  Quiet.trans (Quiet.step h) h2

/-- A quiet run followed by a run. -/
theorem Quiet.then {p p1 : Parser} {d z : List Byte} {r : Run} (h : Quiet p d p1)
    (hr : Runs p1 z r) : Runs p (d ++ z) (r.after [] d.length) :=
  Runs.append h rfl hr

/-- Whitespace is consumed quietly before the states below `_IgnoreSpace`. -/
theorem quiet_ws (p : Parser) (hs : p.state.code < _IgnoreSpace) :
    ∀ w : List Byte, Ws w → Quiet p w p := by
  intro w
  induction w with
  | nil => exact fun _ => Quiet.nil_quiet p
  | cons b w ih =>
    intro hw
    have hb : isSpace b = true := by
      have := hw b (List.mem_cons_self _ _)
      rcases this with h | h | h | h <;> simp [isSpace, h]
    refine Quiet.cons_quiet ?_ (ih (fun c hc => hw c (List.mem_cons_of_mem _ hc)))
    simp [iter, hs, hb]

/-! ## The string states -/

theorem quiet_stringBody {s : List Byte} (h : StringBody s) (q : List State)
    (d l dr e : Int) (pr : Bool) :
    Quiet ⟨_StateString, q, d, l, dr, e, pr⟩ s ⟨_StateString, q, d, l, dr, e, pr⟩ := by
  induction h with
  | nil => exact Quiet.nil_quiet _
  | char b s h1 h2 h3 _ ih =>
    refine Quiet.cons_quiet ?_ ih
    have : ¬ b < 32 := Nat.not_lt.mpr h1
    simp [iter, State.code, _IgnoreSpace, transition, caseString, settle, Outcome.cont, h2, h3,
      this]
  | escape b s hb _ ih =>
    refine Quiet.cons_quiet (m := ⟨_StateStringEscaped, q, d, l, dr, e, pr⟩) ?_ (Quiet.cons_quiet ?_ ih)
    · simp [iter, State.code, _IgnoreSpace, transition, caseString, settle, Outcome.cont]
    · have hb' : b = 98 ∨ b = 102 ∨ b = 110 ∨ b = 114 ∨ b = 116 ∨ b = 92 ∨ b = 47 ∨ b = 34 := hb
      simp [iter, State.code, _IgnoreSpace, transition, caseStringEscaped, settle, Outcome.cont,
        hb']
  | unicode h1 h2 h3 h4 s a1 a2 a3 a4 _ ih =>
    have hx : ∀ b, HexDigit b → isHex b = true := by
      intro b hb
      simp only [isHex, isDecimal, Bool.or_eq_true, Bool.and_eq_true, decide_eq_true_eq]
      rcases hb with h | h | h
      · exact Or.inl (Or.inl h)
      · exact Or.inl (Or.inr h)
      · exact Or.inr h
    refine Quiet.cons_quiet (m := ⟨_StateStringEscaped, q, d, l, dr, e, pr⟩) ?_
      (Quiet.cons_quiet (m := ⟨_StateStringUnicode, q, d, l, dr, e, pr⟩) ?_
      (Quiet.cons_quiet (m := ⟨_StateStringUnicode2, q, d, l, dr, e, pr⟩) ?_
      (Quiet.cons_quiet (m := ⟨_StateStringUnicode3, q, d, l, dr, e, pr⟩) ?_
      (Quiet.cons_quiet (m := ⟨_StateStringUnicode4, q, d, l, dr, e, pr⟩) ?_
      (Quiet.cons_quiet ?_ ih)))))
    · simp [iter, State.code, _IgnoreSpace, transition, caseString, settle, Outcome.cont]
    · simp [iter, State.code, _IgnoreSpace, transition, caseStringEscaped, settle, Outcome.cont]
    · simp [iter, State.code, _IgnoreSpace, transition, caseStringUnicode, settle, Outcome.cont,
        hx _ a1]
    · simp [iter, State.code, _IgnoreSpace, transition, caseStringUnicode, settle, Outcome.cont,
        hx _ a2]
    · simp [iter, State.code, _IgnoreSpace, transition, caseStringUnicode, settle, Outcome.cont,
        hx _ a3]
    · simp [iter, State.code, _IgnoreSpace, transition, caseStringUnicode, settle, Outcome.cont,
        hx _ a4]

/-! ## The number states -/

theorem digit_ne {b : Nat} (h : 48 ≤ b ∧ b ≤ 57) :
    b ≠ 101 ∧ b ≠ 69 ∧ b ≠ 43 ∧ b ≠ 45 ∧ b ≠ 46 ∧ b ≠ 34 ∧ b ≠ 92 := by
  omega

theorem nonzero_digit_ne {b : Nat} (h : 49 ≤ b) : b ≠ 48 := by
  omega

theorem isDecimal_of_digit {b : Byte} (h : 48 ≤ b ∧ b ≤ 57) : isDecimal b = true := by
  simp [isDecimal, h.1, h.2]

theorem quiet_digits_number (q : List State) (d l dr e : Int) (pr : Bool) :
    ∀ ds : List Byte, Digits ds →
      Quiet ⟨_StateNumber, q, d, l, dr, e, pr⟩ ds ⟨_StateNumber, q, d, l, dr, e, pr⟩ := by
  intro ds
  induction ds with
  | nil => exact fun _ => Quiet.nil_quiet _
  | cons b ds ih =>
    intro h
    refine Quiet.cons_quiet ?_ (ih (fun c hc => h c (List.mem_cons_of_mem _ hc)))
    simp [iter, State.code, _IgnoreSpace, transition, caseNumber, settle, Outcome.cont,
      isDecimal_of_digit (h b (List.mem_cons_self _ _))]

theorem quiet_digits_dot (q : List State) (d l dr e : Int) (pr : Bool) :
    ∀ ds : List Byte, Digits ds →
      Quiet ⟨_StateNumberDotDigit, q, d, l, dr, e, pr⟩ ds
        ⟨_StateNumberDotDigit, q, d, l, dr, e, pr⟩ := by
  intro ds
  induction ds with
  | nil => exact fun _ => Quiet.nil_quiet _
  | cons b ds ih =>
    intro h
    refine Quiet.cons_quiet ?_ (ih (fun c hc => h c (List.mem_cons_of_mem _ hc)))
    have hb := h b (List.mem_cons_self _ _)
    have h1 : b ≠ 101 := (digit_ne hb).1
    have h2 : b ≠ 69 := (digit_ne hb).2.1
    simp [iter, State.code, _IgnoreSpace, transition, caseNumberDotDigit, settle, Outcome.cont,
      isDecimal_of_digit hb, h1, h2]

theorem quiet_digits_exp (q : List State) (d l dr e : Int) (pr : Bool) :
    ∀ ds : List Byte, Digits ds →
      Quiet ⟨_StateNumberExpDigit, q, d, l, dr, e, pr⟩ ds
        ⟨_StateNumberExpDigit, q, d, l, dr, e, pr⟩ := by
  intro ds
  induction ds with
  | nil => exact fun _ => Quiet.nil_quiet _
  | cons b ds ih =>
    intro h
    refine Quiet.cons_quiet ?_ (ih (fun c hc => h c (List.mem_cons_of_mem _ hc)))
    simp [iter, State.code, _IgnoreSpace, transition, caseNumberExpDigit, settle, Outcome.cont,
      isDecimal_of_digit (h b (List.mem_cons_self _ _))]

/-- The fraction leads from the integer part to `_StateNumberDotDigit`. -/
theorem quiet_frac (s0 : State) (hs0 : s0 = _StateNumberZero ∨ s0 = _StateNumber)
    (q : List State) (d l dr e : Int) (pr : Bool) {f : List Byte} (hf : FracPart f) :
    ∃ s1, (s1 = s0 ∨ s1 = _StateNumberDotDigit) ∧
      Quiet ⟨s0, q, d, l, dr, e, pr⟩ f ⟨s1, q, d, l, dr, e, pr⟩ := by
  rcases hf with rfl | ⟨c, ds, rfl, hd⟩
  · exact ⟨s0, Or.inl rfl, Quiet.nil_quiet _⟩
  · refine ⟨_StateNumberDotDigit, Or.inr rfl, ?_⟩
    refine Quiet.cons_quiet (m := ⟨_StateNumberDotFirstDigit, q, d, l, dr, e, pr⟩) ?_
      (Quiet.cons_quiet (m := ⟨_StateNumberDotDigit, q, d, l, dr, e, pr⟩) ?_
        (quiet_digits_dot q d l dr e pr ds (fun x hx => hd x (List.mem_cons_of_mem _ hx))))
    · rcases hs0 with rfl | rfl <;>
        simp [iter, State.code, _IgnoreSpace, transition, caseNumber, caseNumberZero, settle,
          Outcome.cont, isDecimal]
    · simp [iter, State.code, _IgnoreSpace, transition, caseNumberDotFirstDigit, settle,
        Outcome.cont, isDecimal_of_digit (hd c (List.mem_cons_self _ _))]

/-- The exponent leads from a complete number to `_StateNumberExpDigit`. -/
theorem quiet_exp (s1 : State)
    (hs1 : s1 = _StateNumberZero ∨ s1 = _StateNumber ∨ s1 = _StateNumberDotDigit)
    (q : List State) (d l dr e : Int) (pr : Bool) {x : List Byte} (hx : ExpPart x) :
    ∃ s2, s2.numberComplete = true ∧
      Quiet ⟨s1, q, d, l, dr, e, pr⟩ x ⟨s2, q, d, l, dr, e, pr⟩ := by
  rcases hx with rfl | ⟨c, sgn, c1, ds, rfl, hc, hsgn, hd⟩
  · refine ⟨s1, ?_, Quiet.nil_quiet _⟩
    rcases hs1 with rfl | rfl | rfl <;> rfl
  · refine ⟨_StateNumberExpDigit, rfl, ?_⟩
    have hc1 := hd c1 (List.mem_cons_self _ _)
    have hds := quiet_digits_exp q d l dr e pr ds (fun x hx => hd x (List.mem_cons_of_mem _ hx))
    have hE : iter ⟨s1, q, d, l, dr, e, pr⟩ c =
        Outcome.advance ⟨_StateNumberExpSign, q, d, l, dr, e, pr⟩ := by
      rcases hs1 with rfl | rfl | rfl <;> rcases hc with rfl | rfl <;>
        simp [iter, State.code, _IgnoreSpace, transition, caseNumber, caseNumberZero,
          caseNumberDotDigit, settle, Outcome.cont, isDecimal]
    have hD : iter ⟨_StateNumberExpFirstDigit, q, d, l, dr, e, pr⟩ c1 =
        Outcome.advance ⟨_StateNumberExpDigit, q, d, l, dr, e, pr⟩ := by
      simp [iter, State.code, _IgnoreSpace, transition, caseNumberExpFirstDigit, settle,
        Outcome.cont, isDecimal_of_digit hc1]
    rcases hsgn with rfl | rfl | rfl
    · refine Quiet.cons_quiet hE (Quiet.cons_quiet ?_ hds)
      have h1 : c1 ≠ 43 := (digit_ne hc1).2.2.1
      have h2 : c1 ≠ 45 := (digit_ne hc1).2.2.2.1
      simp [iter, State.code, _IgnoreSpace, transition, caseNumberExpSign,
        caseNumberExpFirstDigit, settle, Outcome.cont, isDecimal_of_digit hc1, h1, h2]
    · refine Quiet.cons_quiet hE (Quiet.cons_quiet (m := ⟨_StateNumberExpFirstDigit, q, d, l, dr, e, pr⟩) ?_
        (Quiet.cons_quiet hD hds))
      simp [iter, State.code, _IgnoreSpace, transition, caseNumberExpSign, settle, Outcome.cont]
    · refine Quiet.cons_quiet hE (Quiet.cons_quiet (m := ⟨_StateNumberExpFirstDigit, q, d, l, dr, e, pr⟩) ?_
        (Quiet.cons_quiet hD hds))
      simp [iter, State.code, _IgnoreSpace, transition, caseNumberExpSign, settle, Outcome.cont]

/-- The integer part leads from `_StateNumberNegative` to a complete number. -/
theorem quiet_int_negative (q : List State) (d l dr e : Int) (pr : Bool) {i : List Byte}
    (hi : IntPart i) :
    ∃ s0, (s0 = _StateNumberZero ∨ s0 = _StateNumber) ∧
      Quiet ⟨_StateNumberNegative, q, d, l, dr, e, pr⟩ i ⟨s0, q, d, l, dr, e, pr⟩ := by
  rcases hi with rfl | ⟨c, ds, rfl, h1, h2, hd⟩
  · refine ⟨_StateNumberZero, Or.inl rfl, Quiet.step ?_⟩
    simp [iter, State.code, _IgnoreSpace, transition, caseNumberNegative, settle, Outcome.cont]
  · refine ⟨_StateNumber, Or.inr rfl, Quiet.cons_quiet ?_ (quiet_digits_number q d l dr e pr ds hd)⟩
    have h3 : c ≠ 48 := nonzero_digit_ne h1
    simp [iter, State.code, _IgnoreSpace, transition, caseNumberNegative, settle, Outcome.cont,
      h1, h2, h3]

/-- After the integer part, the fraction and the exponent lead to a complete
number. -/
theorem quiet_frac_exp (s0 : State) (hs0 : s0 = _StateNumberZero ∨ s0 = _StateNumber)
    (q : List State) (d l dr e : Int) (pr : Bool) {f x : List Byte} (hf : FracPart f)
    (hx : ExpPart x) :
    ∃ s2, s2.numberComplete = true ∧
      Quiet ⟨s0, q, d, l, dr, e, pr⟩ (f ++ x) ⟨s2, q, d, l, dr, e, pr⟩ := by
  obtain ⟨s1, hs1, h1⟩ := quiet_frac s0 hs0 q d l dr e pr hf
  have hs1' : s1 = _StateNumberZero ∨ s1 = _StateNumber ∨ s1 = _StateNumberDotDigit := by
    rcases hs1 with rfl | rfl
    · rcases hs0 with rfl | rfl <;> simp
    · simp
  obtain ⟨s2, hs2, h2⟩ := quiet_exp s1 hs1' q d l dr e pr hx
  exact ⟨s2, hs2, Quiet.trans h1 h2⟩

/-! ## Values that begin in `_StateValue` with no skip active -/

theorem Runs.cast {p : Parser} {d d' : List Byte} {r : Run} {es es' : List Event} {n n' : Nat}
    (hd : d = d') (hes : es = es') (hn : n = n') (h : Runs p d (r.after es n)) :
    Runs p d' (r.after es' n') := by
  subst hd hes hn
  exact h

theorem Runs.emit_quiet {p p1 p2 : Parser} {b : Byte} {d : List Byte} {ev : Event}
    {err : Option String} (h : iter p b = Outcome.ret p1 true ev err) (hev : ev ≠ SyntaxError)
    (hq : Quiet p1 d p2) : Runs p (b :: d) ⟨[ev], (b :: d).length, false, none, p2⟩ :=
  Runs.emit h hev hq

theorem digit_value {b : Nat} (h : 48 ≤ b ∧ b ≤ 57) :
    b ≠ 123 ∧ b ≠ 91 ∧ b ≠ 34 ∧ b ≠ 45 ∧ b ≠ 32 ∧ b ≠ 9 ∧ b ≠ 10 ∧ b ≠ 13 := by
  omega

/-- The first byte of a number in `_StateValue` delivers `NumberStart`. -/
theorem iter_value_digit (q : List State) (d l : Int) (pr : Bool) {c : Byte}
    (h1 : 49 ≤ c) (h2 : c ≤ 57) :
    iter ⟨_StateValue, q, d, l, 0, 0, pr⟩ c =
      Outcome.ret (startValue ⟨_StateValue, q, d, l, 0, 0, pr⟩ _StateNumber) true
        NumberStart none := by
  have h := digit_value (b := c) ⟨Nat.le_trans (by decide) h1, h2⟩
  have h3 : c ≠ 48 := nonzero_digit_ne h1
  cases pr <;>
    simp [iter, State.code, _IgnoreSpace, isSpace, transition, caseValue, settle, updateDepth,
      Event.isComposite, Event.isPrimitive, Event.isStart, startValue, h.1, h.2.1, h.2.2.1,
      h.2.2.2.1, h.2.2.2.2.1, h.2.2.2.2.2.1, h.2.2.2.2.2.2.1, h.2.2.2.2.2.2.2, h3, h1, h2]

theorem iter_value_zero (q : List State) (d l : Int) (pr : Bool) :
    iter ⟨_StateValue, q, d, l, 0, 0, pr⟩ 48 =
      Outcome.ret (startValue ⟨_StateValue, q, d, l, 0, 0, pr⟩ _StateNumberZero) true
        NumberStart none := by
  cases pr <;>
    simp [iter, State.code, _IgnoreSpace, isSpace, transition, caseValue, settle, updateDepth,
      Event.isComposite, Event.isPrimitive, Event.isStart, startValue]

theorem iter_value_minus (q : List State) (d l : Int) (pr : Bool) :
    iter ⟨_StateValue, q, d, l, 0, 0, pr⟩ 45 =
      Outcome.ret (startValue ⟨_StateValue, q, d, l, 0, 0, pr⟩ _StateNumberNegative) true
        NumberStart none := by
  cases pr <;>
    simp [iter, State.code, _IgnoreSpace, isSpace, transition, caseValue, settle, updateDepth,
      Event.isComposite, Event.isPrimitive, Event.isStart, startValue]

/-- A number lexeme in `_StateValue`: the first byte delivers `NumberStart`,
the bytes after it lead quietly to a state in which the number is complete. -/
theorem number_split {w : List Byte} (h : NumberLexeme w) (q : List State) (d l : Int)
    (pr : Bool) :
    ∃ c rest s0 s, w = c :: rest ∧ s.numberComplete = true ∧
      iter ⟨_StateValue, q, d, l, 0, 0, pr⟩ c =
        Outcome.ret (startValue ⟨_StateValue, q, d, l, 0, 0, pr⟩ s0) true NumberStart none ∧
      Quiet (startValue ⟨_StateValue, q, d, l, 0, 0, pr⟩ s0) rest
        (startValue ⟨_StateValue, q, d, l, 0, 0, pr⟩ s) := by
  obtain ⟨sgn, i, f, x, rfl, hsgn, hi, hf, hx⟩ := h
  rcases hsgn with rfl | rfl
  · rcases hi with rfl | ⟨c, ds, rfl, h1, h2, hd⟩
    · obtain ⟨s2, hs2, hq⟩ := quiet_frac_exp _StateNumberZero (Or.inl rfl) q
        (if pr then d else d + 1) l 0 0 false hf hx
      exact ⟨48, _, _StateNumberZero, s2, rfl, hs2, iter_value_zero q d l pr, hq⟩
    · obtain ⟨s2, hs2, hq⟩ := quiet_frac_exp _StateNumber (Or.inr rfl) q
        (if pr then d else d + 1) l 0 0 false hf hx
      have hq' := Quiet.trans (quiet_digits_number q (if pr then d else d + 1) l 0 0 false ds hd) hq
      exact ⟨c, _, _StateNumber, s2, rfl, hs2, iter_value_digit q d l pr h1 h2, hq'⟩
  · obtain ⟨s0, hs0, hq0⟩ := quiet_int_negative q (if pr then d else d + 1) l 0 0 false hi
    obtain ⟨s2, hs2, hq⟩ := quiet_frac_exp s0 hs0 q (if pr then d else d + 1) l 0 0 false hf hx
    have hq' := Quiet.trans hq0 hq
    exact ⟨45, _, _StateNumberNegative, s2, rfl, hs2, iter_value_minus q d l pr, hq'⟩

/-- A number lexeme leads from `_StateValue` to a state in which the number
is complete; `NumberStart` is delivered, `NumberEnd` is pending. -/
theorem number_pending {w : List Byte} (h : NumberLexeme w) (q : List State) (d l : Int)
    (pr : Bool) :
    ∃ s, s.numberComplete = true ∧
      Runs ⟨_StateValue, q, d, l, 0, 0, pr⟩ w
        ⟨[NumberStart], w.length, false, none,
          startValue ⟨_StateValue, q, d, l, 0, 0, pr⟩ s⟩ := by
  obtain ⟨c, rest, s0, s, rfl, hs, h1, h2⟩ := number_split h q d l pr
  exact ⟨s, hs, Runs.emit_quiet h1 (by simp) h2⟩

theorem delim_facts {c : Nat}
    (h : c = 32 ∨ c = 9 ∨ c = 10 ∨ c = 13 ∨ c = 44 ∨ c = 93 ∨ c = 125) :
    c ≠ 46 ∧ c ≠ 101 ∧ c ≠ 69 ∧ ¬ (48 ≤ c ∧ c ≤ 57) := by
  omega

/-- A delimiter after a complete number delivers the pending `NumberEnd`
and is not consumed. -/
theorem iter_number_delim (q : List State) (d l : Int) (pr : Bool) {s : State}
    (hs : s.numberComplete = true) {c : Byte} (hc : isDelim c) :
    iter (startValue ⟨_StateValue, q, d, l, 0, 0, pr⟩ s) c =
      Outcome.ret (afterValue ⟨_StateValue, q, d, l, 0, 0, pr⟩) false NumberEnd none := by
  have h := delim_facts (c := c) hc
  have hdec : isDecimal c = false := by
    have := h.2.2.2
    simp only [isDecimal]
    by_cases h1 : 48 ≤ c
    · have : ¬ c ≤ 57 := fun h2 => this ⟨h1, h2⟩
      simp [h1, this]
    · simp [h1]
  cases s <;> simp [State.numberComplete] at hs <;> cases pr <;> cases q <;>
    simp [iter, State.code, _IgnoreSpace, transition, caseNumber, caseNumberZero,
      caseNumberDotDigit, caseNumberExpDigit, settle, updateDepth, Event.isComposite,
      Event.isPrimitive, Event.isStart, Event.isEnd, startValue, afterValue, Parser.toNext,
      Parser.next, h.1, h.2.1, h.2.2.1, hdec]

/-- A number followed by a delimiter. -/
theorem number_runs {w : List Byte} (h : NumberLexeme w) (q : List State) (d l : Int)
    (pr : Bool) {c : Byte} (hc : isDelim c) (z : List Byte) {r : Run}
    (hr : Runs (afterValue ⟨_StateValue, q, d, l, 0, 0, pr⟩) (c :: z) r) :
    Runs ⟨_StateValue, q, d, l, 0, 0, pr⟩ (w ++ c :: z)
      (r.after [NumberStart, NumberEnd] w.length) := by
  obtain ⟨s, hs, h1⟩ := number_pending h q d l pr
  have h2 := Runs.step_emitAgain (iter_number_delim q d l pr hs hc) (by simp) hr
  have := Runs.append h1 rfl h2
  simpa [Run.after_after] using this

/-- The start events of the values other than numbers. -/
theorem iter_value_start (q : List State) (d l : Int) (pr : Bool) (c : Byte) (s : State)
    (ev : Event)
    (h : (c = 123 ∧ s = _StateObjectKeyOrBrace ∧ ev = ObjectStart) ∨
      (c = 91 ∧ s = _StateArrayValueOrBracket ∧ ev = ArrayStart) ∨
      (c = 116 ∧ s = _StateTrue ∧ ev = BoolStart) ∨
      (c = 102 ∧ s = _StateFalse ∧ ev = BoolStart) ∨
      (c = 110 ∧ s = _StateNull ∧ ev = NullStart)) :
    iter ⟨_StateValue, q, d, l, 0, 0, pr⟩ c =
      Outcome.ret (startValue ⟨_StateValue, q, d, l, 0, 0, pr⟩ s) true ev none := by
  rcases h with ⟨rfl, rfl, rfl⟩ | ⟨rfl, rfl, rfl⟩ | ⟨rfl, rfl, rfl⟩ | ⟨rfl, rfl, rfl⟩ |
    ⟨rfl, rfl, rfl⟩ <;> cases pr <;>
    simp [iter, State.code, _IgnoreSpace, isSpace, transition, caseValue, settle, updateDepth,
      Event.isComposite, Event.isPrimitive, Event.isStart, startValue]

theorem iter_value_quote (q : List State) (d l : Int) (pr : Bool) :
    iter ⟨_StateValue, q, d, l, 0, 0, pr⟩ 34 =
      Outcome.ret (startValue ⟨_StateValue, _StateStringDone :: q, d, l, 0, 0, pr⟩ _StateString)
        true StringStart none := by
  cases pr <;>
    simp [iter, State.code, _IgnoreSpace, isSpace, transition, caseValue, settle, updateDepth,
      Event.isComposite, Event.isPrimitive, Event.isStart, startValue, Parser.push]

/-- The end events of the values other than numbers: the byte is consumed,
the state on top of the queue is resumed and the depth decreases. -/
theorem iter_value_end (q : List State) (d l : Int) (pr : Bool) (c : Byte) (s : State)
    (ev : Event)
    (h : (c = 125 ∧ s = _StateObjectKeyOrBrace ∧ ev = ObjectEnd) ∨
      (c = 125 ∧ s = _StateObjectCommaOrBrace ∧ ev = ObjectEnd) ∨
      (c = 93 ∧ s = _StateArrayValueOrBracket ∧ ev = ArrayEnd) ∨
      (c = 93 ∧ s = _StateArrayCommaOrBracket ∧ ev = ArrayEnd) ∨
      (c = 101 ∧ s = _StateTrue3 ∧ ev = BoolEnd) ∨
      (c = 101 ∧ s = _StateFalse4 ∧ ev = BoolEnd) ∨
      (c = 108 ∧ s = _StateNull3 ∧ ev = NullEnd) ∨
      (c = 34 ∧ s = _StateStringDone ∧ ev = StringEnd)) :
    iter (startValue ⟨_StateValue, q, d, l, 0, 0, pr⟩ s) c =
      Outcome.ret (afterValue ⟨_StateValue, q, d, l, 0, 0, pr⟩) true ev none := by
  rcases h with ⟨rfl, rfl, rfl⟩ | ⟨rfl, rfl, rfl⟩ | ⟨rfl, rfl, rfl⟩ | ⟨rfl, rfl, rfl⟩ |
    ⟨rfl, rfl, rfl⟩ | ⟨rfl, rfl, rfl⟩ | ⟨rfl, rfl, rfl⟩ | ⟨rfl, rfl, rfl⟩ <;>
    cases pr <;> cases q <;>
    simp [iter, State.code, _IgnoreSpace, isSpace, transition, caseObjectKeyOrBrace,
      caseObjectCommaOrBrace, caseArrayValueOrBracket, caseArrayCommaOrBracket, caseLiteral,
      settle, updateDepth, Event.isComposite, Event.isPrimitive, Event.isStart, Event.isEnd,
      startValue, afterValue, Parser.toNext, Parser.next]

/-- A step inside a literal. -/
theorem iter_literal (q : List State) (d l dr e : Int) (pr : Bool) (c : Byte) (s s' : State)
    (h : (c = 114 ∧ s = _StateTrue ∧ s' = _StateTrue2) ∨
      (c = 117 ∧ s = _StateTrue2 ∧ s' = _StateTrue3) ∨
      (c = 97 ∧ s = _StateFalse ∧ s' = _StateFalse2) ∨
      (c = 108 ∧ s = _StateFalse2 ∧ s' = _StateFalse3) ∨
      (c = 115 ∧ s = _StateFalse3 ∧ s' = _StateFalse4) ∨
      (c = 117 ∧ s = _StateNull ∧ s' = _StateNull2) ∨
      (c = 108 ∧ s = _StateNull2 ∧ s' = _StateNull3)) :
    iter ⟨s, q, d, l, dr, e, pr⟩ c = Outcome.advance ⟨s', q, d, l, dr, e, pr⟩ := by
  rcases h with ⟨rfl, rfl, rfl⟩ | ⟨rfl, rfl, rfl⟩ | ⟨rfl, rfl, rfl⟩ | ⟨rfl, rfl, rfl⟩ |
    ⟨rfl, rfl, rfl⟩ | ⟨rfl, rfl, rfl⟩ | ⟨rfl, rfl, rfl⟩ <;>
    simp [iter, State.code, _IgnoreSpace, transition, caseLiteral, settle, Outcome.cont]

theorem null_runs (q : List State) (d l : Int) (pr : Bool) (z : List Byte) {r : Run}
    (hr : Runs (afterValue ⟨_StateValue, q, d, l, 0, 0, pr⟩) z r) :
    Runs ⟨_StateValue, q, d, l, 0, 0, pr⟩ ([110, 117, 108, 108] ++ z)
      (r.after [NullStart, NullEnd] 4) := by
  have h4 := Runs.step_emit (iter_value_end q d l pr 108 _StateNull3 NullEnd (by simp))
    (by simp) hr
  have h3 := Runs.step_advance (iter_literal q (if pr then d else d + 1) l 0 0 false
    108 _StateNull2 _StateNull3 (by simp)) h4
  have h2 := Runs.step_advance (iter_literal q (if pr then d else d + 1) l 0 0 false
    117 _StateNull _StateNull2 (by simp)) h3
  have h1 := Runs.step_emit (iter_value_start q d l pr 110 _StateNull NullStart (by simp))
    (by simp) h2
  simpa [Run.after_after] using h1

theorem true_runs (q : List State) (d l : Int) (pr : Bool) (z : List Byte) {r : Run}
    (hr : Runs (afterValue ⟨_StateValue, q, d, l, 0, 0, pr⟩) z r) :
    Runs ⟨_StateValue, q, d, l, 0, 0, pr⟩ ([116, 114, 117, 101] ++ z)
      (r.after [BoolStart, BoolEnd] 4) := by
  have h4 := Runs.step_emit (iter_value_end q d l pr 101 _StateTrue3 BoolEnd (by simp))
    (by simp) hr
  have h3 := Runs.step_advance (iter_literal q (if pr then d else d + 1) l 0 0 false
    117 _StateTrue2 _StateTrue3 (by simp)) h4
  have h2 := Runs.step_advance (iter_literal q (if pr then d else d + 1) l 0 0 false
    114 _StateTrue _StateTrue2 (by simp)) h3
  have h1 := Runs.step_emit (iter_value_start q d l pr 116 _StateTrue BoolStart (by simp))
    (by simp) h2
  simpa [Run.after_after] using h1

theorem false_runs (q : List State) (d l : Int) (pr : Bool) (z : List Byte) {r : Run}
    (hr : Runs (afterValue ⟨_StateValue, q, d, l, 0, 0, pr⟩) z r) :
    Runs ⟨_StateValue, q, d, l, 0, 0, pr⟩ ([102, 97, 108, 115, 101] ++ z)
      (r.after [BoolStart, BoolEnd] 5) := by
  have h5 := Runs.step_emit (iter_value_end q d l pr 101 _StateFalse4 BoolEnd (by simp))
    (by simp) hr
  have h4 := Runs.step_advance (iter_literal q (if pr then d else d + 1) l 0 0 false
    115 _StateFalse3 _StateFalse4 (by simp)) h5
  have h3 := Runs.step_advance (iter_literal q (if pr then d else d + 1) l 0 0 false
    108 _StateFalse2 _StateFalse3 (by simp)) h4
  have h2 := Runs.step_advance (iter_literal q (if pr then d else d + 1) l 0 0 false
    97 _StateFalse _StateFalse2 (by simp)) h3
  have h1 := Runs.step_emit (iter_value_start q d l pr 102 _StateFalse BoolStart (by simp))
    (by simp) h2
  simpa [Run.after_after] using h1

/-- The closing quote of a string is left to the state on top of the queue. -/
theorem iter_string_quote (s : State) (q : List State) (d l dr e : Int) (pr : Bool) :
    iter ⟨_StateString, s :: q, d, l, dr, e, pr⟩ 34 = Outcome.again ⟨s, q, d, l, dr, e, pr⟩ := by
  simp [iter, State.code, _IgnoreSpace, transition, caseString, settle, Outcome.cont,
    Parser.toNext, Parser.next]

theorem string_runs {s : List Byte} (hs : StringBody s) (q : List State) (d l : Int)
    (pr : Bool) (z : List Byte) {r : Run}
    (hr : Runs (afterValue ⟨_StateValue, q, d, l, 0, 0, pr⟩) z r) :
    Runs ⟨_StateValue, q, d, l, 0, 0, pr⟩ (34 :: (s ++ [34]) ++ z)
      (r.after [StringStart, StringEnd] (34 :: (s ++ [34])).length) := by
  have h3 := Runs.step_emit (iter_value_end q d l pr 34 _StateStringDone StringEnd (by simp))
    (by simp) hr
  have h2 := Runs.again (iter_string_quote _StateStringDone q (if pr then d else d + 1) l 0 0
    false) h3
  have h1 := (quiet_stringBody hs (_StateStringDone :: q) (if pr then d else d + 1) l 0 0
    false).then h2
  have h0 := Runs.step_emit (iter_value_quote q d l pr) (by simp) h1
  rw [Run.after_after, Run.after_after] at h0
  refine Runs.cast (by simp) (by simp) ?_ h0
  simp only [List.length_cons, List.length_append, List.length_nil]
  omega

/-! ## Arrays and objects -/

theorem iter_array_value (q : List State) (d l dr e : Int) (pr : Bool) {b : Byte}
    (h1 : isSpace b = false) (h2 : b ≠ 93) :
    iter ⟨_StateArrayValueOrBracket, q, d, l, dr, e, pr⟩ b =
      Outcome.again ⟨_StateValue, _StateArrayCommaOrBracket :: q, d, l, dr, e, pr⟩ := by
  simp [iter, h1, transition, caseArrayValueOrBracket, settle, Outcome.cont, Parser.push, h2]

theorem iter_array_comma (q : List State) (d l dr e : Int) (pr : Bool) :
    iter ⟨_StateArrayCommaOrBracket, q, d, l, dr, e, pr⟩ 44 =
      Outcome.advance ⟨_StateValue, _StateArrayCommaOrBracket :: q, d, l, dr, e, pr⟩ := by
  simp [iter, isSpace, transition, caseArrayCommaOrBracket, settle, Outcome.cont, Parser.push]

theorem iter_object_comma (q : List State) (d l dr e : Int) (pr : Bool) :
    iter ⟨_StateObjectCommaOrBrace, q, d, l, dr, e, pr⟩ 44 =
      Outcome.advance ⟨_StateObjectKey, q, d, l, dr, e, pr⟩ := by
  simp [iter, isSpace, transition, caseObjectCommaOrBrace, settle, Outcome.cont]

theorem iter_object_colon (q : List State) (d l dr e : Int) (pr : Bool) :
    iter ⟨_StateObjectColon, q, d, l, dr, e, pr⟩ 58 =
      Outcome.advance ⟨_StateValue, _StateObjectCommaOrBrace :: q, d, l, dr, e, pr⟩ := by
  simp [iter, isSpace, transition, caseObjectColon, settle, Outcome.cont, Parser.push]

/-- The opening quote of an object key delivers `KeyStart`, counts one level
of depth and sets the property flag. -/
theorem iter_key_start (s : State) (hs : s = _StateObjectKeyOrBrace ∨ s = _StateObjectKey)
    (q : List State) (d l : Int) (pr : Bool) :
    iter ⟨s, q, d, l, 0, 0, pr⟩ 34 =
      Outcome.ret ⟨_StateString, _StateObjectKeyDone :: q, d + 1, l, 0, 0, true⟩ true
        KeyStart none := by
  rcases hs with rfl | rfl <;>
    simp [iter, isSpace, transition, caseObjectKeyOrBrace, caseObjectKey, settle, updateDepth,
      Parser.push]

/-- The closing quote of an object key delivers `KeyEnd`. -/
theorem iter_key_end (q : List State) (d l : Int) (pr : Bool) (b : Byte)
    (hb : isSpace b = false) :
    iter ⟨_StateObjectKeyDone, q, d, l, 0, 0, pr⟩ b =
      Outcome.ret ⟨_StateObjectColon, q, d, l, 0, 0, pr⟩ true KeyEnd none := by
  simp [iter, hb, transition, settle, updateDepth, Event.isComposite, Event.isPrimitive]

theorem afterValue_array (q : List State) (d l : Int) :
    afterValue ⟨_StateValue, _StateArrayCommaOrBracket :: q, d, l, 0, 0, false⟩ =
      ⟨_StateArrayCommaOrBracket, q, d, l, 0, 0, false⟩ := by
  simp [afterValue, Parser.toNext, Parser.next]

theorem afterValue_object (q : List State) (d l : Int) :
    afterValue ⟨_StateValue, _StateObjectCommaOrBrace :: q, d + 1, l, 0, 0, true⟩ =
      ⟨_StateObjectCommaOrBrace, q, d, l, 0, 0, false⟩ := by
  simp [afterValue, Parser.toNext, Parser.next]

theorem DelimHead.ws_append {w rest : List Byte} (hw : Ws w) (h : DelimHead rest) :
    DelimHead (w ++ rest) := by
  cases w with
  | nil => exact h
  | cons c w =>
    refine ⟨c, w ++ rest, rfl, ?_⟩
    have := hw c (List.mem_cons_self _ _)
    unfold isDelim
    tauto

/-- One element of an array, begun either right after the bracket or after
a comma, up to the byte that follows the element. -/
theorem item_runs (q : List State) (d l : Int) {dv w1 w2 rest : List Byte} {E : List Event}
    {r : Run}
    (hv : ∀ z r, DelimHead z →
      Runs (afterValue ⟨_StateValue, _StateArrayCommaOrBracket :: q, d, l, 0, 0, false⟩) z r →
      Runs ⟨_StateValue, _StateArrayCommaOrBracket :: q, d, l, 0, 0, false⟩ (dv ++ z)
        (r.after E dv.length))
    (hhead : ∃ b dv', dv = b :: dv' ∧ isSpace b = false ∧ b ≠ 93)
    (hw1 : Ws w1) (hw2 : Ws w2) (hrest : DelimHead rest)
    (hr : Runs ⟨_StateArrayCommaOrBracket, q, d, l, 0, 0, false⟩ rest r) :
    Runs ⟨_StateArrayValueOrBracket, q, d, l, 0, 0, false⟩ (w1 ++ (dv ++ (w2 ++ rest)))
      (r.after E (w1.length + (dv.length + w2.length))) ∧
    Runs ⟨_StateValue, _StateArrayCommaOrBracket :: q, d, l, 0, 0, false⟩
      (w1 ++ (dv ++ (w2 ++ rest))) (r.after E (w1.length + (dv.length + w2.length))) := by
  have h1 := (quiet_ws ⟨_StateArrayCommaOrBracket, q, d, l, 0, 0, false⟩ (by simp [State.code, _IgnoreSpace]) w2
    hw2).then hr
  rw [← afterValue_array] at h1
  have h2 := hv _ _ (hrest.ws_append hw2) h1
  rw [Run.after_after] at h2
  obtain ⟨b, dv', rfl, hb1, hb2⟩ := hhead
  have h3 : Runs ⟨_StateArrayValueOrBracket, q, d, l, 0, 0, false⟩ (b :: dv' ++ (w2 ++ rest)) _ :=
    Runs.again (iter_array_value q d l 0 0 false hb1 hb2) h2
  have h4 := (quiet_ws ⟨_StateArrayValueOrBracket, q, d, l, 0, 0, false⟩ (by simp [State.code, _IgnoreSpace]) w1
    hw1).then h3
  have h5 := (quiet_ws ⟨_StateValue, _StateArrayCommaOrBracket :: q, d, l, 0, 0, false⟩
    (by simp [State.code, _IgnoreSpace]) w1 hw1).then h2
  rw [Run.after_after] at h4 h5
  exact ⟨Runs.cast rfl (by simp) rfl h4, Runs.cast rfl (by simp) rfl h5⟩

/-- One member of an object, begun either right after the brace or after a
comma, up to the byte that follows the member. -/
theorem member_runs (s : State) (hs : s = _StateObjectKeyOrBrace ∨ s = _StateObjectKey)
    (q : List State) (d l : Int) {k dv w1 w2 w3 w4 rest : List Byte} {E : List Event} {r : Run}
    (hv : ∀ z r, DelimHead z →
      Runs (afterValue ⟨_StateValue, _StateObjectCommaOrBrace :: q, d + 1, l, 0, 0, true⟩) z r →
      Runs ⟨_StateValue, _StateObjectCommaOrBrace :: q, d + 1, l, 0, 0, true⟩ (dv ++ z)
        (r.after E dv.length))
    (hk : StringBody k) (hw1 : Ws w1) (hw2 : Ws w2) (hw3 : Ws w3) (hw4 : Ws w4)
    (hrest : DelimHead rest)
    (hr : Runs ⟨_StateObjectCommaOrBrace, q, d, l, 0, 0, false⟩ rest r) :
    Runs ⟨s, q, d, l, 0, 0, false⟩
      (w1 ++ 34 :: (k ++ 34 :: (w2 ++ 58 :: (w3 ++ (dv ++ (w4 ++ rest))))))
      (r.after (KeyStart :: KeyEnd :: E)
        (w1.length + (1 + (k.length + (1 + (w2.length + (1 + (w3.length +
          (dv.length + w4.length))))))))) := by
  have hscode : s.code < _IgnoreSpace := by rcases hs with rfl | rfl <;> decide
  have h1 := (quiet_ws ⟨_StateObjectCommaOrBrace, q, d, l, 0, 0, false⟩ (by simp [State.code, _IgnoreSpace]) w4
    hw4).then hr
  rw [← afterValue_object] at h1
  have h2 := hv _ _ (hrest.ws_append hw4) h1
  have h3 := (quiet_ws ⟨_StateValue, _StateObjectCommaOrBrace :: q, d + 1, l, 0, 0, true⟩
    (by simp [State.code, _IgnoreSpace]) w3 hw3).then h2
  have h4 := Runs.step_advance (iter_object_colon q (d + 1) l 0 0 true) h3
  have h5 := (quiet_ws ⟨_StateObjectColon, q, d + 1, l, 0, 0, true⟩ (by simp [State.code, _IgnoreSpace]) w2 hw2).then h4
  have h6 := Runs.step_emit (iter_key_end q (d + 1) l true 34 (by decide)) (by simp) h5
  have h7 := Runs.again (iter_string_quote _StateObjectKeyDone q (d + 1) l 0 0 true) h6
  have h8 := (quiet_stringBody hk (_StateObjectKeyDone :: q) (d + 1) l 0 0 true).then h7
  have h9 := Runs.step_emit (iter_key_start s hs q d l false) (by simp) h8
  have h10 := (quiet_ws ⟨s, q, d, l, 0, 0, false⟩ hscode w1 hw1).then h9
  simp only [Run.after_after] at h10
  exact Runs.cast rfl (by simp) (by simp) h10

theorem digit_head {b : Nat} (h : 48 ≤ b ∧ b ≤ 57) :
    b ≠ 32 ∧ b ≠ 9 ∧ b ≠ 10 ∧ b ≠ 13 ∧ b ≠ 93 := by
  omega

theorem NumberLexeme.first_byte {w : List Byte} (h : NumberLexeme w) :
    ∃ b w', w = b :: w' ∧ isSpace b = false ∧ b ≠ 93 := by
  obtain ⟨sgn, i, f, x, rfl, hsgn, hi, hf, hx⟩ := h
  rcases hsgn with rfl | rfl
  · rcases hi with rfl | ⟨c, ds, rfl, h1, h2, hd⟩
    · exact ⟨48, _, rfl, by decide, by decide⟩
    · have := digit_head (b := c) ⟨Nat.le_trans (by decide) h1, h2⟩
      exact ⟨c, _, rfl, by simp [isSpace, this.1, this.2.1, this.2.2.1, this.2.2.2.1],
        this.2.2.2.2⟩
  · exact ⟨45, _, rfl, by decide, by decide⟩

/-- A serialized value begins with a byte that is neither whitespace nor a
closing bracket. -/
theorem Ser.head_byte {v : JValue} {d : List Byte} (h : Ser v d) :
    ∃ b d', d = b :: d' ∧ isSpace b = false ∧ b ≠ 93 := by
  cases h with
  | null => exact ⟨_, _, rfl, by decide, by decide⟩
  | boolTrue => exact ⟨_, _, rfl, by decide, by decide⟩
  | boolFalse => exact ⟨_, _, rfl, by decide, by decide⟩
  | number w hw => exact hw.first_byte
  | string s hs => exact ⟨_, _, rfl, by decide, by decide⟩
  | arrayEmpty w hw => exact ⟨_, _, rfl, by decide, by decide⟩
  | array v vs d hd => exact ⟨_, _, rfl, by decide, by decide⟩
  | objectEmpty w hw => exact ⟨_, _, rfl, by decide, by decide⟩
  | object m ms d hd => exact ⟨_, _, rfl, by decide, by decide⟩

mutual
/-- A serialized value is read from `_StateValue` with the events of its
traversal; the run goes on with the parser that the value leaves. A number
must be followed by a delimiter. -/
theorem value_runs : ∀ {v : JValue} {ds : List Byte}, Ser v ds →
    ∀ (q : List State) (d l : Int) (pr : Bool) (z : List Byte) (r : Run),
    ((∃ w, v = JValue.number w) → DelimHead z) →
    Runs (afterValue ⟨_StateValue, q, d, l, 0, 0, pr⟩) z r →
    Runs ⟨_StateValue, q, d, l, 0, 0, pr⟩ (ds ++ z) (r.after (traversal v) ds.length)
  | _, _, Ser.null, q, d, l, pr, z, _, _, hr => null_runs q d l pr z hr
  | _, _, Ser.boolTrue, q, d, l, pr, z, _, _, hr => true_runs q d l pr z hr
  | _, _, Ser.boolFalse, q, d, l, pr, z, _, _, hr => false_runs q d l pr z hr
  | _, _, Ser.number w hw, q, d, l, pr, z, _, hz, hr => by
    obtain ⟨c, z', rfl, hc⟩ := hz ⟨w, rfl⟩
    exact number_runs hw q d l pr hc z' hr
  | _, _, Ser.string s hs, q, d, l, pr, z, _, _, hr => string_runs hs q d l pr z hr
  | _, _, Ser.arrayEmpty w hw, q, d, l, pr, z, r, _, hr => by
    have h1 := Runs.step_emit (iter_value_end q d l pr 93 _StateArrayValueOrBracket ArrayEnd
      (by simp)) (by simp) hr
    have h2 := (quiet_ws (startValue ⟨_StateValue, q, d, l, 0, 0, pr⟩ _StateArrayValueOrBracket)
      (by simp [startValue, State.code, _IgnoreSpace]) w hw).then h1
    have h3 := Runs.step_emit (iter_value_start q d l pr 91 _StateArrayValueOrBracket
      ArrayStart (by simp)) (by simp) h2
    simp only [Run.after_after] at h3
    exact Runs.cast (by simp) (by simp [traversal, traversalItems])
      (by simp only [List.length_cons, List.length_append, List.length_nil]; try omega) h3
  | _, _, Ser.array v vs ds hitems, q, d, l, pr, z, r, _, hr => by
    have h1 := Runs.step_emit (iter_value_end q d l pr 93 _StateArrayCommaOrBracket ArrayEnd
      (by simp)) (by simp) hr
    have h2 := (items_runs hitems q (if pr then d else d + 1) l z _ h1).1
    have h3 := Runs.step_emit (iter_value_start q d l pr 91 _StateArrayValueOrBracket
      ArrayStart (by simp)) (by simp) h2
    simp only [Run.after_after] at h3
    exact Runs.cast (by simp) (by simp [traversal])
      (by simp only [List.length_cons, List.length_append, List.length_nil]; try omega) h3
  | _, _, Ser.objectEmpty w hw, q, d, l, pr, z, r, _, hr => by
    have h1 := Runs.step_emit (iter_value_end q d l pr 125 _StateObjectKeyOrBrace ObjectEnd
      (by simp)) (by simp) hr
    have h2 := (quiet_ws (startValue ⟨_StateValue, q, d, l, 0, 0, pr⟩ _StateObjectKeyOrBrace)
      (by simp [startValue, State.code, _IgnoreSpace]) w hw).then h1
    have h3 := Runs.step_emit (iter_value_start q d l pr 123 _StateObjectKeyOrBrace
      ObjectStart (by simp)) (by simp) h2
    simp only [Run.after_after] at h3
    exact Runs.cast (by simp) (by simp [traversal, traversalMembers])
      (by simp only [List.length_cons, List.length_append, List.length_nil]; try omega) h3
  | _, _, Ser.object m ms ds hmembers, q, d, l, pr, z, r, _, hr => by
    have h1 := Runs.step_emit (iter_value_end q d l pr 125 _StateObjectCommaOrBrace ObjectEnd
      (by simp)) (by simp) hr
    have h2 := (members_runs hmembers q (if pr then d else d + 1) l z _ h1).1
    have h3 := Runs.step_emit (iter_value_start q d l pr 123 _StateObjectKeyOrBrace
      ObjectStart (by simp)) (by simp) h2
    simp only [Run.after_after] at h3
    exact Runs.cast (by simp) (by simp [traversal])
      (by simp only [List.length_cons, List.length_append, List.length_nil]; try omega) h3
/-- The elements of an array up to the closing bracket, begun either right
after the opening bracket or after a comma. -/
theorem items_runs : ∀ {vs : List JValue} {ds : List Byte}, SerItems vs ds →
    ∀ (q : List State) (d l : Int) (z : List Byte) (r : Run),
    Runs ⟨_StateArrayCommaOrBracket, q, d, l, 0, 0, false⟩ (93 :: z) r →
    Runs ⟨_StateArrayValueOrBracket, q, d, l, 0, 0, false⟩ (ds ++ 93 :: z)
      (r.after (traversalItems vs) ds.length) ∧
    Runs ⟨_StateValue, _StateArrayCommaOrBracket :: q, d, l, 0, 0, false⟩ (ds ++ 93 :: z)
      (r.after (traversalItems vs) ds.length)
  | _, _, SerItems.last v w1 dv w2 hw1 hv hw2, q, d, l, z, r, hr => by
    have h := item_runs q d l (E := traversal v)
      (fun z r hz hr => value_runs hv (_StateArrayCommaOrBracket :: q) d l false z r
        (fun _ => hz) hr)
      hv.head_byte hw1 hw2 ⟨93, z, rfl, by simp [isDelim]⟩ hr
    exact ⟨Runs.cast (by simp) (by simp [traversalItems])
        (by simp only [List.length_append]; try omega) h.1,
      Runs.cast (by simp) (by simp [traversalItems])
        (by simp only [List.length_append]; try omega) h.2⟩
  | _, _, SerItems.cons v vs w1 dv w2 ds' hw1 hv hw2 hrest, q, d, l, z, r, hr => by
    have ih := (items_runs hrest q d l z r hr).2
    have h0 := Runs.step_advance (iter_array_comma q d l 0 0 false) ih
    have h := item_runs q d l (E := traversal v)
      (fun z r hz hr => value_runs hv (_StateArrayCommaOrBracket :: q) d l false z r
        (fun _ => hz) hr)
      hv.head_byte hw1 hw2 ⟨44, _, rfl, by simp [isDelim]⟩ h0
    simp only [Run.after_after] at h
    exact ⟨Runs.cast (by simp) (by simp [traversalItems])
        (by simp only [List.length_append, List.length_cons]; try omega) h.1,
      Runs.cast (by simp) (by simp [traversalItems])
        (by simp only [List.length_append, List.length_cons]; try omega) h.2⟩
/-- The members of an object up to the closing brace, begun either right
after the opening brace or after a comma. -/
theorem members_runs : ∀ {ms : List (List Byte × JValue)} {ds : List Byte}, SerMembers ms ds →
    ∀ (q : List State) (d l : Int) (z : List Byte) (r : Run),
    Runs ⟨_StateObjectCommaOrBrace, q, d, l, 0, 0, false⟩ (125 :: z) r →
    Runs ⟨_StateObjectKeyOrBrace, q, d, l, 0, 0, false⟩ (ds ++ 125 :: z)
      (r.after (traversalMembers ms) ds.length) ∧
    Runs ⟨_StateObjectKey, q, d, l, 0, 0, false⟩ (ds ++ 125 :: z)
      (r.after (traversalMembers ms) ds.length)
  | _, _, SerMembers.last k v w1 w2 w3 dv w4 hw1 hk hw2 hw3 hv hw4, q, d, l, z, r, hr => by
    have h := fun s hs => member_runs s hs q d l (E := traversal v)
      (fun z r hz hr => value_runs hv (_StateObjectCommaOrBrace :: q) (d + 1) l true z r
        (fun _ => hz) hr)
      hk hw1 hw2 hw3 hw4 ⟨125, z, rfl, by simp [isDelim]⟩ hr
    exact ⟨Runs.cast (by simp) (by simp [traversalMembers])
        (by simp only [List.length_append, List.length_cons]; try omega) (h _ (Or.inl rfl)),
      Runs.cast (by simp) (by simp [traversalMembers])
        (by simp only [List.length_append, List.length_cons]; try omega) (h _ (Or.inr rfl))⟩
  | _, _, SerMembers.cons k v ms w1 w2 w3 dv w4 ds' hw1 hk hw2 hw3 hv hw4 hrest,
      q, d, l, z, r, hr => by
    have ih := (members_runs hrest q d l z r hr).2
    have h0 := Runs.step_advance (iter_object_comma q d l 0 0 false) ih
    have h := fun s hs => member_runs s hs q d l (E := traversal v)
      (fun z r hz hr => value_runs hv (_StateObjectCommaOrBrace :: q) (d + 1) l true z r
        (fun _ => hz) hr)
      hk hw1 hw2 hw3 hw4 ⟨44, _, rfl, by simp [isDelim]⟩ h0
    simp only [Run.after_after] at h
    exact ⟨Runs.cast (by simp) (by simp [traversalMembers])
        (by simp only [List.length_append, List.length_cons]; try omega) (h _ (Or.inl rfl)),
      Runs.cast (by simp) (by simp [traversalMembers])
        (by simp only [List.length_append, List.length_cons]; try omega) (h _ (Or.inr rfl))⟩
end

/-! ## The bracket structure of a traversal -/

theorem nesting_start (e : Event) (h : e.isStart = true) (es stack : List Event) :
    nesting (e :: es) stack = nesting es (e :: stack) := by
  simp [nesting, h]

theorem nesting_end (s e : Event) (h : e.isStart = false) (hc : closes s e = true)
    (es stack : List Event) : nesting (e :: es) (s :: stack) = nesting es stack := by
  simp [nesting, h, hc]

mutual
theorem nesting_traversal : ∀ (v : JValue) (rest stack : List Event),
    nesting (traversal v ++ rest) stack = nesting rest stack
  | JValue.null, rest, stack => by
    simp only [traversal, List.cons_append, List.nil_append]
    rw [nesting_start NullStart rfl, nesting_end NullStart NullEnd rfl rfl]
  | JValue.bool _, rest, stack => by
    simp only [traversal, List.cons_append, List.nil_append]
    rw [nesting_start BoolStart rfl, nesting_end BoolStart BoolEnd rfl rfl]
  | JValue.number _, rest, stack => by
    simp only [traversal, List.cons_append, List.nil_append]
    rw [nesting_start NumberStart rfl, nesting_end NumberStart NumberEnd rfl rfl]
  | JValue.string _, rest, stack => by
    simp only [traversal, List.cons_append, List.nil_append]
    rw [nesting_start StringStart rfl, nesting_end StringStart StringEnd rfl rfl]
  | JValue.array items, rest, stack => by
    simp only [traversal, List.cons_append, List.append_assoc, List.nil_append]
    rw [nesting_start ArrayStart rfl, nesting_traversalItems items,
      nesting_end ArrayStart ArrayEnd rfl rfl]
  | JValue.object members, rest, stack => by
    simp only [traversal, List.cons_append, List.append_assoc, List.nil_append]
    rw [nesting_start ObjectStart rfl, nesting_traversalMembers members,
      nesting_end ObjectStart ObjectEnd rfl rfl]
theorem nesting_traversalItems : ∀ (vs : List JValue) (rest stack : List Event),
    nesting (traversalItems vs ++ rest) stack = nesting rest stack
  | [], rest, stack => by simp [traversalItems]
  | v :: vs, rest, stack => by
    simp only [traversalItems, List.append_assoc]
    rw [nesting_traversal v, nesting_traversalItems vs]
theorem nesting_traversalMembers : ∀ (ms : List (List Byte × JValue)) (rest stack : List Event),
    nesting (traversalMembers ms ++ rest) stack = nesting rest stack
  | [], rest, stack => by simp [traversalMembers]
  | (_, v) :: ms, rest, stack => by
    simp only [traversalMembers, List.cons_append, List.append_assoc]
    rw [nesting_start KeyStart rfl, nesting_end KeyStart KeyEnd rfl rfl, nesting_traversal v,
      nesting_traversalMembers ms]
end

/-- The traversal of a value balances: every start event has its end event,
properly nested. -/
theorem nesting_traversal_nil (v : JValue) : nesting (traversal v) [] = some [] := by
  have := nesting_traversal v [] []
  simpa [nesting] using this

/-! ## Completeness on well-formed texts -/

theorem afterValue_zero :
    afterValue ⟨_StateValue, [], 0, 0, 0, 0, false⟩ = ⟨_StateDone, [], 0, 0, 0, 0, false⟩ := by
  simp [afterValue, Parser.toNext, Parser.next]

/-- The run of the zero parser over a well-formed text whose value is
followed by whitespace or is not a number: all events of the traversal are
delivered and the parser is done. -/
theorem text_runs_done {v : JValue} {w1 body w2 : List Byte} (hw1 : Ws w1) (hb : Ser v body)
    (hw2 : Ws w2) (hz : (∃ w, v = JValue.number w) → DelimHead w2) :
    Runs Parser.zero (w1 ++ (body ++ w2))
      ⟨traversal v, (w1 ++ (body ++ w2)).length, false, none,
        ⟨_StateDone, [], 0, 0, 0, 0, false⟩⟩ := by
  have h1 : Runs (afterValue ⟨_StateValue, [], 0, 0, 0, 0, false⟩) w2
      ⟨[], w2.length, false, none, ⟨_StateDone, [], 0, 0, 0, 0, false⟩⟩ := by
    rw [afterValue_zero]
    exact quiet_ws _ (by simp [State.code, _IgnoreSpace]) w2 hw2
  have h2 := value_runs hb [] 0 0 false w2 _ hz h1
  have h3 := (quiet_ws ⟨_StateValue, [], 0, 0, 0, 0, false⟩ (by simp [State.code, _IgnoreSpace])
    w1 hw1).then h2
  have e : Parser.zero = ⟨_StateValue, [], 0, 0, 0, 0, false⟩ := rfl
  rw [e]
  simpa [Run.after, Nat.add_assoc] using h3

/-- Completeness of the parser on a well-formed text. -/
theorem text_complete {v : JValue} {d : List Byte} (h : JsonText v d) :
    ∃ r es pf, drive Parser.zero d = some r ∧ r.failed = false ∧ r.err = none ∧
      r.consumed = d.length ∧ finish r.p = (es, none, pf) ∧
      r.events ++ es = traversal v ++ [Done] := by
  obtain ⟨w1, body, w2, rfl, hw1, hb, hw2⟩ := h
  by_cases hz : (∃ w, v = JValue.number w) → DelimHead w2
  · have hr := text_runs_done hw1 hb hw2 hz
    exact ⟨_, [Done], _, hr.drive_eq, rfl, rfl, rfl, rfl, rfl⟩
  · push_neg at hz
    obtain ⟨⟨w, rfl⟩, hnd⟩ := hz
    have hw2nil : w2 = [] := by
      cases w2 with
      | nil => rfl
      | cons c w2 =>
        exfalso
        apply hnd
        refine ⟨c, w2, rfl, ?_⟩
        have := hw2 c (List.mem_cons_self _ _)
        unfold isDelim
        tauto
    subst hw2nil
    cases hb with
    | number _ hw =>
      obtain ⟨s, hs, h1⟩ := number_pending hw [] 0 0 false
      have h2 := (quiet_ws ⟨_StateValue, [], 0, 0, 0, 0, false⟩
        (by simp [State.code, _IgnoreSpace]) w1 hw1).then h1
      have e : Parser.zero = ⟨_StateValue, [], 0, 0, 0, 0, false⟩ := rfl
      have hd := h2.drive_eq
      rw [← e] at hd
      simp only [List.append_nil]
      refine ⟨_, [NumberEnd, Done], ⟨_StateDone, [], 1, 0, 0, 0, false⟩, hd, rfl, rfl,
        by simp [Run.after], ?_, by simp [Run.after, traversal]⟩
      cases s <;> simp [State.numberComplete] at hs <;>
        simp [Run.after, startValue, finish, End, Parser.zero]

/-! ## Feeding one byte at a time -/

theorem Parse_single_advance {p p' : Parser} {b : Byte} (h : iter p b = Outcome.advance p') :
    Parse p [b] = some (⟨1, Continue, none⟩, p') := by
  rw [Parse_advance [] h, Parse_nil]
  rfl

/-- A quiet run fed one byte at a time: every call consumes its byte and
returns `Continue`. -/
theorem Runs.parseEach_quiet {p : Parser} {d : List Byte} {r : Run} (h : Runs p d r) :
    r.events = [] → r.failed = false →
    parseEach p d = some (List.replicate d.length ⟨1, Continue, none⟩, r.p) := by
  induction h with
  | nil p => intro _ _; rfl
  | advance h _ ih =>
    intro h1 h2
    simp only [parseEach, Parse_single_advance h, ih h1 h2]
    simp [List.replicate_succ]
  | again h _ ih =>
    intro h1 h2
    have := ih h1 h2
    simp only [parseEach, Parse_again [] h] at this ⊢
    exact this
  | emit h hev _ ih => intro h1; simp at h1
  | emitAgain h hev _ ih => intro h1; simp at h1
  | fail h => intro h1; simp at h1

theorem Quiet.parseEach {p p' : Parser} {d : List Byte} (h : Quiet p d p') :
    parseEach p d = some (List.replicate d.length ⟨1, Continue, none⟩, p') :=
  Runs.parseEach_quiet h rfl rfl

/-! ## The invariant -/

theorem Inv_congr {p q : Parser} (h1 : p.state = q.state) (h2 : p.queue = q.queue)
    (h3 : p.depth = q.depth) (h4 : p.property = q.property) : Inv p ↔ Inv q := by
  rcases p with ⟨s, qu, d, l, dr, e, pr⟩
  rcases q with ⟨s', qu', d', l', dr', e', pr'⟩
  simp only at h1 h2 h3 h4
  subst h1 h2 h3 h4
  cases s <;> simp [Inv]

theorem Frames.tail {s : State} {q : List State} (h : Frames (s :: q)) : Frames q :=
  fun x hx => h x (List.mem_cons_of_mem _ hx)

theorem Frames.head_frames {s : State} {q : List State} (h : Frames (s :: q)) :
    s = _StateArrayCommaOrBracket ∨ s = _StateObjectCommaOrBrace :=
  h s (List.mem_cons_self _ _)

theorem Frames.cons_frames {s : State} {q : List State}
    (hs : s = _StateArrayCommaOrBracket ∨ s = _StateObjectCommaOrBrace) (h : Frames q) :
    Frames (s :: q) := by
  intro x hx
  rcases List.mem_cons.1 hx with rfl | hx
  · exact hs
  · exact h x hx

/-- The end of a value that is not an object key's member keeps the
invariant: the frame on top of the queue is resumed one level lower. -/
theorem Inv_pop (q : List State) (d l dr e : Int) (hq : Frames q) (hd : d = q.length + 1)
    (s : State) :
    Inv (updateDepth (Parser.toNext ⟨s, q, d, l, dr, e, false⟩) NumberEnd) := by
  cases q with
  | nil =>
    simp [Parser.toNext, Parser.next, updateDepth, Event.isComposite, Event.isPrimitive,
      Event.isStart, Event.isEnd, Inv, hd]
  | cons s' q' =>
    rcases hq.head_frames with rfl | rfl <;>
      simp [Parser.toNext, Parser.next, updateDepth, Event.isComposite, Event.isPrimitive,
        Event.isStart, Event.isEnd, Inv, hd, hq.tail]

theorem Inv_pop_event (q : List State) (d l dr e : Int) (hq : Frames q) (hd : d = q.length + 1)
    (s : State) (ev : Event)
    (hev : ev = ObjectEnd ∨ ev = ArrayEnd ∨ ev = StringEnd ∨ ev = NumberEnd ∨ ev = BoolEnd ∨
      ev = NullEnd) :
    Inv (updateDepth (Parser.toNext ⟨s, q, d, l, dr, e, false⟩) ev) := by
  have h := Inv_pop q d l dr e hq hd s
  refine (Inv_congr ?_ ?_ ?_ ?_).1 h
  · simp
  · simp
  · rcases hev with rfl | rfl | rfl | rfl | rfl | rfl <;>
      simp [updateDepth, Event.isComposite, Event.isPrimitive, Event.isStart, Event.isEnd]
  · rcases hev with rfl | rfl | rfl | rfl | rfl | rfl <;>
      simp [updateDepth, Event.isComposite, Event.isPrimitive, Event.isStart, Event.isEnd]

theorem Inv_keep {p : Parser} {b : Byte} {ev : Event} {s' : State}
    (h : KeepRow p.state b ev s') (hI : Inv p) :
    CoreInv ⟨{ p with state := s' }, ev, none, false⟩ := by
  rcases p with ⟨st, q, d, l, dr, e, pr⟩
  simp only at h
  cases h <;> simp only [Inv] at hI <;>
    first
      | simpa [CoreInv, Step.core, updateDepth, Event.isComposite, Event.isPrimitive,
          Event.isStart, Event.isEnd, Inv] using hI
      | (rcases hI with ⟨h1, ⟨h2, rfl, rfl⟩ | ⟨h2, rfl, rfl⟩⟩ <;>
          simp [CoreInv, Step.core, updateDepth, Event.isComposite, Event.isPrimitive,
            Event.isStart, Event.isEnd, Inv, h1])

theorem Inv_push {p : Parser} {b : Byte} {ev : Event} {x s' : State} {rw : Bool}
    (h : PushRow p.state b ev x s' rw) (hI : Inv p) :
    CoreInv ⟨{ p with state := s', queue := x :: p.queue }, ev, none, rw⟩ := by
  rcases p with ⟨st, q, d, l, dr, e, pr⟩
  simp only at h
  cases h <;> simp only [Inv] at hI
  · rcases hI with ⟨h1, ⟨h2, rfl, rfl⟩ | ⟨h2, rfl, rfl⟩⟩ <;>
      simp [CoreInv, Step.core, updateDepth, Event.isComposite, Event.isPrimitive,
        Event.isStart, Event.isEnd, Inv] <;> exact ⟨_, h1, rfl, rfl⟩
  · obtain ⟨h1, rfl, rfl⟩ := hI
    simp [CoreInv, Step.core, updateDepth, Inv]
    exact ⟨_, h1, rfl, by omega⟩
  · obtain ⟨h1, rfl, rfl⟩ := hI
    simp [CoreInv, Step.core, updateDepth, Inv]
    exact ⟨_, h1, rfl, by omega⟩
  · obtain ⟨h1, rfl, rfl⟩ := hI
    simp [CoreInv, Step.core, Inv, Frames.cons_frames (Or.inr rfl) h1]
    omega
  · obtain ⟨h1, rfl, rfl⟩ := hI
    simp [CoreInv, Step.core, Inv, Frames.cons_frames (Or.inl rfl) h1]
  · obtain ⟨h1, rfl, rfl⟩ := hI
    simp [CoreInv, Step.core, Inv, Frames.cons_frames (Or.inl rfl) h1]

theorem Inv_pop_row {p : Parser} {b : Byte} {ev : Event} {rw : Bool}
    (h : PopRow p.state b ev rw) (hI : Inv p) : CoreInv ⟨p.toNext, ev, none, rw⟩ := by
  rcases p with ⟨st, q, d, l, dr, e, pr⟩
  simp only at h
  cases h <;> simp only [Inv] at hI <;>
    first
      | (obtain ⟨h1, rfl, h3⟩ := hI
         simp only [CoreInv, Step.core, reduceCtorEq, or_self, if_false]
         exact Inv_pop_event _ _ _ _ _ h1 h3 _ _ (by simp))
      | (obtain ⟨q', h1, ⟨rfl, rfl, rfl⟩ | ⟨rfl, rfl, rfl⟩⟩ := hI <;>
          simp [CoreInv, Step.core, Inv, Parser.toNext, Parser.next, h1])

/-- The switch and the depth update keep the invariant. -/
theorem Inv_core (p : Parser) (b : Byte) (h : Inv p) : CoreInv (transition p b) := by
  have hm := transition_move p b
  generalize transition p b = t at hm ⊢
  cases hm with
  | keep ev s' hr => exact Inv_keep hr h
  | push ev x s' rw hr => exact Inv_push hr h
  | pop ev rw hr => exact Inv_pop_row hr h
  | error s' msg hr =>
    rcases p with ⟨st, q, d, l, dr, e, pr⟩
    rcases hr with rfl | ⟨h1, rfl⟩ | ⟨h1, rfl⟩
    · simpa [CoreInv, Step.core] using h
    · simp only at h1
      subst h1
      simpa [CoreInv, Step.core, Inv] using h
    · simp only at h1
      subst h1
      simpa [CoreInv, Step.core, Inv] using h

theorem coreOk_of_eq {t : Step} {o : Outcome} (h1 : o.parser.state = t.core.state)
    (h2 : o.parser.queue = t.core.queue) (h3 : o.parser.depth = t.core.depth)
    (h4 : o.parser.property = t.core.property) : CoreOk t o := ⟨h1, h2, h3, h4⟩

/-- The lines after the switch change the depth and the property flag as
`updateDepth` says, for every event other than `Continue` and `SyntaxError`,
whether the event is delivered or not. -/
theorem settle_core (t : Step) : CoreOk t (settle t) := by
  unfold settle
  refine ite_ind _ _ _ (fun h1 => ?_) (fun h1 => ?_)
  · unfold Outcome.cont
    split <;> simp [CoreOk, Outcome.parser, Step.core, h1]
  · refine ite_ind _ _ _ (fun h2 => ?_) (fun h2 => ?_)
    · simp [CoreOk, Outcome.parser, Step.core, h2]
    · have hc : t.core = updateDepth t.p t.event := by simp [Step.core, h1, h2]
      simp only []
      repeat' (refine ite_ind _ _ _ (fun _ => ?_) (fun _ => ?_))
      all_goals (rw [CoreOk, hc]; simp [Outcome.parser])

/-- An iteration keeps the invariant. -/
theorem Inv_iter (p : Parser) (b : Byte) (h : Inv p) : Inv (iter p b).parser := by
  unfold iter
  split
  · exact h
  · have h1 := settle_core (transition p b)
    exact (Inv_congr h1.1 h1.2.1 h1.2.2.1 h1.2.2.2).2 (Inv_core p b h)

/-- What every iteration keeps, every call of `Parse` keeps. -/
theorem Parse_preserves (I : Parser → Prop) (hI : ∀ p b, I p → I (iter p b).parser) :
    ∀ (input : List Byte) (p : Parser), I p → ∀ r p', Parse p input = some (r, p') → I p' := by
  intro input
  induction input with
  | nil =>
    intro p hp r p' h
    rw [Parse_nil] at h
    cases h
    exact hp
  | cons b rest ih =>
    have key : ∀ (n : Nat) (p : Parser), againBound p ≤ n → I p →
        ∀ r p', Parse p (b :: rest) = some (r, p') → I p' := by
      intro n
      induction n with
      | zero =>
        intro p hn hp r p' h
        cases hit : iter p b with
        | advance p1 =>
          rw [Parse_advance rest hit] at h
          cases hP : Parse p1 rest with
          | none => rw [hP] at h; cases h
          | some x =>
            rw [hP] at h
            have h1 := hI p b hp
            rw [hit] at h1
            cases h
            exact ih p1 h1 _ _ hP
        | again p1 =>
          have := againBound_pos hit
          omega
        | ret p1 c ev err =>
          rw [Parse_ret rest hit] at h
          cases h
          have h1 := hI p b hp
          rw [hit] at h1
          exact h1
      | succ n ihn =>
        intro p hn hp r p' h
        cases hit : iter p b with
        | advance p1 =>
          rw [Parse_advance rest hit] at h
          cases hP : Parse p1 rest with
          | none => rw [hP] at h; cases h
          | some x =>
            rw [hP] at h
            have h1 := hI p b hp
            rw [hit] at h1
            cases h
            exact ih p1 h1 _ _ hP
        | again p1 =>
          rw [Parse_again rest hit] at h
          have h1 := hI p b hp
          rw [hit] at h1
          have := (iter_again hit).1
          exact ihn p1 (by omega) h1 r p' h
        | ret p1 c ev err =>
          rw [Parse_ret rest hit] at h
          cases h
          have h1 := hI p b hp
          rw [hit] at h1
          exact h1
    exact fun p => key _ p (le_refl _)

/-- Every call of `Parse` returns. -/
theorem Parse_total (input : List Byte) : ∀ p : Parser, ∃ r p', Parse p input = some (r, p') := by
  induction input with
  | nil => exact fun p => ⟨_, _, Parse_nil p⟩
  | cons b rest ih =>
    have key : ∀ (n : Nat) (p : Parser), againBound p ≤ n →
        ∃ r p', Parse p (b :: rest) = some (r, p') := by
      intro n
      induction n with
      | zero =>
        intro p hn
        cases hit : iter p b with
        | advance p1 =>
          obtain ⟨r, p', h⟩ := ih p1
          exact ⟨_, _, by rw [Parse_advance rest hit, h]; rfl⟩
        | again p1 =>
          have := againBound_pos hit
          omega
        | ret p1 c ev err => exact ⟨_, _, Parse_ret rest hit⟩
      | succ n ihn =>
        intro p hn
        cases hit : iter p b with
        | advance p1 =>
          obtain ⟨r, p', h⟩ := ih p1
          exact ⟨_, _, by rw [Parse_advance rest hit, h]; rfl⟩
        | again p1 =>
          have := (iter_again hit).1
          obtain ⟨r, p', h⟩ := ihn p1 (by omega)
          exact ⟨r, p', by rw [Parse_again rest hit, h]⟩
        | ret p1 c ev err => exact ⟨_, _, Parse_ret rest hit⟩
    exact fun p => key _ p (le_refl _)

/-- Every parser that a caller can reach satisfies the invariant. -/
theorem Reachable.inv {p : Parser} (h : Reachable p) : Inv p := by
  induction h with
  | zero => simp [Inv, Parser.zero, Frames]
  | parse input _ hP ih => exact Parse_preserves Inv Inv_iter input _ ih _ _ hP
  | @endCall p _ ih =>
    rcases p with ⟨st, q, d, l, dr, e, pr⟩
    cases st <;> simp only [End] <;> (try split) <;> first
      | exact ih
      | (rename_i hd
         have hd' : d = 1 := hd
         simp only [Inv] at ih ⊢
         obtain ⟨h1, h2, h3⟩ := ih
         refine ⟨?_, h2, Or.inr hd'⟩
         rw [hd'] at h3
         have : q.length = 0 := by omega
         exact List.length_eq_zero.1 this)
  | @skip p p' dr em _ hS ih =>
    unfold Skip at hS
    split at hS
    · cases hS
    · split at hS
      · cases hS
      · cases hS
        exact (Inv_congr rfl rfl rfl rfl).1 ih
  | reset _ _ => simp [Reset, Inv, Parser.zero, Frames]

theorem Inv.depth_ge_zero {p : Parser} (h : Inv p) : 0 ≤ p.depth := by
  rcases p with ⟨st, q, d, l, dr, e, pr⟩
  cases st <;> simp only [Inv] at h <;> simp only
  · rcases h with ⟨_, ⟨_, _, h3⟩ | ⟨_, _, h3⟩⟩ <;> omega
  · rcases h with ⟨_, _, h3 | h3⟩ <;> omega
  all_goals (obtain ⟨_, _, h3⟩ := h; omega)

/-! ## Soundness: grammar lemmas -/

theorem Ws.nil_ws : Ws [] := fun _ h => by cases h

theorem Ws.cons_ws {b : Byte} {w : List Byte} (hb : isSpace b = true) (hw : Ws w) :
    Ws (b :: w) := by
  intro c hc
  rcases List.mem_cons.1 hc with rfl | hc
  · have : ((c = 32 ∨ c = 9) ∨ c = 10) ∨ c = 13 := by simpa [isSpace] using hb
    tauto
  · exact hw c hc

theorem SerItems.ws_items {b : Byte} (hb : isSpace b = true) {vs : List JValue}
    {d : List Byte} (h : SerItems vs d) : SerItems vs (b :: d) := by
  cases h with
  | last v w1 dv w2 hw1 hv hw2 => exact SerItems.last v (b :: w1) dv w2 (Ws.cons_ws hb hw1) hv hw2
  | cons v vs w1 dv w2 ds hw1 hv hw2 hrest =>
    exact SerItems.cons v vs (b :: w1) dv w2 ds (Ws.cons_ws hb hw1) hv hw2 hrest

theorem SerMembers.ws_members {b : Byte} (hb : isSpace b = true)
    {ms : List (List Byte × JValue)} {d : List Byte} (h : SerMembers ms d) :
    SerMembers ms (b :: d) := by
  cases h with
  | last k v w1 w2 w3 dv w4 hw1 hk hw2 hw3 hv hw4 =>
    exact SerMembers.last k v (b :: w1) w2 w3 dv w4 (Ws.cons_ws hb hw1) hk hw2 hw3 hv hw4
  | cons k v ms w1 w2 w3 dv w4 ds hw1 hk hw2 hw3 hv hw4 hrest =>
    exact SerMembers.cons k v ms (b :: w1) w2 w3 dv w4 ds (Ws.cons_ws hb hw1) hk hw2 hw3 hv hw4
      hrest

theorem SerItems.items_ne_nil {vs : List JValue} {d : List Byte} (h : SerItems vs d) :
    ∃ v vs', vs = v :: vs' := by
  cases h with
  | last v w1 dv w2 hw1 hv hw2 => exact ⟨_, _, rfl⟩
  | cons v vs w1 dv w2 ds hw1 hv hw2 hrest => exact ⟨_, _, rfl⟩

theorem SerMembers.members_ne_nil {ms : List (List Byte × JValue)} {d : List Byte}
    (h : SerMembers ms d) : ∃ m ms', ms = m :: ms' := by
  cases h with
  | last k v w1 w2 w3 dv w4 hw1 hk hw2 hw3 hv hw4 => exact ⟨_, _, rfl⟩
  | cons k v ms w1 w2 w3 dv w4 ds hw1 hk hw2 hw3 hv hw4 hrest => exact ⟨_, _, rfl⟩

theorem After_array {q : List State} {z : List Byte}
    (h : After (_StateArrayCommaOrBracket :: q) z) :
    ∃ w t z', z = w ++ (t ++ 93 :: z') ∧ Ws w ∧ ItemsTail t ∧ After q z' := by
  simp only [After] at h
  rcases h with ⟨_, h⟩ | ⟨h, _⟩
  · exact h
  · cases h

theorem After_object {q : List State} {z : List Byte}
    (h : After (_StateObjectCommaOrBrace :: q) z) :
    ∃ w t z', z = w ++ (t ++ 125 :: z') ∧ Ws w ∧ MembersTail t ∧ After q z' := by
  simp only [After] at h
  rcases h with ⟨h, _⟩ | ⟨_, h⟩
  · cases h
  · exact h

theorem After_array_mk {q : List State} {w t z' : List Byte} (hw : Ws w) (ht : ItemsTail t)
    (h : After q z') : After (_StateArrayCommaOrBracket :: q) (w ++ (t ++ 93 :: z')) := by
  unfold After
  exact Or.inl ⟨rfl, w, t, z', rfl, hw, ht, h⟩

theorem After_object_mk {q : List State} {w t z' : List Byte} (hw : Ws w) (ht : MembersTail t)
    (h : After q z') : After (_StateObjectCommaOrBrace :: q) (w ++ (t ++ 125 :: z')) := by
  unfold After
  exact Or.inr ⟨rfl, w, t, z', rfl, hw, ht, h⟩

/-- What remains in `_StateValue` inside an array is the rest of the
elements, the closing bracket and what follows the array. -/
theorem items_of_rest {q : List State} {z : List Byte}
    (h : ValueRest (_StateArrayCommaOrBracket :: q) z) :
    ∃ vs inner z', z = inner ++ 93 :: z' ∧ SerItems vs inner ∧ After q z' := by
  obtain ⟨w, v, body, z1, rfl, hw, hv, ha⟩ := h
  obtain ⟨w', t, z', rfl, hw', ht, ha'⟩ := After_array ha
  rcases ht with rfl | ⟨vs, ds, hds, rfl⟩
  · exact ⟨[v], w ++ (body ++ w'), z', by simp, SerItems.last v w body w' hw hv hw', ha'⟩
  · exact ⟨v :: vs, w ++ (body ++ (w' ++ 44 :: ds)), z', by simp,
      SerItems.cons v vs w body w' ds hw hv hw' hds, ha'⟩

/-- What remains after the opening quote of an object key is the rest of
the members, the closing brace and what follows the object. -/
theorem members_of_rest {q : List State} {k z1 : List Byte} (hk : StringBody k)
    (h : ColonRest q z1) :
    ∃ ms inner z', 34 :: (k ++ 34 :: z1) = inner ++ 125 :: z' ∧ SerMembers ms inner ∧
      After q z' := by
  obtain ⟨w2, zz, rfl, hw2, w3, v, body, z2, rfl, hw3, hv, ha⟩ := h
  obtain ⟨w4, t, z', rfl, hw4, ht, ha'⟩ := After_object ha
  rcases ht with rfl | ⟨ms, ds, hds, rfl⟩
  · exact ⟨[(k, v)], _, z', by
      show _ = ([] ++ 34 :: (k ++ 34 :: (w2 ++ 58 :: (w3 ++ (body ++ w4))))) ++ 125 :: z'
      simp,
      SerMembers.last k v [] w2 w3 body w4 Ws.nil_ws hk hw2 hw3 hv hw4, ha'⟩
  · exact ⟨(k, v) :: ms, _, z', by
      show _ = ([] ++ 34 :: (k ++ 34 :: (w2 ++ 58 :: (w3 ++ (body ++ (w4 ++ 44 :: ds)))))) ++
        125 :: z'
      simp,
      SerMembers.cons k v ms [] w2 w3 body w4 ds Ws.nil_ws hk hw2 hw3 hv hw4 hds, ha'⟩

/-- The state on top of a queue of frames takes up what follows the value. -/
theorem rest_toNext (s : State) (q : List State) (d l dr e : Int) (pr : Bool) (hq : Frames q)
    (z : List Byte)
    (h : Rest (Parser.toNext ⟨s, q, d, l, dr, e, pr⟩).state
      (Parser.toNext ⟨s, q, d, l, dr, e, pr⟩).queue z) : After q z := by
  cases q with
  | nil => simpa [Parser.toNext, Parser.next, Rest] using h
  | cons s' q' =>
    rcases hq.head_frames with rfl | rfl <;> simpa [Parser.toNext, Parser.next, Rest] using h

theorem ValueRest.of_ser {q : List State} {v : JValue} {body z' : List Byte} (hv : Ser v body)
    (ha : After q z') : ValueRest q (body ++ z') :=
  ⟨[], v, body, z', rfl, Ws.nil_ws, hv, ha⟩

/-! ## Soundness: the rows of the switch -/

theorem digit_of_isDecimal {b : Byte} (h : isDecimal b = true) : 48 ≤ b ∧ b ≤ 57 := by
  simpa [isDecimal] using h

theorem hexDigit_of_isHex {b : Byte} (h : isHex b = true) : HexDigit b := by
  simp only [isHex, isDecimal, Bool.or_eq_true, Bool.and_eq_true, decide_eq_true_eq] at h
  unfold HexDigit
  tauto

theorem Digits.nil_digits : Digits [] := fun _ h => by cases h

theorem Digits.cons_digits {b : Byte} {ds : List Byte} (hb : 48 ≤ b ∧ b ≤ 57) (h : Digits ds) :
    Digits (b :: ds) := by
  intro c hc
  rcases List.mem_cons.1 hc with rfl | hc
  · exact hb
  · exact h c hc

/-- A step inside a number goes back from what completes the lexeme after the
step to what completes it before. -/
theorem numTail_keep {s s' : State} {b : Byte} {ev : Event} (h : KeepRow s b ev s')
    (hev : ev = Continue) {t : List Byte} (ht : NumTail s' t) : NumTail s (b :: t) := by
  subst hev
  cases h <;> simp only [NumTail] at ht ⊢
  case negZero =>
    obtain ⟨f, x, rfl, hf, hx⟩ := ht
    exact ⟨[48], f, x, rfl, Or.inl rfl, hf, hx⟩
  case negDigit hb =>
    obtain ⟨ds, f, x, rfl, hds, hf, hx⟩ := ht
    exact ⟨b :: ds, f, x, rfl, Or.inr ⟨b, ds, rfl, hb.1, hb.2, hds⟩, hf, hx⟩
  case intDigit hb =>
    obtain ⟨ds, f, x, rfl, hds, hf, hx⟩ := ht
    exact ⟨b :: ds, f, x, rfl, Digits.cons_digits (digit_of_isDecimal hb) hds, hf, hx⟩
  case intDot =>
    obtain ⟨d, ds, x, rfl, hds, hx⟩ := ht
    exact ⟨[], 46 :: d :: ds, x, by simp, Digits.nil_digits, Or.inr ⟨d, ds, rfl, hds⟩, hx⟩
  case intExp hb =>
    obtain ⟨sgn, d, ds, rfl, hsgn, hds⟩ := ht
    exact ⟨[], [], b :: (sgn ++ d :: ds), by simp, Digits.nil_digits, Or.inl rfl,
      Or.inr ⟨b, sgn, d, ds, rfl, hb, hsgn, hds⟩⟩
  case zeroDot =>
    obtain ⟨d, ds, x, rfl, hds, hx⟩ := ht
    exact ⟨46 :: d :: ds, x, by simp, Or.inr ⟨d, ds, rfl, hds⟩, hx⟩
  case zeroExp hb =>
    obtain ⟨sgn, d, ds, rfl, hsgn, hds⟩ := ht
    exact ⟨[], b :: (sgn ++ d :: ds), by simp, Or.inl rfl,
      Or.inr ⟨b, sgn, d, ds, rfl, hb, hsgn, hds⟩⟩
  case fracFirst hb =>
    obtain ⟨ds, x, rfl, hds, hx⟩ := ht
    exact ⟨b, ds, x, rfl, Digits.cons_digits (digit_of_isDecimal hb) hds, hx⟩
  case fracExp hb =>
    obtain ⟨sgn, d, ds, rfl, hsgn, hds⟩ := ht
    exact ⟨[], b :: (sgn ++ d :: ds), by simp, Digits.nil_digits,
      Or.inr ⟨b, sgn, d, ds, rfl, hb, hsgn, hds⟩⟩
  case fracDigit hb =>
    obtain ⟨ds, x, rfl, hds, hx⟩ := ht
    exact ⟨b :: ds, x, rfl, Digits.cons_digits (digit_of_isDecimal hb) hds, hx⟩
  case expSign hb =>
    obtain ⟨d, ds, rfl, hds⟩ := ht
    rcases hb with rfl | rfl
    · exact ⟨[43], d, ds, rfl, Or.inr (Or.inl rfl), hds⟩
    · exact ⟨[45], d, ds, rfl, Or.inr (Or.inr rfl), hds⟩
  case expNoSign _ hb =>
    exact ⟨[], b, t, rfl, Or.inl rfl, Digits.cons_digits (digit_of_isDecimal hb) ht⟩
  case expFirst hb =>
    exact ⟨b, t, rfl, Digits.cons_digits (digit_of_isDecimal hb) ht⟩
  case expDigit hb =>
    exact Digits.cons_digits (digit_of_isDecimal hb) ht

/-- A step inside a string goes back from what completes the body after the
step to what completes it before. -/
theorem strTail_keep {s s' : State} {b : Byte} {ev : Event} (h : KeepRow s b ev s')
    (hev : ev = Continue) {t : List Byte} (ht : StrTail s' t) : StrTail s (b :: t) := by
  subst hev
  cases h <;> simp only [StrTail] at ht ⊢
  case unicode1 hb =>
    obtain ⟨h2, h3, h4, s, rfl, a2, a3, a4, hs⟩ := ht
    exact ⟨b, h2, h3, h4, s, rfl, hexDigit_of_isHex hb, a2, a3, a4, hs⟩
  case unicode2 hb =>
    obtain ⟨h3, h4, s, rfl, a3, a4, hs⟩ := ht
    exact ⟨b, h3, h4, s, rfl, hexDigit_of_isHex hb, a3, a4, hs⟩
  case unicode3 hb =>
    obtain ⟨h4, s, rfl, a4, hs⟩ := ht
    exact ⟨b, h4, s, rfl, hexDigit_of_isHex hb, a4, hs⟩
  case unicode4 hb =>
    exact ⟨b, t, rfl, hexDigit_of_isHex hb, ht⟩
  case backslash =>
    obtain ⟨c, s, rfl, ⟨hc, hs⟩ | ⟨rfl, h1, h2, h3, h4, s', rfl, a1, a2, a3, a4, hs⟩⟩ := ht
    · exact StringBody.escape c s hc hs
    · exact StringBody.unicode h1 h2 h3 h4 s' a1 a2 a3 a4 hs
  case char h1 h2 h3 =>
    exact StringBody.char b t (Nat.le_of_not_lt h3) h1 h2 ht
  case escape hb =>
    exact ⟨b, t, rfl, Or.inl ⟨hb, ht⟩⟩
  case escapeU =>
    obtain ⟨h1, h2, h3, h4, s, rfl, a1, a2, a3, a4, hs⟩ := ht
    exact ⟨117, _, rfl, Or.inr ⟨rfl, h1, h2, h3, h4, s, rfl, a1, a2, a3, a4, hs⟩⟩

theorem NumTail.lexeme_minus {t : List Byte} (h : NumTail _StateNumberNegative t) :
    NumberLexeme (45 :: t) := by
  obtain ⟨i, f, x, rfl, hi, hf, hx⟩ := h
  exact ⟨[45], i, f, x, rfl, Or.inr rfl, hi, hf, hx⟩

theorem NumTail.lexeme_zero {t : List Byte} (h : NumTail _StateNumberZero t) :
    NumberLexeme (48 :: t) := by
  obtain ⟨f, x, rfl, hf, hx⟩ := h
  exact ⟨[], [48], f, x, rfl, Or.inl rfl, Or.inl rfl, hf, hx⟩

theorem NumTail.lexeme_digit {b : Byte} (hb : 49 ≤ b ∧ b ≤ 57) {t : List Byte}
    (h : NumTail _StateNumber t) : NumberLexeme (b :: t) := by
  obtain ⟨ds, f, x, rfl, hds, hf, hx⟩ := h
  exact ⟨[], b :: ds, f, x, rfl, Or.inl rfl, Or.inr ⟨b, ds, rfl, hb.1, hb.2, hds⟩, hf, hx⟩

/-- A row that changes the state only: what completes the text after the
byte completes it, with the byte in front, before the byte. -/
theorem keep_sound {s s' : State} {b : Byte} {ev : Event} (h : KeepRow s b ev s')
    (q : List State) (rest : List Byte) (hq : s = _StateObjectKeyDone → b = 34)
    (hr : Rest s' q rest) : Rest s q (b :: rest) := by
  have hN : ev = Continue → ∀ t, NumTail s' t → NumTail s (b :: t) :=
    fun hev t => numTail_keep h hev
  have hS : ev = Continue → ∀ t, StrTail s' t → StrTail s (b :: t) :=
    fun hev t => strTail_keep h hev
  cases h
  case objectStart =>
    obtain ⟨inner, z', rfl, hin, ha⟩ := hr
    rcases hin with hw | ⟨ms, hms⟩
    · simpa using ValueRest.of_ser (Ser.objectEmpty inner hw) ha
    · obtain ⟨m, ms', rfl⟩ := hms.members_ne_nil
      simpa using ValueRest.of_ser (Ser.object m ms' inner hms) ha
  case arrayStart =>
    obtain ⟨inner, z', rfl, hin, ha⟩ := hr
    rcases hin with hw | ⟨vs, hvs⟩
    · simpa using ValueRest.of_ser (Ser.arrayEmpty inner hw) ha
    · obtain ⟨v, vs', rfl⟩ := hvs.items_ne_nil
      simpa using ValueRest.of_ser (Ser.array v vs' inner hvs) ha
  case minus =>
    obtain ⟨t, z', rfl, ht, ha⟩ := hr
    exact ValueRest.of_ser (Ser.number _ ht.lexeme_minus) ha
  case zero =>
    obtain ⟨t, z', rfl, ht, ha⟩ := hr
    exact ValueRest.of_ser (Ser.number _ ht.lexeme_zero) ha
  case digit hb =>
    obtain ⟨t, z', rfl, ht, ha⟩ := hr
    exact ValueRest.of_ser (Ser.number _ (ht.lexeme_digit hb)) ha
  case litTrue =>
    obtain ⟨z', rfl, ha⟩ := hr
    exact ValueRest.of_ser Ser.boolTrue ha
  case litFalse =>
    obtain ⟨z', rfl, ha⟩ := hr
    exact ValueRest.of_ser Ser.boolFalse ha
  case litNull =>
    obtain ⟨z', rfl, ha⟩ := hr
    exact ValueRest.of_ser Ser.null ha
  case keyEnd =>
    rw [hq rfl]
    exact ⟨rest, rfl, hr⟩
  case memberComma =>
    obtain ⟨inner, z', rfl, ⟨ms, hms⟩, ha⟩ := hr
    simpa using After_object_mk (w := []) Ws.nil_ws (Or.inr ⟨ms, inner, hms, rfl⟩) ha
  case unicode1 | unicode2 | unicode3 | unicode4 | backslash | char | escape | escapeU =>
    cases q with
    | nil => exact hr.elim
    | cons top q' =>
      obtain ⟨t, z', rfl, ht, ha⟩ := hr
      exact ⟨_ :: t, z', rfl, hS rfl t ht, ha⟩
  case negZero | negDigit | intDigit | intDot | intExp | zeroDot | zeroExp | fracFirst
      | fracExp | fracDigit | expSign | expNoSign | expFirst | expDigit =>
    obtain ⟨t, z', rfl, ht, ha⟩ := hr
    exact ⟨_ :: t, z', rfl, hN rfl t ht, ha⟩
  case true1 | true2 | false1 | false2 | false3 | null1 | null2 =>
    obtain ⟨z', rfl, ha⟩ := hr
    exact ⟨z', rfl, ha⟩

/-- A row that pushes a state. -/
theorem push_sound {s x s' : State} {b : Byte} {ev : Event} {rw : Bool}
    (h : PushRow s b ev x s' rw) (q : List State) (rest : List Byte)
    (hr : Rest s' (x :: q) (if rw then b :: rest else rest)) : Rest s q (b :: rest) := by
  cases h
  case stringStart =>
    obtain ⟨t, z', h1, ht, ⟨_, ha⟩ | ⟨habs, _⟩⟩ := hr
    · simp only [Bool.false_eq_true, if_false] at h1
      subst h1
      simpa using ValueRest.of_ser (Ser.string t ht) ha
    · cases habs
  case firstKey =>
    obtain ⟨t, z1, h1, ht, ⟨habs, _⟩ | ⟨_, hc⟩⟩ := hr
    · cases habs
    · simp only [Bool.false_eq_true, if_false] at h1
      subst h1
      obtain ⟨ms, inner, z', heq, hms, ha⟩ := members_of_rest ht hc
      exact ⟨inner, z', heq, Or.inr ⟨ms, hms⟩, ha⟩
  case nextKey =>
    obtain ⟨t, z1, h1, ht, ⟨habs, _⟩ | ⟨_, hc⟩⟩ := hr
    · cases habs
    · simp only [Bool.false_eq_true, if_false] at h1
      subst h1
      obtain ⟨ms, inner, z', heq, hms, ha⟩ := members_of_rest ht hc
      exact ⟨inner, z', heq, ⟨ms, hms⟩, ha⟩
  case colon =>
    exact ⟨[], rest, rfl, Ws.nil_ws, hr⟩
  case firstItem =>
    obtain ⟨vs, inner, z', heq, hvs, ha⟩ := items_of_rest hr
    exact ⟨inner, z', heq, Or.inr ⟨vs, hvs⟩, ha⟩
  case nextItem =>
    obtain ⟨vs, inner, z', heq, hvs, ha⟩ := items_of_rest hr
    simp only [Bool.false_eq_true, if_false] at heq
    subst heq
    simpa using After_array_mk (w := []) Ws.nil_ws (Or.inr ⟨vs, inner, hvs, rfl⟩) ha

theorem NumTail.complete_nil {s : State} (h : s.numberComplete = true) : NumTail s [] := by
  cases s <;> simp [State.numberComplete] at h
  · exact ⟨[], [], rfl, Or.inl rfl, Or.inl rfl⟩
  · exact ⟨[], [], [], rfl, Digits.nil_digits, Or.inl rfl, Or.inl rfl⟩
  · exact ⟨[], [], rfl, Digits.nil_digits, Or.inl rfl⟩
  · exact Digits.nil_digits

/-- A row that ends a value: what follows the value completes the text. -/
theorem pop_sound {s : State} {b : Byte} {ev : Event} {rw : Bool} (h : PopRow s b ev rw)
    (hs : s ≠ _StateString) (q : List State) (rest : List Byte)
    (hq : s = _StateStringDone → b = 34)
    (ha : After q (if rw then b :: rest else rest)) : Rest s q (b :: rest) := by
  cases h
  case emptyObject => exact ⟨[], rest, rfl, Or.inl Ws.nil_ws, ha⟩
  case objectEnd => simpa using After_object_mk (w := []) Ws.nil_ws (Or.inl rfl) ha
  case emptyArray => exact ⟨[], rest, rfl, Or.inl Ws.nil_ws, ha⟩
  case arrayEnd => simpa using After_array_mk (w := []) Ws.nil_ws (Or.inl rfl) ha
  case quote => exact absurd rfl hs
  case stringEnd =>
    rw [hq rfl]
    exact ⟨rest, rfl, ha⟩
  case intEnd => exact ⟨[], b :: rest, rfl, NumTail.complete_nil rfl, ha⟩
  case zeroEnd => exact ⟨[], b :: rest, rfl, NumTail.complete_nil rfl, ha⟩
  case fracEnd => exact ⟨[], b :: rest, rfl, NumTail.complete_nil rfl, ha⟩
  case expEnd => exact ⟨[], b :: rest, rfl, NumTail.complete_nil rfl, ha⟩
  case trueEnd => exact ⟨rest, rfl, ha⟩
  case falseEnd => exact ⟨rest, rfl, ha⟩
  case nullEnd => exact ⟨rest, rfl, ha⟩

/-- The closing quote of a string, left to the state on top of the queue. -/
theorem quote_sound {top : State} (q : List State) (rest : List Byte)
    (htop : top = _StateStringDone ∨ top = _StateObjectKeyDone)
    (hr : Rest top q (34 :: rest)) : Rest _StateString (top :: q) (34 :: rest) := by
  rcases htop with rfl | rfl
  · obtain ⟨z', h1, ha⟩ := hr
    cases h1
    exact ⟨[], rest, rfl, StringBody.nil, Or.inl ⟨rfl, ha⟩⟩
  · obtain ⟨z', h1, ha⟩ := hr
    cases h1
    exact ⟨[], rest, rfl, StringBody.nil, Or.inr ⟨rfl, ha⟩⟩

/-- Whitespace before a state below `_IgnoreSpace`. -/
theorem ws_sound {s : State} (q : List State) {b : Byte} (rest : List Byte)
    (hs : s.code < _IgnoreSpace) (hb : isSpace b = true) (hq : s = _StateObjectKeyDone → b = 34)
    (hr : Rest s q rest) : Rest s q (b :: rest) := by
  cases s <;> simp [State.code, _IgnoreSpace] at hs
  case _StateValue =>
    obtain ⟨w, v, body, z', rfl, hw, hv, ha⟩ := hr
    exact ⟨b :: w, v, body, z', rfl, Ws.cons_ws hb hw, hv, ha⟩
  case _StateDone =>
    cases q with
    | nil => exact Ws.cons_ws hb hr
    | cons s' q' =>
      rcases hr with ⟨rfl, w, t, z', rfl, hw, ht, ha⟩ | ⟨rfl, w, t, z', rfl, hw, ht, ha⟩
      · exact After_array_mk (w := b :: w) (Ws.cons_ws hb hw) ht ha
      · exact After_object_mk (w := b :: w) (Ws.cons_ws hb hw) ht ha
  case _StateObjectKeyOrBrace =>
    obtain ⟨inner, z', rfl, hin, ha⟩ := hr
    refine ⟨b :: inner, z', rfl, ?_, ha⟩
    rcases hin with hw | ⟨ms, hms⟩
    · exact Or.inl (Ws.cons_ws hb hw)
    · exact Or.inr ⟨ms, hms.ws_members hb⟩
  case _StateObjectKeyDone =>
    rw [hq rfl] at hb
    simp [isSpace] at hb
  case _StateObjectColon =>
    obtain ⟨w, zz, rfl, hw, hv⟩ := hr
    exact ⟨b :: w, zz, rfl, Ws.cons_ws hb hw, hv⟩
  case _StateObjectCommaOrBrace =>
    obtain ⟨w, t, z', rfl, hw, ht, ha⟩ := After_object hr
    exact After_object_mk (w := b :: w) (Ws.cons_ws hb hw) ht ha
  case _StateObjectKey =>
    obtain ⟨inner, z', rfl, ⟨ms, hms⟩, ha⟩ := hr
    exact ⟨b :: inner, z', rfl, ⟨ms, hms.ws_members hb⟩, ha⟩
  case _StateArrayValueOrBracket =>
    obtain ⟨inner, z', rfl, hin, ha⟩ := hr
    refine ⟨b :: inner, z', rfl, ?_, ha⟩
    rcases hin with hw | ⟨vs, hvs⟩
    · exact Or.inl (Ws.cons_ws hb hw)
    · exact Or.inr ⟨vs, hvs.ws_items hb⟩
  case _StateArrayCommaOrBracket =>
    obtain ⟨w, t, z', rfl, hw, ht, ha⟩ := After_array hr
    exact After_array_mk (w := b :: w) (Ws.cons_ws hb hw) ht ha

theorem KeepRow.keep_not_done {s s' : State} {b : Byte} {ev : Event} (h : KeepRow s b ev s') :
    s' ≠ _StateObjectKeyDone ∧ s' ≠ _StateStringDone := by
  cases h <;> simp

theorem PushRow.push_not_done {s x s' : State} {b : Byte} {ev : Event} {rw : Bool}
    (h : PushRow s b ev x s' rw) : s' ≠ _StateObjectKeyDone ∧ s' ≠ _StateStringDone := by
  cases h <;> simp

/-- The queue of a parser that ends a value holds frames only. -/
theorem PopRow.frames {p : Parser} {b : Byte} {ev : Event} {rw : Bool}
    (h : PopRow p.state b ev rw) (hs : p.state ≠ _StateString) (hI : Inv p) :
    Frames p.queue := by
  rcases p with ⟨st, q, d, l, dr, e, pr⟩
  simp only at h hs
  cases h <;> simp only [Inv] at hI <;> first
    | exact hI.1
    | exact absurd rfl hs

theorem toNext_frames_state (s : State) (q : List State) (d l dr e : Int) (pr : Bool)
    (hq : Frames q) :
    (Parser.toNext ⟨s, q, d, l, dr, e, pr⟩).state ≠ _StateObjectKeyDone ∧
    (Parser.toNext ⟨s, q, d, l, dr, e, pr⟩).state ≠ _StateStringDone := by
  cases q with
  | nil => simp [Parser.toNext, Parser.next]
  | cons s' q' => rcases hq.head_frames with rfl | rfl <;> simp [Parser.toNext, Parser.next]

/-- A pass through the switch that sets no `SyntaxError`: what completes the
text after the pass completes it before the pass. -/
theorem move_sound {p : Parser} {b : Byte} {t : Step} (hm : Move p b t) (rest : List Byte)
    (hI : Inv p) (hq : QuoteCond p (b :: rest)) (hev : t.event ≠ SyntaxError) :
    QuoteCond t.p (if t.rewind then b :: rest else rest) ∧
    (Rest t.p.state t.p.queue (if t.rewind then b :: rest else rest) →
      Rest p.state p.queue (b :: rest)) := by
  have hb : p.state = _StateObjectKeyDone ∨ p.state = _StateStringDone → b = 34 := by
    intro h
    obtain ⟨z', hz⟩ := hq h
    cases hz
    rfl
  cases hm with
  | keep ev s' hr =>
    refine ⟨fun h => ?_, fun h => keep_sound hr _ rest (fun h' => hb (Or.inl h')) h⟩
    have := hr.keep_not_done
    simp only at h
    tauto
  | push ev x s' rw hr =>
    refine ⟨fun h => ?_, fun h => push_sound hr _ rest h⟩
    have := hr.push_not_done
    simp only at h
    tauto
  | pop ev rw hr =>
    by_cases hs : p.state = _StateString
    · rcases p with ⟨st, q, d, l, dr, e, pr⟩
      simp only at hs
      subst hs
      simp only [Inv] at hI
      obtain ⟨q', hq', ⟨rfl, _, _⟩ | ⟨rfl, _, _⟩⟩ := hI <;> cases hr <;>
        simp only [Parser.toNext, Parser.next, if_true]
      · exact ⟨fun _ => ⟨rest, rfl⟩, quote_sound q' rest (Or.inl rfl)⟩
      · exact ⟨fun _ => ⟨rest, rfl⟩, quote_sound q' rest (Or.inr rfl)⟩
    · have hf := hr.frames hs hI
      rcases p with ⟨st, q, d, l, dr, e, pr⟩
      refine ⟨fun h => ?_, fun h => ?_⟩
      · have := toNext_frames_state st q d l dr e pr hf
        simp only at h
        tauto
      · exact pop_sound hr hs q rest (fun h' => hb (Or.inr h')) (rest_toNext _ _ _ _ _ _ _ hf _ h)
  | error s' msg hr => exact absurd rfl hev

theorem settle_error {t : Step} (h : t.event = SyntaxError) :
    settle t = Outcome.ret t.p false SyntaxError t.err := by
  simp [settle, h]

/-- An iteration that returns no `SyntaxError`: what completes the text
after the iteration completes it before the iteration. -/
theorem iter_sound {p : Parser} {b : Byte} (rest : List Byte) (hI : Inv p)
    (hq : QuoteCond p (b :: rest)) :
    (∀ p', iter p b = Outcome.advance p' →
      QuoteCond p' rest ∧ (Rest p'.state p'.queue rest → Rest p.state p.queue (b :: rest))) ∧
    (∀ p', iter p b = Outcome.again p' →
      QuoteCond p' (b :: rest) ∧
        (Rest p'.state p'.queue (b :: rest) → Rest p.state p.queue (b :: rest))) ∧
    (∀ p' ev err, iter p b = Outcome.ret p' true ev err → ev ≠ SyntaxError →
      QuoteCond p' rest ∧ (Rest p'.state p'.queue rest → Rest p.state p.queue (b :: rest))) ∧
    (∀ p' ev err, iter p b = Outcome.ret p' false ev err → ev ≠ SyntaxError →
      QuoteCond p' (b :: rest) ∧
        (Rest p'.state p'.queue (b :: rest) → Rest p.state p.queue (b :: rest))) := by
  unfold iter
  split
  · next hws =>
    have hb : p.state = _StateObjectKeyDone → b = 34 := by
      intro h
      obtain ⟨z', hz⟩ := hq (Or.inl h)
      cases hz
      rfl
    refine ⟨?_, by simp, by simp, by simp⟩
    intro p' h
    cases h
    refine ⟨fun h => ?_, ws_sound _ rest hws.1 hws.2 hb⟩
    exfalso
    rcases h with h | h
    · have := hb h
      rw [this] at hws
      simp [isSpace] at hws
    · rw [h] at hws
      simp [State.code, _IgnoreSpace] at hws
  · have hS := settle_spec (transition p b)
    have hM := fun hev => move_sound (transition_move p b) rest hI hq hev
    obtain ⟨h1, h2, h3, h4, h5⟩ := hS
    refine ⟨?_, ?_, ?_, ?_⟩
    · intro p' h
      have hev : (transition p b).event ≠ SyntaxError := by
        intro he
        rw [settle_error he] at h
        cases h
      have hr := h4 p' h
      rw [h] at h1 h2
      simp only [Outcome.parser] at h1 h2
      have := hM hev
      rw [hr] at this
      simp only [Bool.false_eq_true, if_false] at this
      unfold QuoteCond
      rw [h1, h2]
      exact this
    · intro p' h
      have hr := h3 p' h
      have hev := (transition_rewind p b hr).2.2
      rw [h] at h1 h2
      simp only [Outcome.parser] at h1 h2
      have := hM hev
      rw [hr] at this
      simp only [if_true] at this
      unfold QuoteCond
      rw [h1, h2]
      exact this
    · intro p' ev err h hne
      rcases h5 p' true ev err h with ⟨he, _⟩ | ⟨he, _, _, hc, _⟩
      · exact absurd he hne
      · have hr : (transition p b).rewind = false := by
          revert hc
          cases (transition p b).rewind <;> simp
        rw [h] at h1 h2
        simp only [Outcome.parser] at h1 h2
        have := hM (by rw [← he]; exact hne)
        rw [hr] at this
        simp only [Bool.false_eq_true, if_false] at this
        unfold QuoteCond
        rw [h1, h2]
        exact this
    · intro p' ev err h hne
      rcases h5 p' false ev err h with ⟨he, _⟩ | ⟨he, _, _, hc, _⟩
      · exact absurd he hne
      · have hr : (transition p b).rewind = true := by
          revert hc
          cases (transition p b).rewind <;> simp
        rw [h] at h1 h2
        simp only [Outcome.parser] at h1 h2
        have := hM (by rw [← he]; exact hne)
        rw [hr] at this
        simp only [if_true] at this
        unfold QuoteCond
        rw [h1, h2]
        exact this

/-- What completes the text at the end of the input, when `End` returns no
error. -/
theorem rest_nil_of_accepts {p : Parser} (hI : Inv p) (ha : Accepts p) :
    Rest p.state p.queue [] := by
  rcases p with ⟨st, q, d, l, dr, e, pr⟩
  rcases ha with h | ⟨h1, h2⟩
  · simp only at h
    subst h
    simp only [Inv] at hI
    obtain ⟨rfl, _, _⟩ := hI
    exact Ws.nil_ws
  · simp only at h1 h2
    have hq : Frames q ∧ pr = false ∧ d = q.length + 1 := by
      cases st <;> simp [State.numberComplete] at h1 <;> simpa [Inv] using hI
    have hnil : q = [] := by
      have : q.length = 0 := by omega
      exact List.length_eq_zero.1 this
    subst hnil
    have hr : ∃ t z', ([] : List Byte) = t ++ z' ∧ NumTail st t ∧ After [] z' :=
      ⟨[], [], rfl, NumTail.complete_nil h1, Ws.nil_ws⟩
    cases st <;> simp [State.numberComplete] at h1 <;> exact hr

/-- Soundness of a run: when the run does not fail and `End` accepts the
parser it leaves, the buffer completes the text read before the run. -/
theorem Runs.sound {p : Parser} {z : List Byte} {r : Run} (h : Runs p z r) :
    Inv p → QuoteCond p z → r.failed = false → Accepts r.p → Rest p.state p.queue z := by
  induction h with
  | nil p => exact fun hI _ _ ha => rest_nil_of_accepts hI ha
  | @advance p p' b rest r h _ ih =>
    intro hI hq hf ha
    have hs := (iter_sound rest hI hq).1 p' h
    have hI' := Inv_iter p b hI
    rw [h] at hI'
    exact hs.2 (ih hI' hs.1 hf ha)
  | @again p p' b rest r h _ ih =>
    intro hI hq hf ha
    have hs := (iter_sound rest hI hq).2.1 p' h
    have hI' := Inv_iter p b hI
    rw [h] at hI'
    exact hs.2 (ih hI' hs.1 hf ha)
  | @emit p p' b rest r ev err h hev _ ih =>
    intro hI hq hf ha
    have hs := (iter_sound rest hI hq).2.2.1 p' ev err h hev
    have hI' := Inv_iter p b hI
    rw [h] at hI'
    exact hs.2 (ih hI' hs.1 hf ha)
  | @emitAgain p p' b rest r ev err h hev _ ih =>
    intro hI hq hf ha
    have hs := (iter_sound rest hI hq).2.2.2 p' ev err h hev
    have hI' := Inv_iter p b hI
    rw [h] at hI'
    exact hs.2 (ih hI' hs.1 hf ha)
  | fail h => intro _ _ hf; simp at hf

theorem accepts_of_finish {p pf : Parser} {es : List Event}
    (h : finish p = (es, none, pf)) : Accepts p := by
  rcases p with ⟨st, q, d, l, dr, e, pr⟩
  by_cases hd : d = 1
  · cases st <;> simp [finish, End, hd] at h <;> simp [Accepts, State.numberComplete, hd]
  · cases st <;> simp [finish, End, hd] at h
    simp [Accepts, State.numberComplete]

/-- Soundness of the parser: a buffer that the zero parser reads without
`SyntaxError` and on which `End` returns no error is a well-formed text. -/
theorem text_sound {d : List Byte} {r : Run} {es : List Event} {pf : Parser}
    (h1 : drive Parser.zero d = some r) (h2 : r.failed = false)
    (h3 : finish r.p = (es, none, pf)) : ∃ v, JsonText v d := by
  have hR := (drive_iff _ _ _).1 h1
  have hI : Inv Parser.zero := by simp [Inv, Parser.zero, Frames]
  have hq : QuoteCond Parser.zero d := by
    intro h
    simp [Parser.zero] at h
  have := hR.sound hI hq h2 (accepts_of_finish h3)
  obtain ⟨w, v, body, z', rfl, hw, hv, ha⟩ := this
  exact ⟨v, w, body, z', rfl, hw, hv, ha⟩

/-! ## Calls of `Parse` -/

/-- Induction over the loop of `Parse`, one iteration at a time. -/
theorem Parse_induction (M : Parser → List Byte → ParseResult → Parser → Prop)
    (hnil : ∀ p, M p [] ⟨0, Continue, none⟩ p)
    (hadv : ∀ p p1 b rest r p', iter p b = Outcome.advance p1 →
      Parse p1 rest = some (r, p') → M p1 rest r p' →
      M p (b :: rest) ⟨r.consumed + 1, r.event, r.err⟩ p')
    (hagain : ∀ p p1 b rest r p', iter p b = Outcome.again p1 →
      Parse p1 (b :: rest) = some (r, p') → M p1 (b :: rest) r p' → M p (b :: rest) r p')
    (hret : ∀ p p1 b rest c ev err, iter p b = Outcome.ret p1 c ev err →
      M p (b :: rest) ⟨if c then 1 else 0, ev, err⟩ p1) :
    ∀ (input : List Byte) (p : Parser) (r : ParseResult) (p' : Parser),
      Parse p input = some (r, p') → M p input r p' := by
  intro input
  induction input with
  | nil =>
    intro p r p' h
    rw [Parse_nil] at h
    cases h
    exact hnil p
  | cons b rest ih =>
    have key : ∀ (n : Nat) (p : Parser), againBound p ≤ n →
        ∀ r p', Parse p (b :: rest) = some (r, p') → M p (b :: rest) r p' := by
      intro n
      induction n with
      | zero =>
        intro p hn r p' h
        cases hit : iter p b with
        | advance p1 =>
          rw [Parse_advance rest hit] at h
          cases hP : Parse p1 rest with
          | none => rw [hP] at h; cases h
          | some x =>
            rw [hP] at h
            cases h
            obtain ⟨r1, p2⟩ := x
            exact hadv p p1 b rest r1 p2 hit hP (ih p1 r1 p2 hP)
        | again p1 =>
          have := againBound_pos hit
          omega
        | ret p1 c ev err =>
          rw [Parse_ret rest hit] at h
          cases h
          exact hret p _ b rest c ev err hit
      | succ n ihn =>
        intro p hn r p' h
        cases hit : iter p b with
        | advance p1 =>
          rw [Parse_advance rest hit] at h
          cases hP : Parse p1 rest with
          | none => rw [hP] at h; cases h
          | some x =>
            rw [hP] at h
            cases h
            obtain ⟨r1, p2⟩ := x
            exact hadv p p1 b rest r1 p2 hit hP (ih p1 r1 p2 hP)
        | again p1 =>
          rw [Parse_again rest hit] at h
          have := (iter_again hit).1
          exact hagain p p1 b rest r p' hit h (ihn p1 (by omega) r p' h)
        | ret p1 c ev err =>
          rw [Parse_ret rest hit] at h
          cases h
          exact hret p _ b rest c ev err hit
    exact fun p => key _ p (le_refl _)

/-- An iteration that returns `SyntaxError` is repeated on the parser it
leaves: the same byte gives the same error and is not consumed. -/
theorem iter_error_stable {p p' : Parser} {b : Byte} {c : Bool} {err : Option String}
    (h : iter p b = Outcome.ret p' c SyntaxError err) :
    iter p' b = Outcome.ret p' false SyntaxError err := by
  unfold iter at h
  split at h
  · cases h
  · next hws =>
    have hs := (settle_spec (transition p b)).2.2.2.2 p' c SyntaxError err h
    rcases hs with ⟨_, he, _, herr, hp⟩ | ⟨_, hne, _⟩
    · obtain ⟨h1, h2⟩ := transition_errStable p b he
      rw [← hp] at h1 h2
      unfold iter
      rw [if_neg (by rw [h2]; exact hws), h1, settle_error rfl]
      simp [herr]
    · exact absurd rfl hne

/-- A call of `Parse` that returns `SyntaxError` stops at a byte of its
input on which the parser it leaves returns `SyntaxError` again. -/
theorem Parse_error_byte (input : List Byte) (p : Parser) (r : ParseResult) (p' : Parser)
    (h : Parse p input = some (r, p')) :
    r.event = SyntaxError →
      ∃ b, input[r.consumed]? = some b ∧
        iter p' b = Outcome.ret p' false SyntaxError r.err := by
  refine Parse_induction
    (fun _ input r p' => r.event = SyntaxError →
      ∃ b, input[r.consumed]? = some b ∧ iter p' b = Outcome.ret p' false SyntaxError r.err)
    ?_ ?_ ?_ ?_ input p r p' h
  · intro p he
    cases he
  · intro p p1 b rest r p' _ _ ih he
    obtain ⟨c, hc, hi⟩ := ih he
    exact ⟨c, by simpa using hc, hi⟩
  · intro p p1 b rest r p' _ _ ih he
    exact ih he
  · intro p p1 b rest c ev err hit he
    simp only at he
    subst he
    have hc := ((iter_ret hit).2.1 rfl).1
    subst hc
    exact ⟨b, by simp, iter_error_stable hit⟩

/-! ## The depth update -/

/-- The depth and the property flag after an iteration are those of
`updateDepth` for the event that the iteration computes. -/
theorem iter_depth (p : Parser) (b : Byte) :
    (iter p b).parser.depth =
      (if computedEvent p b = Continue ∨ computedEvent p b = SyntaxError then p
        else updateDepth p (computedEvent p b)).depth ∧
    (iter p b).parser.property =
      (if computedEvent p b = Continue ∨ computedEvent p b = SyntaxError then p
        else updateDepth p (computedEvent p b)).property := by
  unfold iter computedEvent
  split
  · simp [Outcome.parser]
  · have h1 := settle_core (transition p b)
    have h2 := transition_ok p b
    rw [h1.2.2.1, h1.2.2.2]
    unfold Step.core
    split
    · exact ⟨h2.1, h2.2.2.2.2.1⟩
    · unfold updateDepth
      rw [h2.1, h2.2.2.2.2.1]
      split_ifs <;> simp [h2.1, h2.2.2.2.2.1]

/-! ## The claims -/

/-- C1 (completeness): for every JSON value `v` and every well-formed text `d`
of `v`, with any whitespace around the value and between the tokens, the zero
parser driven over `d` (`Parse` on the bytes not yet consumed, then `End`
until `Done`) returns no `SyntaxError`, the consumed counts sum to the length
of `d`, and the delivered events are the pre-order traversal of `v` followed
by `Done`; the traversal balances, every start event having one matching end
event with valid nesting. -/
theorem parser_complete (v : JValue) (d : List Byte) (h : JsonText v d) :
    ∃ r es pf, drive Parser.zero d = some r ∧ r.failed = false ∧ r.err = none ∧
      r.consumed = d.length ∧ finish r.p = (es, none, pf) ∧
      r.events ++ es = traversal v ++ [Done] ∧ nesting (traversal v) [] = some [] := by
  obtain ⟨r, es, pf, h1, h2, h3, h4, h5, h6⟩ := text_complete h
  exact ⟨r, es, pf, h1, h2, h3, h4, h5, h6, nesting_traversal_nil v⟩

/-- Witness of C1: the text `[1]` of the array with the one element 1. -/
theorem parser_complete_witness :
    JsonText (JValue.array [JValue.number [49]]) [91, 49, 93] ∧
    ∃ r es pf, drive Parser.zero [91, 49, 93] = some r ∧ r.failed = false ∧ r.err = none ∧
      r.consumed = [91, 49, 93].length ∧ finish r.p = (es, none, pf) ∧
      r.events ++ es = traversal (JValue.array [JValue.number [49]]) ++ [Done] ∧
      nesting (traversal (JValue.array [JValue.number [49]])) [] = some [] :=
  have hn : NumberLexeme [49] :=
    ⟨[], [49], [], [], rfl, Or.inl rfl,
      Or.inr ⟨49, [], rfl, by decide, by decide, fun _ hb => by cases hb⟩, Or.inl rfl, Or.inl rfl⟩
  have hj : JsonText (JValue.array [JValue.number [49]]) [91, 49, 93] :=
    ⟨[], [91, 49, 93], [], rfl, Ws.nil_ws,
      Ser.array _ [] [49] (SerItems.last _ [] [49] [] Ws.nil_ws (Ser.number [49] hn) Ws.nil_ws), Ws.nil_ws⟩
  ⟨hj, parser_complete _ _ hj⟩

/-- C2 (soundness): if the zero parser is driven over all of `d` without a
`SyntaxError` and `End` then returns no error (so that it ends with `Done`),
then `d` is a well-formed JSON text: exactly one value of the grammar,
optionally surrounded by whitespace. -/
theorem parser_sound (d : List Byte) (r : Run) (es : List Event) (pf : Parser)
    (h1 : drive Parser.zero d = some r) (h2 : r.failed = false)
    (h3 : finish r.p = (es, none, pf)) : ∃ v, JsonText v d :=
  text_sound h1 h2 h3

/-- Witness of C2: the text `[1]`. -/
theorem parser_sound_witness :
    (drive Parser.zero [91, 49, 93] =
        some ⟨[ArrayStart, NumberStart, NumberEnd, ArrayEnd], 3, false, none,
          ⟨_StateDone, [], 0, 0, 0, 0, false⟩⟩ ∧
      finish ⟨_StateDone, [], 0, 0, 0, 0, false⟩ =
        ([Done], none, ⟨_StateDone, [], 0, 0, 0, 0, false⟩)) ∧
    ∃ v, JsonText v [91, 49, 93] :=
  ⟨⟨by decide, by decide⟩,
    parser_sound [91, 49, 93]
      ⟨[ArrayStart, NumberStart, NumberEnd, ArrayEnd], 3, false, none,
        ⟨_StateDone, [], 0, 0, 0, 0, false⟩⟩
      [Done] ⟨_StateDone, [], 0, 0, 0, 0, false⟩ (by decide) rfl (by decide)⟩

/-- C3 (chunk independence): for every parser and every two ways of splitting
a buffer into consecutive chunks, driving the parser chunk by chunk ends, and
delivers the same events and leaves the same parser (the consumed counts
agree as well); a driver stops at the first `SyntaxError`. -/
theorem chunk_independence (p : Parser) (chunks1 chunks2 : List (List Byte))
    (h : chunks1.flatten = chunks2.flatten) :
    ∃ r, driveChunks p chunks1 = some r ∧ driveChunks p chunks2 = some r := by
  obtain ⟨r, hr⟩ := drive_total p chunks1.flatten
  refine ⟨r, ?_, ?_⟩
  · rw [driveChunks_eq_drive, hr]
  · rw [driveChunks_eq_drive, ← h, hr]

/-- Witness of C3: `[1,2]` fed one byte at a time and as a whole. -/
theorem chunk_independence_witness :
    [[91], [49], [44], [50], [93]].flatten = [[91, 49, 44, 50, 93]].flatten ∧
    ∃ r, driveChunks Parser.zero [[91], [49], [44], [50], [93]] = some r ∧
      driveChunks Parser.zero [[91, 49, 44, 50, 93]] = some r :=
  ⟨by decide, chunk_independence Parser.zero _ _ (by decide)⟩

/-- Counterexample of C4: the zero parser returns `SyntaxError` on `x` and
then `NumberStart` on `1`; and in the done state, reached on `1` followed by a
space, `Parse` returns `SyntaxError` on `x` and `End` then returns `Done`. -/
theorem sticky_error_counterexample :
    Parse Parser.zero [120] =
      some (⟨0, SyntaxError, some "expected beginning of JSON value"⟩, Parser.zero) ∧
    Parse Parser.zero [49] =
      some (⟨1, NumberStart, none⟩, ⟨_StateNumber, [], 1, 0, 0, 0, false⟩) ∧
    drive Parser.zero [49, 32] =
      some ⟨[NumberStart, NumberEnd], 2, false, none, ⟨_StateDone, [], 0, 0, 0, 0, false⟩⟩ ∧
    Parse ⟨_StateDone, [], 0, 0, 0, 0, false⟩ [120] =
      some (⟨0, SyntaxError, some "expected EOF after top-level value"⟩,
        ⟨_StateDone, [], 0, 0, 0, 0, false⟩) ∧
    End ⟨_StateDone, [], 0, 0, 0, 0, false⟩ =
      ((Done, none), ⟨_StateDone, [], 0, 0, 0, 0, false⟩) := by
  decide

/-- C4, amended: a call of `Parse` that returns `SyntaxError` stops at a byte
of its input, and every later call of `Parse` on an input that begins with
that byte (the bytes not consumed, for one) returns `SyntaxError` with the
same error, consumes nothing and leaves the parser as it is; and a call of
`End` that returns `SyntaxError` leaves the parser as it is, so that `End`
called again returns the same. -/
theorem error_repeats (p : Parser) (input : List Byte) (r : ParseResult) (p' : Parser)
    (h : Parse p input = some (r, p')) (he : r.event = SyntaxError) :
    (∃ b, input[r.consumed]? = some b ∧
      ∀ rest, Parse p' (b :: rest) = some (⟨0, SyntaxError, r.err⟩, p')) ∧
    (∀ q : Parser, (End q).1.1 = SyntaxError → End (End q).2 = End q) := by
  constructor
  · obtain ⟨b, hb, hi⟩ := Parse_error_byte input p r p' h he
    exact ⟨b, hb, fun rest => by rw [Parse_ret rest hi]; rfl⟩
  · intro q hq
    have : (End q).2 = q := by
      unfold End at hq ⊢
      split <;> (try split) <;> simp_all
    rw [this]

/-- Witness of C4: a space and `x` on the zero parser, where the error is at
the second byte. -/
theorem error_repeats_witness :
    Parse Parser.zero [32, 120] =
      some (⟨1, SyntaxError, some "expected beginning of JSON value"⟩, Parser.zero) ∧
    ((∃ b, [32, 120][1]? = some b ∧
      ∀ rest, Parse Parser.zero (b :: rest) =
        some (⟨0, SyntaxError, some "expected beginning of JSON value"⟩, Parser.zero)) ∧
    (∀ q : Parser, (End q).1.1 = SyntaxError → End (End q).2 = End q)) :=
  ⟨by decide, error_repeats Parser.zero [32, 120] ⟨1, SyntaxError, _⟩ Parser.zero (by decide) rfl⟩

/-- C5: the depth is never negative on a parser reached from the zero value
by calls of `Parse` on arbitrary bytes, `End`, `Skip` without panic and
`Reset`. -/
theorem depth_nonneg (p : Parser) (h : Reachable p) : 0 ≤ Depth p :=
  h.inv.depth_ge_zero

/-- Witness of C5: the parser that `Parse` leaves on `[`. -/
theorem depth_nonneg_witness :
    Reachable ⟨_StateArrayValueOrBracket, [], 1, 0, 0, 0, false⟩ ∧
    0 ≤ Depth ⟨_StateArrayValueOrBracket, [], 1, 0, 0, 0, false⟩ :=
  have h : Reachable ⟨_StateArrayValueOrBracket, [], 1, 0, 0, 0, false⟩ :=
    Reachable.parse [91] Reachable.zero
      (show Parse Parser.zero [91] = some (⟨1, ArrayStart, none⟩, _) by decide)
  ⟨h, depth_nonneg _ h⟩

/-- C6: one loop iteration of `Parse` changes the depth by the event it
computes, and by nothing else: `KeyStart` adds one and sets the property
flag; any other start event of a composite or primitive value adds one unless
the property flag is set, in which case the flag is cleared and the depth
kept; an end event of a composite or primitive value subtracts one; `Continue`,
`SyntaxError`, `KeyEnd` and every other event leave the depth as it is. -/
theorem depth_update_rule (p : Parser) (b : Byte) :
    (computedEvent p b = KeyStart →
      (iter p b).parser.depth = p.depth + 1 ∧ (iter p b).parser.property = true) ∧
    (computedEvent p b ≠ KeyStart → computedEvent p b ≠ Continue →
      computedEvent p b ≠ SyntaxError →
      ((computedEvent p b).isComposite || (computedEvent p b).isPrimitive) = true →
      (computedEvent p b).isStart = true →
      (p.property = true →
        (iter p b).parser.depth = p.depth ∧ (iter p b).parser.property = false) ∧
      (p.property = false →
        (iter p b).parser.depth = p.depth + 1 ∧ (iter p b).parser.property = false)) ∧
    (computedEvent p b ≠ Continue → computedEvent p b ≠ SyntaxError →
      ((computedEvent p b).isComposite || (computedEvent p b).isPrimitive) = true →
      (computedEvent p b).isEnd = true →
      (iter p b).parser.depth = p.depth - 1 ∧ (iter p b).parser.property = p.property) ∧
    ((computedEvent p b = Continue ∨ computedEvent p b = SyntaxError ∨
        computedEvent p b = KeyEnd ∨ computedEvent p b = Done) →
      (iter p b).parser.depth = p.depth ∧ (iter p b).parser.property = p.property) := by
  obtain ⟨hd, hp⟩ := iter_depth p b
  rw [hd, hp]
  generalize computedEvent p b = ev
  rcases p with ⟨st, q, d, l, dr, e, pr⟩
  cases ev <;> cases pr <;>
    simp [updateDepth, Event.isComposite, Event.isPrimitive, Event.isStart, Event.isEnd]

/-- Witness of C6: a key start, a value start after a key, a value start in
an array, an end, and skipped whitespace. -/
theorem depth_update_rule_witness :
    (computedEvent ⟨_StateObjectKeyOrBrace, [], 1, 0, 0, 0, false⟩ 34 = KeyStart ∧
      (iter ⟨_StateObjectKeyOrBrace, [], 1, 0, 0, 0, false⟩ 34).parser.depth = 1 + 1 ∧
      (iter ⟨_StateObjectKeyOrBrace, [], 1, 0, 0, 0, false⟩ 34).parser.property = true) ∧
    (computedEvent ⟨_StateValue, [_StateObjectCommaOrBrace], 2, 0, 0, 0, true⟩ 91 = ArrayStart ∧
      (iter ⟨_StateValue, [_StateObjectCommaOrBrace], 2, 0, 0, 0, true⟩ 91).parser.depth = 2 ∧
      (iter ⟨_StateValue, [_StateObjectCommaOrBrace], 2, 0, 0, 0, true⟩ 91).parser.property
        = false) ∧
    (computedEvent Parser.zero 91 = ArrayStart ∧
      (iter Parser.zero 91).parser.depth = Parser.zero.depth + 1 ∧
      (iter Parser.zero 91).parser.property = false) ∧
    (computedEvent ⟨_StateArrayValueOrBracket, [], 1, 0, 0, 0, false⟩ 93 = ArrayEnd ∧
      (iter ⟨_StateArrayValueOrBracket, [], 1, 0, 0, 0, false⟩ 93).parser.depth = 1 - 1 ∧
      (iter ⟨_StateArrayValueOrBracket, [], 1, 0, 0, 0, false⟩ 93).parser.property = false) ∧
    (computedEvent Parser.zero 32 = Continue ∧
      (iter Parser.zero 32).parser.depth = Parser.zero.depth ∧
      (iter Parser.zero 32).parser.property = Parser.zero.property) :=
  ⟨⟨by decide,
      (depth_update_rule ⟨_StateObjectKeyOrBrace, [], 1, 0, 0, 0, false⟩ 34).1 (by decide)⟩,
    ⟨by decide,
      ((depth_update_rule ⟨_StateValue, [_StateObjectCommaOrBrace], 2, 0, 0, 0, true⟩ 91).2.1
        (by decide) (by decide) (by decide) (by decide) (by decide)).1 rfl⟩,
    ⟨by decide,
      ((depth_update_rule Parser.zero 91).2.1
        (by decide) (by decide) (by decide) (by decide) (by decide)).2 rfl⟩,
    ⟨by decide,
      (depth_update_rule ⟨_StateArrayValueOrBracket, [], 1, 0, 0, 0, false⟩ 93).2.2.1
        (by decide) (by decide) (by decide) (by decide)⟩,
    ⟨by decide, (depth_update_rule Parser.zero 32).2.2.2 (Or.inl (by decide))⟩⟩

/-- C7: after the bare top-level number `42`, `End` delivers `NumberEnd`
but leaves the depth at 1, where `Parse` delivering the same `NumberEnd` (on
a delimiter) brings it back to 0, the depth before the number started. -/
theorem end_number_keeps_depth :
    Depth Parser.zero = 0 ∧
    drive Parser.zero [52, 50] =
      some ⟨[NumberStart], 2, false, none, ⟨_StateNumber, [], 1, 0, 0, 0, false⟩⟩ ∧
    End ⟨_StateNumber, [], 1, 0, 0, 0, false⟩ =
      ((NumberEnd, none), ⟨_StateDone, [], 1, 0, 0, 0, false⟩) ∧
    Depth (End ⟨_StateNumber, [], 1, 0, 0, 0, false⟩).2 = 1 ∧
    Parse ⟨_StateNumber, [], 1, 0, 0, 0, false⟩ [32] =
      some (⟨0, NumberEnd, none⟩, ⟨_StateDone, [], 0, 0, 0, 0, false⟩) := by
  decide

/-- C8: inside the top-level literal `true`, between its `BoolStart` and its
`BoolEnd`, `Depth` returns 1 and not 0; it is 0 before and after the
literal. -/
theorem depth_inside_top_level_literal :
    Depth Parser.zero = 0 ∧
    Parse Parser.zero [116, 114, 117, 101] =
      some (⟨1, BoolStart, none⟩, ⟨_StateTrue, [], 1, 0, 0, 0, false⟩) ∧
    Depth ⟨_StateTrue, [], 1, 0, 0, 0, false⟩ = 1 ∧
    Parse ⟨_StateTrue, [], 1, 0, 0, 0, false⟩ [114, 117, 101] =
      some (⟨3, BoolEnd, none⟩, ⟨_StateDone, [], 0, 0, 0, 0, false⟩) := by
  decide

/-- In a number state with a complete lexeme and depth 1, `End` returns
`NumberEnd` with no error and the parser goes to the done state, nothing else
of it changing. -/
theorem end_pending_number (p : Parser) (hs : p.state.numberComplete = true)
    (hd : p.depth = 1) : End p = ((NumberEnd, none), { p with state := _StateDone }) := by
  rcases p with ⟨st, q, d, l, dr, e, pr⟩
  cases st <;> simp_all [State.numberComplete, End]

/-- C10: for the zero parser fed the bytes of a complete JSON number one at a
time and nothing after them, `Parse` returns `NumberStart` on the first byte
and `Continue` on every further byte, each byte being consumed; the first
`End` returns `NumberEnd`, and `End` called after it returns `Done` and
leaves the parser as it is. -/
theorem bare_number (w : List Byte) (h : NumberLexeme w) :
    ∃ c rest pn pd, w = c :: rest ∧
      parseEach Parser.zero w =
        some (⟨1, NumberStart, none⟩ :: List.replicate rest.length ⟨1, Continue, none⟩, pn) ∧
      End pn = ((NumberEnd, none), pd) ∧ End pd = ((Done, none), pd) := by
  obtain ⟨c, rest, s0, s, hw, hc, hi, hq⟩ := number_split h [] 0 0 false
  refine ⟨c, rest, ⟨s, [], 1, 0, 0, 0, false⟩, ⟨_StateDone, [], 1, 0, 0, 0, false⟩, hw, ?_, ?_, rfl⟩
  · subst hw
    have h1 : Parse Parser.zero [c] = _ := Parse_ret [] hi
    have h2 := hq.parseEach
    rw [parseEach, h1]
    simp only [h2]
    simp [startValue]
  · cases s <;> simp_all [State.numberComplete, End]

/-- Witness of C10: the number `42`. -/
theorem bare_number_witness :
    NumberLexeme [52, 50] ∧
    ∃ c rest pn pd, [52, 50] = c :: rest ∧
      parseEach Parser.zero [52, 50] =
        some (⟨1, NumberStart, none⟩ :: List.replicate rest.length ⟨1, Continue, none⟩, pn) ∧
      End pn = ((NumberEnd, none), pd) ∧ End pd = ((Done, none), pd) :=
  have hn : NumberLexeme [52, 50] :=
    ⟨[], [52, 50], [], [], rfl, Or.inl rfl,
      Or.inr ⟨52, [50], rfl, by decide, by decide,
        fun b hb => by simp at hb; subst hb; decide⟩, Or.inl rfl, Or.inl rfl⟩
  ⟨hn, bare_number _ hn⟩

/-! ## The end of the input -/

/-- In the number states in which the lexeme is complete, a parser that
satisfies the invariant has depth 1 exactly when the queue is empty. -/
theorem Inv.number_depth {p : Parser} (h : Inv p) (hs : p.state.numberComplete = true) :
    p.depth = 1 ↔ p.queue = [] := by
  rcases p with ⟨st, q, d, l, dr, e, pr⟩
  cases st <;> simp [State.numberComplete] at hs <;> simp only [Inv] at h ⊢ <;>
    (obtain ⟨_, _, h3⟩ := h; rw [h3]; cases q <;> simp; omega)

/-- An error of `End` leaves the parser as it is. -/
theorem End_error (p : Parser) (h : (End p).1.1 = SyntaxError) : (End p).2 = p := by
  unfold End at h ⊢
  split <;> (try split) <;> simp_all

/-- What `End` returns, by the state and the depth. -/
theorem End_cases (p : Parser) :
    (p.state = _StateDone ∧ End p = ((Done, none), p)) ∨
    (p.state.numberComplete = true ∧ p.depth = 1 ∧
      End p = ((NumberEnd, none), { p with state := _StateDone })) ∨
    (p.state ≠ _StateDone ∧ ¬ (p.state.numberComplete = true ∧ p.depth = 1) ∧
      End p = ((SyntaxError, some "unexpected EOF"), p)) := by
  rcases p with ⟨st, q, d, l, dr, e, pr⟩
  by_cases hd : d = 1 <;> cases st <;> simp [End, State.numberComplete, hd]

/-! ## Misuse of `Skip` -/

/-- `Skip` panics exactly when an argument is negative or the sum, as the
64-bit addition computes it, exceeds the depth. -/
theorem Skip_none_iff (p : Parser) (drop empty : Int) :
    Skip p drop empty = none ↔ drop < 0 ∨ empty < 0 ∨ wrapInt (drop + empty) > p.depth := by
  unfold Skip
  split_ifs with h1 h2
  · simp only [true_iff]
    tauto
  · simp only [true_iff]
    exact Or.inr (Or.inr h2)
  · simp only [reduceCtorEq, false_iff]
    tauto

/-- The 64-bit sum is the true sum when the true sum is in the range of a Go
`int`. -/
theorem wrapInt_eq (x : Int) (h1 : -2 ^ 63 ≤ x) (h2 : x < 2 ^ 63) : wrapInt x = x := by
  unfold wrapInt
  rw [Int.emod_eq_of_lt (by omega) (by omega)]
  omega

/-- Without overflow of the sum, `Skip` panics exactly when an argument is
negative or the sum exceeds the depth. -/
theorem Skip_none_iff_of_range (p : Parser) (drop empty : Int)
    (h : drop + empty < 2 ^ 63) :
    Skip p drop empty = none ↔ drop < 0 ∨ empty < 0 ∨ drop + empty > p.depth := by
  rw [Skip_none_iff]
  by_cases h1 : drop < 0
  · simp [h1]
  by_cases h2 : empty < 0
  · simp [h2]
  rw [wrapInt_eq _ (by omega) h]

/-! ## The result of `Parse` -/

/-- The shape of what `Parse` returns: an error comes exactly with
`SyntaxError`, `Continue` comes with the whole input consumed, and the count
never exceeds the length of the input. -/
theorem Parse_shape (input : List Byte) (p : Parser) (r : ParseResult) (p' : Parser)
    (h : Parse p input = some (r, p')) :
    (r.err ≠ none ↔ r.event = SyntaxError) ∧
    (r.event = Continue → r.consumed = input.length) ∧
    (r.event = SyntaxError → r.consumed < input.length) ∧
    r.consumed ≤ input.length := by
  refine Parse_induction
    (fun _ input r _ => (r.err ≠ none ↔ r.event = SyntaxError) ∧
      (r.event = Continue → r.consumed = input.length) ∧
      (r.event = SyntaxError → r.consumed < input.length) ∧
      r.consumed ≤ input.length)
    ?_ ?_ ?_ ?_ input p r p' h
  · intro p
    simp
  · intro p p1 b rest r p' _ _ ih
    obtain ⟨h1, h2, h3, h4⟩ := ih
    refine ⟨h1, fun he => ?_, fun he => ?_, ?_⟩
    · simp [h2 he]
    · have := h3 he
      simp only [List.length_cons]
      omega
    · simp only [List.length_cons]
      omega
  · intro p p1 b rest r p' _ _ ih
    exact ih
  · intro p p1 b rest c ev err hit
    obtain ⟨h1, h2, h3⟩ := iter_ret hit
    refine ⟨⟨fun he => ?_, fun he => (h2 he).2⟩, fun he => absurd he h1, fun he => ?_, ?_⟩
    · by_contra hne
      exact he (h3 hne)
    · simp only at he
      simp [(h2 he).1]
    · cases c <;> simp

/-! ## The done state -/

/-- In the done state an iteration skips a whitespace byte and returns
`SyntaxError` on any other. -/
theorem iter_done (p : Parser) (b : Byte) (hs : p.state = _StateDone) :
    (isSpace b = true → iter p b = Outcome.advance p) ∧
    (isSpace b = false → iter p b =
      Outcome.ret p false SyntaxError (some "expected EOF after top-level value")) := by
  rcases p with ⟨st, q, d, l, dr, e, pr⟩
  simp only at hs
  subst hs
  constructor
  · intro hb
    simp [iter, hb, State.code, _IgnoreSpace]
  · intro hb
    simp [iter, hb, transition, settle]

/-- In the done state `Parse` consumes whitespace and leaves the parser as
it is. -/
theorem Parse_done_ws (p : Parser) (hs : p.state = _StateDone) (input : List Byte)
    (hw : ∀ b ∈ input, isSpace b = true) :
    Parse p input = some (⟨input.length, Continue, none⟩, p) := by
  induction input with
  | nil => rfl
  | cons b rest ih =>
    rw [Parse_advance rest ((iter_done p b hs).1 (hw b (by simp))),
      ih (fun c hc => hw c (by simp [hc]))]
    rfl

/-- In the done state `Parse` returns `SyntaxError` at the first byte that
is no whitespace and leaves the parser as it is. -/
theorem Parse_done_error (p : Parser) (hs : p.state = _StateDone) (ws : List Byte) (b : Byte)
    (rest : List Byte) (hw : ∀ c ∈ ws, isSpace c = true) (hb : isSpace b = false) :
    Parse p (ws ++ b :: rest) =
      some (⟨ws.length, SyntaxError, some "expected EOF after top-level value"⟩, p) := by
  induction ws with
  | nil =>
    rw [List.nil_append, Parse_ret rest ((iter_done p b hs).2 hb)]
    rfl
  | cons c ws ih =>
    rw [List.cons_append, Parse_advance _ ((iter_done p c hs).1 (hw c (by simp))),
      ih (fun x hx => hw x (by simp [hx]))]
    rfl

/-! ## The skip window -/

/-- The depth after the depth update: one more, the same, or one less, the
last for an end event of a composite or primitive value only. -/
theorem updateDepth_depth (p : Parser) (ev : Event) :
    (updateDepth p ev).depth = p.depth + 1 ∨ (updateDepth p ev).depth = p.depth ∨
    ((updateDepth p ev).depth = p.depth - 1 ∧
      (ev.isComposite || ev.isPrimitive) = true ∧ ev.isEnd = true) := by
  unfold updateDepth
  split_ifs with h1 h2 h3 h4 <;> simp_all

/-- The window of a parser depends on its depth and skip fields only. -/
theorem Window_congr {D dr N used : Int} {p q : Parser} (h1 : q.depth = p.depth)
    (h2 : q.limit = p.limit) (h3 : q.drop = p.drop) (h4 : q.empty = p.empty)
    (h : Window D dr N used p) : Window D dr N used q := by
  unfold Window at h ⊢
  rw [h1, h2, h3, h4]
  exact h

/-- What `Skip` leaves: the budgets, with one unit of `empty` moved to `drop`
inside the span of an object key, and the window at the depth of the call. -/
theorem Skip_window {p0 p1 : Parser} {drop empty : Int} (h : Skip p0 drop empty = some p1) :
    p1.drop = (if p0.property = true ∧ drop = 0 ∧ 0 < empty then drop + 1 else drop) ∧
    p1.empty = (if p0.property = true ∧ drop = 0 ∧ 0 < empty then empty - 1 else empty) ∧
    SameCore p0 p1 ∧ Window p0.depth p1.drop (drop + empty) 0 p1 := by
  unfold Skip at h
  split_ifs at h with h1 h2
  simp only [Option.some.injEq] at h
  subst h
  have hd : 0 ≤ drop := by omega
  have he : 0 ≤ empty := by omega
  by_cases hc : p0.property = true ∧ drop = 0 ∧ 0 < empty
  · obtain ⟨hp, hd0, he0⟩ := hc
    simp [hp, hd0, he0, SameCore, Window]
    omega
  · have hc' : (p0.property && decide (drop = 0) && decide (empty > 0)) = false := by
      by_contra hne
      simp at hne
      exact hc hne
    simp only [hc', if_neg hc]
    simp [SameCore, Window]
    omega

/-- The lines after the switch for an event other than `Continue` and
`SyntaxError`, with `q` the parser after the depth update. -/
theorem settle_event (t : Step) (q : Parser) (h1 : t.event ≠ Continue)
    (h2 : t.event ≠ SyntaxError) (hq : updateDepth t.p t.event = q) :
    settle t =
      if q.drop ≠ 0 ∨ q.empty ≠ 0 then
        if q.depth > q.limit then Outcome.cont t.rewind q
        else
          if q.drop > 0 then
            Outcome.cont t.rewind { q with limit := q.limit - 1, drop := q.drop - 1 }
          else
            if t.event.isEnd = false then
              Outcome.cont t.rewind { q with limit := q.limit - 1, empty := q.empty - 1 }
            else
              Outcome.ret { q with limit := q.limit - 1, empty := q.empty - 1 }
                (!t.rewind) t.event none
      else Outcome.ret q (!t.rewind) t.event none := by
  simp only [settle, if_neg h1, if_neg h2, hq]

/-- The statement `continue` delivers nothing. -/
theorem cont_delivered (rewind : Bool) (q : Parser) :
    (Outcome.cont rewind q).delivered = none ∧ (Outcome.cont rewind q).parser = q := by
  unfold Outcome.cont
  split <;> exact ⟨rfl, rfl⟩

/-- With the budget spent every event is delivered. -/
theorem settle_window_spent {D dr N : Int} (t : Step) (hw : Window D dr N N t.p)
    (h1 : t.event ≠ Continue) (h2 : t.event ≠ SyntaxError) :
    (settle t).delivered = some t.event ∧ Window D dr N N (settle t).parser := by
  obtain ⟨w1, w2, w3, w4, w5, w6, w7, w8⟩ := hw
  have e1 : (updateDepth t.p t.event).drop = t.p.drop := updateDepth_drop _ _
  have e2 : (updateDepth t.p t.event).empty = t.p.empty := updateDepth_empty _ _
  have e3 : (updateDepth t.p t.event).limit = t.p.limit := updateDepth_limit _ _
  have hz : ¬ ((updateDepth t.p t.event).drop ≠ 0 ∨ (updateDepth t.p t.event).empty ≠ 0) := by
    rw [e1, e2, w5, w6]
    omega
  rw [settle_event t _ h1 h2 rfl, if_neg hz]
  refine ⟨rfl, w1, w2, w3, w4, ?_, ?_, ?_, fun h => absurd h (lt_irrefl _)⟩
  · exact e1.trans w5
  · exact e2.trans w6
  · exact e3.trans w7

/-- With budget left, an event that leaves the depth above the limit is
suppressed and spends nothing. -/
theorem settle_window_above {D dr N used : Int} (t : Step) (hw : Window D dr N used t.p)
    (h1 : t.event ≠ Continue) (h2 : t.event ≠ SyntaxError) (hlt : used < N)
    (hd : (updateDepth t.p t.event).depth > D - 1 - used) :
    (settle t).delivered = none ∧ (settle t).parser = updateDepth t.p t.event ∧
    Window D dr N used (settle t).parser := by
  obtain ⟨w1, w2, w3, w4, w5, w6, w7, w8⟩ := hw
  have e1 : (updateDepth t.p t.event).drop = t.p.drop := updateDepth_drop _ _
  have e2 : (updateDepth t.p t.event).empty = t.p.empty := updateDepth_empty _ _
  have e3 : (updateDepth t.p t.event).limit = t.p.limit := updateDepth_limit _ _
  have hz : (updateDepth t.p t.event).drop ≠ 0 ∨ (updateDepth t.p t.event).empty ≠ 0 := by
    rw [e1, e2, w5, w6]
    omega
  have hdl : (updateDepth t.p t.event).depth > (updateDepth t.p t.event).limit := by
    rw [e3, w7]
    exact hd
  rw [settle_event t _ h1 h2 rfl, if_pos hz, if_pos hdl, (cont_delivered _ _).2]
  refine ⟨(cont_delivered _ _).1, rfl, w1, w2, w3, w4, ?_, ?_, ?_, fun _ => ?_⟩
  · exact e1.trans w5
  · exact e2.trans w6
  · exact e3.trans w7
  · omega

/-- With budget left, an event that brings the depth down to the limit is
an end event of a composite or primitive value, and it brings the depth from
one above the limit to the limit. -/
theorem window_at_limit {D dr N used : Int} (t : Step) (hw : Window D dr N used t.p)
    (hlt : used < N) (hd : (updateDepth t.p t.event).depth ≤ D - 1 - used) :
    (updateDepth t.p t.event).depth = D - 1 - used ∧ t.p.depth = D - used ∧
    (t.event.isComposite || t.event.isPrimitive) = true ∧ t.event.isEnd = true ∧
    ((updateDepth t.p t.event).drop ≠ 0 ∨ (updateDepth t.p t.event).empty ≠ 0) ∧
    ¬ (updateDepth t.p t.event).depth > (updateDepth t.p t.event).limit ∧
    ((updateDepth t.p t.event).drop > 0 ↔ used < dr) := by
  obtain ⟨w1, w2, w3, w4, w5, w6, w7, w8⟩ := hw
  have hdp := updateDepth_depth t.p t.event
  have w8' := w8 hlt
  rw [updateDepth_drop, updateDepth_empty, updateDepth_limit, w5, w6, w7]
  refine ⟨?_, ?_, ?_, ?_, by omega, by omega, by omega⟩
  · rcases hdp with h | h | ⟨h, _, _⟩ <;> omega
  · rcases hdp with h | h | ⟨h, _, _⟩ <;> omega
  · rcases hdp with h | h | ⟨h, h', h''⟩
    · omega
    · omega
    · exact h'
  · rcases hdp with h | h | ⟨h, h', h''⟩
    · omega
    · omega
    · exact h''

/-- With budget left, an event that brings the depth down to the limit
spends one unit: a unit of `drop` suppresses the event, a unit of `empty`
delivers it. -/
theorem settle_window_at {D dr N used : Int} (t : Step) (hw : Window D dr N used t.p)
    (h1 : t.event ≠ Continue) (h2 : t.event ≠ SyntaxError) (hlt : used < N)
    (hd : (updateDepth t.p t.event).depth ≤ D - 1 - used) :
    (settle t).parser.depth = D - 1 - used ∧ t.p.depth = D - used ∧
    (t.event.isComposite || t.event.isPrimitive) = true ∧ t.event.isEnd = true ∧
    Window D dr N (used + 1) (settle t).parser ∧
    (used < dr → (settle t).delivered = none) ∧
    (dr ≤ used → (settle t).delivered = some t.event) := by
  obtain ⟨hdepth, hbefore, hcp, hend, hz, hdl, hdrop⟩ := window_at_limit t hw hlt hd
  obtain ⟨w1, w2, w3, w4, w5, w6, w7, w8⟩ := hw
  have e1 : (updateDepth t.p t.event).drop = t.p.drop := updateDepth_drop _ _
  have e2 : (updateDepth t.p t.event).empty = t.p.empty := updateDepth_empty _ _
  have e3 : (updateDepth t.p t.event).limit = t.p.limit := updateDepth_limit _ _
  by_cases hud : used < dr
  · rw [settle_event t _ h1 h2 rfl, if_pos hz, if_neg hdl, if_pos (hdrop.2 hud),
      (cont_delivered _ _).2]
    refine ⟨hdepth, hbefore, hcp, hend, ⟨by omega, by omega, w3, w4, ?_, ?_, ?_, ?_⟩,
      fun _ => (cont_delivered _ _).1, fun h => absurd h (by omega)⟩
    · show (updateDepth t.p t.event).drop - 1 = _
      rw [e1, w5]
      omega
    · show (updateDepth t.p t.event).empty = _
      rw [e2, w6]
      omega
    · show (updateDepth t.p t.event).limit - 1 = _
      rw [e3, w7]
      omega
    · intro _
      show _ ≤ (updateDepth t.p t.event).depth
      rw [hdepth]
      omega
  · have hne : ¬ t.event.isEnd = false := by simp [hend]
    rw [settle_event t _ h1 h2 rfl, if_pos hz, if_neg hdl, if_neg (fun h => hud (hdrop.1 h)),
      if_neg hne]
    refine ⟨hdepth, hbefore, hcp, hend, ⟨by omega, by omega, w3, w4, ?_, ?_, ?_, ?_⟩,
      fun h => absurd h hud, fun _ => rfl⟩
    · show (updateDepth t.p t.event).drop = _
      rw [e1, w5]
      omega
    · show (updateDepth t.p t.event).empty - 1 = _
      rw [e2, w6]
      omega
    · show (updateDepth t.p t.event).limit - 1 = _
      rw [e3, w7]
      omega
    · intro _
      show _ ≤ (updateDepth t.p t.event).depth
      rw [hdepth]
      omega

/-- The lines after the switch in the skip window: which events are
delivered and which units of the budget are spent. -/
theorem settle_window {D dr N used : Int} (t : Step) (hw : Window D dr N used t.p) :
    (t.event = Continue →
      (settle t).delivered = none ∧ Window D dr N used (settle t).parser) ∧
    (t.event = SyntaxError →
      (settle t).delivered = some SyntaxError ∧ Window D dr N used (settle t).parser) ∧
    (t.event ≠ Continue → t.event ≠ SyntaxError →
      (used = N →
        (settle t).delivered = some t.event ∧ Window D dr N used (settle t).parser) ∧
      (used < N → (settle t).parser.depth ≠ D - 1 - used →
        (settle t).delivered = none ∧ Window D dr N used (settle t).parser) ∧
      (used < N → (settle t).parser.depth = D - 1 - used →
        t.p.depth = D - used ∧
        (t.event.isComposite || t.event.isPrimitive) = true ∧ t.event.isEnd = true ∧
        Window D dr N (used + 1) (settle t).parser ∧
        (used < dr → (settle t).delivered = none) ∧
        (dr ≤ used → (settle t).delivered = some t.event))) := by
  refine ⟨fun he => ?_, fun he => ?_, fun h1 h2 => ⟨fun hN => ?_, fun hlt hd => ?_,
    fun hlt hd => ?_⟩⟩
  · simp only [settle, if_pos he]
    exact ⟨(cont_delivered _ _).1, by rw [(cont_delivered _ _).2]; exact hw⟩
  · have hne : t.event ≠ Continue := by rw [he]; decide
    simp only [settle, if_neg hne, if_pos he]
    exact ⟨rfl, hw⟩
  · subst hN
    exact settle_window_spent t hw h1 h2
  · by_cases hc : (updateDepth t.p t.event).depth > D - 1 - used
    · have := settle_window_above t hw h1 h2 hlt hc
      exact ⟨this.1, this.2.2⟩
    · exact absurd (settle_window_at t hw h1 h2 hlt (by omega)).1 hd
  · by_cases hc : (updateDepth t.p t.event).depth > D - 1 - used
    · have := (settle_window_above t hw h1 h2 hlt hc).2.1
      rw [this] at hd
      omega
    · exact (settle_window_at t hw h1 h2 hlt (by omega)).2

/-- One iteration of the loop of `Parse` in the skip window: `Continue`
delivers nothing and `SyntaxError` is returned as always; of the other events,
with budget left, only an event that brings the depth down to the limit
`D - 1 - used` spends a unit, and it is delivered exactly when the drop budget
is spent; with the budget spent every event is delivered. -/
theorem iter_window {D dr N used : Int} (p : Parser) (b : Byte) (hw : Window D dr N used p) :
    (computedEvent p b = Continue →
      (iter p b).delivered = none ∧ Window D dr N used (iter p b).parser) ∧
    (computedEvent p b = SyntaxError →
      (iter p b).delivered = some SyntaxError ∧ Window D dr N used (iter p b).parser) ∧
    (computedEvent p b ≠ Continue → computedEvent p b ≠ SyntaxError →
      (used = N →
        (iter p b).delivered = some (computedEvent p b) ∧
        Window D dr N used (iter p b).parser) ∧
      (used < N → (iter p b).parser.depth ≠ D - 1 - used →
        (iter p b).delivered = none ∧ Window D dr N used (iter p b).parser) ∧
      (used < N → (iter p b).parser.depth = D - 1 - used →
        p.depth = D - used ∧
        ((computedEvent p b).isComposite || (computedEvent p b).isPrimitive) = true ∧
        (computedEvent p b).isEnd = true ∧
        Window D dr N (used + 1) (iter p b).parser ∧
        (used < dr → (iter p b).delivered = none) ∧
        (dr ≤ used → (iter p b).delivered = some (computedEvent p b)))) := by
  by_cases hws : p.state.code < _IgnoreSpace ∧ isSpace b = true
  · have h1 : computedEvent p b = Continue := by simp only [computedEvent, if_pos hws]
    have h2 : iter p b = Outcome.advance p := by simp only [iter, if_pos hws]
    rw [h1, h2]
    exact ⟨fun _ => ⟨rfl, hw⟩, fun h => absurd h (by decide), fun h => absurd rfl h⟩
  · have h1 : computedEvent p b = (transition p b).event := by
      simp only [computedEvent, if_neg hws]
    have h2 : iter p b = settle (transition p b) := by simp only [iter, if_neg hws]
    have hok := transition_ok p b
    have hw' : Window D dr N used (transition p b).p :=
      Window_congr hok.1 hok.2.1 hok.2.2.1 hok.2.2.2.1 hw
    rw [h1, h2, ← hok.1]
    exact settle_window (transition p b) hw'

/-- Every iteration leaves the parser in the window, with as many units
spent or one more. -/
theorem iter_window_next {D dr N used : Int} (p : Parser) (b : Byte)
    (hw : Window D dr N used p) :
    Window D dr N used (iter p b).parser ∨ Window D dr N (used + 1) (iter p b).parser := by
  obtain ⟨h1, h2, h3⟩ := iter_window p b hw
  by_cases e1 : computedEvent p b = Continue
  · exact Or.inl (h1 e1).2
  by_cases e2 : computedEvent p b = SyntaxError
  · exact Or.inl (h2 e2).2
  obtain ⟨h4, h5, h6⟩ := h3 e1 e2
  by_cases hN : used = N
  · exact Or.inl (h4 hN).2
  have hlt : used < N := lt_of_le_of_ne hw.2.1 hN
  by_cases hd : (iter p b).parser.depth = D - 1 - used
  · exact Or.inr (h6 hlt hd).2.2.2.1
  · exact Or.inl (h5 hlt hd).2

/-- A call of `Parse` leaves the parser in the window: the units spent never
decrease. -/
theorem Parse_window {D dr N used : Int} (input : List Byte) (p : Parser) (r : ParseResult)
    (p' : Parser) (hw : Window D dr N used p) (h : Parse p input = some (r, p')) :
    ∃ used', used ≤ used' ∧ Window D dr N used' p' := by
  refine Parse_preserves (fun q => ∃ used', used ≤ used' ∧ Window D dr N used' q) ?_
    input p ⟨used, le_refl _, hw⟩ r p' h
  rintro q b ⟨u, hu, hq⟩
  rcases iter_window_next q b hq with h | h
  · exact ⟨u, hu, h⟩
  · exact ⟨u + 1, by omega, h⟩

/-! ## The grammar of numbers and strings -/

/-- The events of a buffer that is a well-formed text of the value `v`. -/
theorem text_events {v : JValue} {d : List Byte} {r : Run} {es : List Event} {pf : Parser}
    (h : JsonText v d) (h1 : drive Parser.zero d = some r)
    (h3 : finish r.p = (es, none, pf)) : r.events ++ es = traversal v ++ [Done] := by
  obtain ⟨r', es', pf', g1, _, _, _, g5, g6⟩ := text_complete h
  rw [h1] at g1
  cases g1
  rw [h3] at g5
  cases g5
  exact g6

/-- Whitespace without a whitespace byte is empty. -/
theorem Ws.eq_nil {w : List Byte} (h : Ws w) (hn : ∀ b ∈ w, isSpace b = false) : w = [] := by
  cases w with
  | nil => rfl
  | cons b w =>
    have h1 := h b (by simp)
    have h2 := hn b (by simp)
    rcases h1 with rfl | rfl | rfl | rfl <;> simp [isSpace] at h2

/-- A value whose traversal is that of a number is a number. -/
theorem traversal_number {v : JValue} (h : traversal v = [NumberStart, NumberEnd]) :
    ∃ w, v = JValue.number w := by
  cases v with
  | number w => exact ⟨w, rfl⟩
  | null => simp [traversal] at h
  | bool b => simp [traversal] at h
  | string s => simp [traversal] at h
  | array items => simp [traversal] at h
  | object members => simp [traversal] at h

/-- A value whose traversal is that of a string is a string. -/
theorem traversal_string {v : JValue} (h : traversal v = [StringStart, StringEnd]) :
    ∃ s, v = JValue.string s := by
  cases v with
  | string s => exact ⟨s, rfl⟩
  | null => simp [traversal] at h
  | bool b => simp [traversal] at h
  | number w => simp [traversal] at h
  | array items => simp [traversal] at h
  | object members => simp [traversal] at h

/-- The buffers without a whitespace byte on which the zero parser delivers
`NumberStart`, `NumberEnd` and `Done` are the number lexemes. -/
theorem number_iff (w : List Byte) (hw : ∀ b ∈ w, isSpace b = false) :
    (∃ r es pf, drive Parser.zero w = some r ∧ r.failed = false ∧
      finish r.p = (es, none, pf) ∧ r.events ++ es = [NumberStart, NumberEnd, Done]) ↔
    NumberLexeme w := by
  constructor
  · rintro ⟨r, es, pf, h1, h2, h3, h4⟩
    obtain ⟨v, hv⟩ := text_sound h1 h2 h3
    have he := text_events hv h1 h3
    rw [h4] at he
    have ht : traversal v = [NumberStart, NumberEnd] := by
      have := congrArg List.dropLast he
      simpa using this.symm
    obtain ⟨l, rfl⟩ := traversal_number ht
    obtain ⟨w1, body, w2, rfl, hw1, hb, hw2⟩ := hv
    have e1 : w1 = [] := hw1.eq_nil (fun b hb => hw b (by simp [hb]))
    have e2 : w2 = [] := hw2.eq_nil (fun b hb => hw b (by simp [hb]))
    subst e1 e2
    cases hb with
    | number _ hl => simpa using hl
  · intro h
    have hj : JsonText (JValue.number w) w :=
      ⟨[], w, [], by simp, Ws.nil_ws, Ser.number w h, Ws.nil_ws⟩
    obtain ⟨r, es, pf, g1, g2, _, _, g5, g6⟩ := text_complete hj
    exact ⟨r, es, pf, g1, g2, g5, g6⟩

/-- The bodies between two quotes on which the zero parser delivers
`StringStart`, `StringEnd` and `Done` are the string bodies of the grammar. -/
theorem string_iff (body : List Byte) :
    (∃ r es pf, drive Parser.zero (34 :: (body ++ [34])) = some r ∧ r.failed = false ∧
      finish r.p = (es, none, pf) ∧ r.events ++ es = [StringStart, StringEnd, Done]) ↔
    StringBody body := by
  constructor
  · rintro ⟨r, es, pf, h1, h2, h3, h4⟩
    obtain ⟨v, hv⟩ := text_sound h1 h2 h3
    have he := text_events hv h1 h3
    rw [h4] at he
    have ht : traversal v = [StringStart, StringEnd] := by
      have := congrArg List.dropLast he
      simpa using this.symm
    obtain ⟨s, rfl⟩ := traversal_string ht
    obtain ⟨w1, bd, w2, hd, hw1, hb, hw2⟩ := hv
    cases hb with
    | string _ hs =>
      have e1 : w1 = [] := by
        cases w1 with
        | nil => rfl
        | cons c w1 =>
          simp only [List.cons_append, List.cons.injEq] at hd
          have hc := hw1 c (by simp)
          rw [← hd.1] at hc
          simp at hc
      subst e1
      simp only [List.nil_append, List.cons_append, List.cons.injEq, true_and] at hd
      have e2 : w2 = [] := by
        rcases List.eq_nil_or_concat w2 with h | ⟨L, c, h⟩
        · exact h
        · subst h
          have hc := hw2 c (by simp)
          rw [List.concat_eq_append, ← List.append_assoc] at hd
          have := (List.append_inj' hd rfl).2
          simp only [List.cons.injEq, and_true] at this
          rw [← this] at hc
          simp at hc
      subst e2
      simp only [List.append_nil] at hd
      have := (List.append_inj' hd rfl).1
      rw [this]
      exact hs
  · intro h
    have hj : JsonText (JValue.string body) (34 :: (body ++ [34])) :=
      ⟨[], 34 :: (body ++ [34]), [], by simp, Ws.nil_ws, Ser.string body h, Ws.nil_ws⟩
    obtain ⟨r, es, pf, g1, g2, _, _, g5, g6⟩ := text_complete hj
    exact ⟨r, es, pf, g1, g2, g5, g6⟩

/-- After the fourth hexadecimal digit of a `\u` escape the parser is back
in the state of the string body. -/
theorem iter_unicode4 (p : Parser) (b : Byte) (hs : p.state = _StateStringUnicode4)
    (hb : isHex b = true) : iter p b = Outcome.advance { p with state := _StateString } := by
  rcases p with ⟨st, q, d, l, dr, e, pr⟩
  simp only at hs
  subst hs
  simp [iter, transition, caseStringUnicode, settle, Outcome.cont, State.code, _IgnoreSpace, hb]

/-! ## What `End` returns after a run of the zero parser -/

/-- After a text whose value is complete (a number is followed by
whitespace), the zero parser is done. -/
theorem drive_done_of_text {d : List Byte} {r : Run} (h : drive Parser.zero d = some r)
    {v : JValue} {w1 body w2 : List Byte} (hd : d = w1 ++ (body ++ w2)) (hw1 : Ws w1)
    (hb : Ser v body) (hw2 : Ws w2) (hz : (∃ w, v = JValue.number w) → w2 ≠ []) :
    r.p = ⟨_StateDone, [], 0, 0, 0, 0, false⟩ := by
  subst hd
  have hz' : (∃ w, v = JValue.number w) → DelimHead w2 := by
    intro hv
    cases w2 with
    | nil => exact absurd rfl (hz hv)
    | cons c w2 =>
      refine ⟨c, w2, rfl, ?_⟩
      have := hw2 c (List.mem_cons_self _ _)
      unfold isDelim
      tauto
  have hr := text_runs_done hw1 hb hw2 hz'
  rw [((drive_iff _ _ _).1 h).det hr]

/-- After whitespace and a number lexeme the zero parser is in a number
state with the lexeme complete, the queue empty and depth 1. -/
theorem drive_pending_of_number {d : List Byte} {r : Run} (h : drive Parser.zero d = some r)
    {w1 w : List Byte} (hd : d = w1 ++ w) (hw1 : Ws w1) (hw : NumberLexeme w) :
    ∃ s, s.numberComplete = true ∧ r.p = ⟨s, [], 1, 0, 0, 0, false⟩ := by
  subst hd
  obtain ⟨s, hs, h1⟩ := number_pending hw [] 0 0 false
  have h2 := (quiet_ws ⟨_StateValue, [], 0, 0, 0, 0, false⟩
    (by simp [State.code, _IgnoreSpace]) w1 hw1).then h1
  have e : Parser.zero = ⟨_StateValue, [], 0, 0, 0, 0, false⟩ := rfl
  rw [← e] at h2
  refine ⟨s, hs, ?_⟩
  rw [((drive_iff _ _ _).1 h).det h2]
  simp [Run.after, startValue, Parser.zero]

/-- What `End` returns after the zero parser has read a buffer without
`SyntaxError`: `Done` exactly when the buffer is a text whose value is
complete, `NumberEnd` exactly when the buffer is whitespace and a number
lexeme with nothing after it. -/
theorem drive_end_iff (d : List Byte) (r : Run) (h : drive Parser.zero d = some r)
    (hf : r.failed = false) :
    ((End r.p).1 = (Done, none) ↔
      ∃ v w1 body w2, d = w1 ++ (body ++ w2) ∧ Ws w1 ∧ Ser v body ∧ Ws w2 ∧
        ((∃ w, v = JValue.number w) → w2 ≠ [])) ∧
    ((End r.p).1 = (NumberEnd, none) ↔ ∃ w1 w, d = w1 ++ w ∧ Ws w1 ∧ NumberLexeme w) := by
  have hA : (∃ v w1 body w2, d = w1 ++ (body ++ w2) ∧ Ws w1 ∧ Ser v body ∧ Ws w2 ∧
      ((∃ w, v = JValue.number w) → w2 ≠ [])) → (End r.p).1 = (Done, none) := by
    rintro ⟨v, w1, body, w2, hd, hw1, hb, hw2, hz⟩
    rw [drive_done_of_text h hd hw1 hb hw2 hz]
    rfl
  have hB : (∃ w1 w, d = w1 ++ w ∧ Ws w1 ∧ NumberLexeme w) →
      (End r.p).1 = (NumberEnd, none) := by
    rintro ⟨w1, w, hd, hw1, hw⟩
    obtain ⟨s, hs, hp⟩ := drive_pending_of_number h hd hw1 hw
    rw [hp]
    cases s <;> simp [State.numberComplete] at hs <;> rfl
  have hsplit : ∀ es pf, finish r.p = (es, none, pf) →
      (∃ v w1 body w2, d = w1 ++ (body ++ w2) ∧ Ws w1 ∧ Ser v body ∧ Ws w2 ∧
        ((∃ w, v = JValue.number w) → w2 ≠ [])) ∨
      (∃ w1 w, d = w1 ++ w ∧ Ws w1 ∧ NumberLexeme w) := by
    intro es pf hfin
    obtain ⟨v, w1, body, w2, hd, hw1, hb, hw2⟩ := text_sound h hf hfin
    by_cases hz : (∃ w, v = JValue.number w) → w2 ≠ []
    · exact Or.inl ⟨v, w1, body, w2, hd, hw1, hb, hw2, hz⟩
    · push_neg at hz
      obtain ⟨⟨w, rfl⟩, rfl⟩ := hz
      cases hb with
      | number _ hl => exact Or.inr ⟨w1, _, by simpa using hd, hw1, hl⟩
  constructor
  · refine ⟨fun he => ?_, hA⟩
    rcases End_cases r.p with ⟨h1, h2⟩ | ⟨_, _, h3⟩ | ⟨_, _, h3⟩
    · have hfin : finish r.p = ([Done], none, r.p) := by simp [finish, h2]
      rcases hsplit _ _ hfin with ha | hb
      · exact ha
      · have := hB hb
        rw [he] at this
        cases this
    · rw [h3] at he
      cases he
    · rw [h3] at he
      cases he
  · refine ⟨fun he => ?_, hB⟩
    rcases End_cases r.p with ⟨_, h2⟩ | ⟨_, _, h3⟩ | ⟨_, _, h3⟩
    · rw [h2] at he
      cases he
    · have hfin : finish r.p =
          ([NumberEnd, Done], none, { r.p with state := _StateDone }) := by
        unfold finish
        rw [h3]
        rfl
      rcases hsplit _ _ hfin with ha | hb
      · have := hA ha
        rw [he] at this
        cases this
      · exact hb
    · rw [h3] at he
      cases he

/-! ## The skip fields do not influence the state machine -/

/-- The statement `p.state = p.next()` by the fields of the parser. -/
theorem toNext_eq (st : State) (q : List State) (d l dr e : Int) (pr : Bool) :
    Parser.toNext ⟨st, q, d, l, dr, e, pr⟩ =
      ⟨q.head?.getD _StateDone, q.tail, d, l, dr, e, pr⟩ := by
  cases q <;> rfl

/-- The switch does not read the skip fields: it passes them on. -/
theorem transition_withSkip (st : State) (q : List State) (d l dr e l' dr' e' : Int)
    (pr : Bool) (b : Byte) :
    transition ⟨st, q, d, l', dr', e', pr⟩ b =
      (transition ⟨st, q, d, l, dr, e, pr⟩ b).withSkip l' dr' e' := by
  cases st <;> simp only [transition] <;>
    (try unfold caseValue) <;> (try unfold caseObjectKeyOrBrace) <;>
    (try unfold caseObjectKey) <;> (try unfold caseObjectColon) <;>
    (try unfold caseObjectCommaOrBrace) <;> (try unfold caseArrayValueOrBracket) <;>
    (try unfold caseArrayCommaOrBracket) <;> (try unfold caseStringUnicode) <;>
    (try unfold caseString) <;> (try unfold caseStringEscaped) <;>
    (try unfold caseNumberNegative) <;> (try unfold caseNumber) <;>
    (try unfold caseNumberZero) <;> (try unfold caseNumberDotFirstDigit) <;>
    (try unfold caseNumberDotDigit) <;> (try unfold caseNumberExpSign) <;>
    (try unfold caseNumberExpFirstDigit) <;> (try unfold caseNumberExpDigit) <;>
    (try unfold caseLiteral) <;>
    (try simp only [apply_ite (fun t : Step => t.withSkip l' dr' e'), toNext_eq]) <;>
    rfl

theorem SameCore.swap {p q : Parser} (h : SameCore p q) : SameCore q p :=
  ⟨h.1.symm, h.2.1.symm, h.2.2.1.symm, h.2.2.2.symm⟩

theorem SameCore.chain {p q r : Parser} (h : SameCore p q) (h' : SameCore q r) :
    SameCore p r :=
  ⟨h.1.trans h'.1, h.2.1.trans h'.2.1, h.2.2.1.trans h'.2.2.1, h.2.2.2.trans h'.2.2.2⟩

/-- On parsers that agree on the state, the queue, the depth and the
property flag, the switch sets the same event, error and rewind and leaves
parsers that agree again. -/
theorem transition_sameCore {p q : Parser} (h : SameCore p q) (b : Byte) :
    (transition p b).event = (transition q b).event ∧
    (transition p b).err = (transition q b).err ∧
    (transition p b).rewind = (transition q b).rewind ∧
    SameCore (transition p b).p (transition q b).p := by
  rcases p with ⟨st, qu, d, l, dr, e, pr⟩
  rcases q with ⟨st', qu', d', l', dr', e', pr'⟩
  obtain ⟨h1, h2, h3, h4⟩ := h
  simp only at h1 h2 h3 h4
  subst h1 h2 h3 h4
  rw [transition_withSkip st qu d l dr e l' dr' e' pr b]
  exact ⟨rfl, rfl, rfl, rfl, rfl, rfl, rfl⟩

/-- The depth update is the same on parsers that agree. -/
theorem updateDepth_sameCore {p q : Parser} (h : SameCore p q) (ev : Event) :
    SameCore (updateDepth p ev) (updateDepth q ev) := by
  rcases p with ⟨st, qu, d, l, dr, e, pr⟩
  rcases q with ⟨st', qu', d', l', dr', e', pr'⟩
  obtain ⟨h1, h2, h3, h4⟩ := h
  simp only at h1 h2 h3 h4
  subst h1 h2 h3 h4
  refine ⟨by simp, by simp, ?_, ?_⟩ <;>
    (unfold updateDepth; split_ifs <;> rfl)

/-- What an iteration leaves agrees on parsers that agree. -/
theorem iter_sameCore {p q : Parser} (h : SameCore p q) (b : Byte) :
    SameCore (iter p b).parser (iter q b).parser := by
  have hws : (p.state.code < _IgnoreSpace ∧ isSpace b = true) ↔
      (q.state.code < _IgnoreSpace ∧ isSpace b = true) := by rw [h.1]
  by_cases hc : p.state.code < _IgnoreSpace ∧ isSpace b = true
  · simp only [iter, if_pos hc, if_pos (hws.1 hc)]
    exact h
  · simp only [iter, if_neg hc, if_neg (fun h' => hc (hws.2 h'))]
    obtain ⟨e1, _, _, e4⟩ := transition_sameCore h b
    obtain ⟨a1, a2, a3, a4⟩ := settle_core (transition p b)
    obtain ⟨b1, b2, b3, b4⟩ := settle_core (transition q b)
    have hcore : SameCore (transition p b).core (transition q b).core := by
      unfold Step.core
      rw [e1]
      split
      · exact e4
      · exact updateDepth_sameCore e4 _
    exact ⟨a1.trans (hcore.1.trans b1.symm), a2.trans (hcore.2.1.trans b2.symm),
      a3.trans (hcore.2.2.1.trans b3.symm), a4.trans (hcore.2.2.2.trans b4.symm)⟩

/-- The lines after the switch when no skip is active: every event other
than `Continue` is returned. -/
theorem settle_noSkip (t : Step) (h : NoSkip t.p) :
    NoSkip (settle t).parser ∧
    (t.event = Continue → settle t = Outcome.cont t.rewind t.p) ∧
    (t.event = SyntaxError → settle t = Outcome.ret t.p false SyntaxError t.err) ∧
    (t.event ≠ Continue → t.event ≠ SyntaxError →
      settle t = Outcome.ret (updateDepth t.p t.event) (!t.rewind) t.event none) := by
  have hz : ¬ ((updateDepth t.p t.event).drop ≠ 0 ∨ (updateDepth t.p t.event).empty ≠ 0) := by
    rw [updateDepth_drop, updateDepth_empty, h.1, h.2]
    simp
  by_cases h1 : t.event = Continue
  · have hs : settle t = Outcome.cont t.rewind t.p := by simp only [settle, if_pos h1]
    refine ⟨?_, fun _ => hs, fun h2 => ?_, fun h' => absurd h1 h'⟩
    · rw [hs, (cont_delivered _ _).2]
      exact h
    · rw [h1] at h2
      cases h2
  by_cases h2 : t.event = SyntaxError
  · have hs : settle t = Outcome.ret t.p false SyntaxError t.err := by
      simp only [settle, if_neg h1, if_pos h2]
    refine ⟨?_, fun h' => absurd h' h1, fun _ => hs, fun _ h' => absurd h2 h'⟩
    rw [hs]
    exact h
  · have hs := settle_event t _ h1 h2 rfl
    rw [if_neg hz] at hs
    refine ⟨?_, fun h' => absurd h' h1, fun h' => absurd h' h2, fun _ _ => hs⟩
    rw [hs]
    exact ⟨(updateDepth_drop _ _).trans h.1, (updateDepth_empty _ _).trans h.2⟩

/-- An iteration on a parser with any skip fields against the iteration on
a parser with no skip active that agrees with it otherwise: the same outcome,
or the event is suppressed where the other parser returns it. -/
theorem iter_shape {p q : Parser} (h : SameCore p q) (hq : NoSkip q) (b : Byte) :
    NoSkip (iter q b).parser ∧
    (∀ q', iter q b = Outcome.advance q' → ∃ p', iter p b = Outcome.advance p') ∧
    (∀ q', iter q b = Outcome.again q' → ∃ p', iter p b = Outcome.again p') ∧
    (∀ q' c ev err, iter q b = Outcome.ret q' c ev err →
      ∃ p', iter p b = Outcome.ret p' c ev err ∨
        (ev ≠ SyntaxError ∧ c = true ∧ iter p b = Outcome.advance p') ∨
        (ev ≠ SyntaxError ∧ c = false ∧ iter p b = Outcome.again p')) := by
  have hws : (p.state.code < _IgnoreSpace ∧ isSpace b = true) ↔
      (q.state.code < _IgnoreSpace ∧ isSpace b = true) := by rw [h.1]
  by_cases hc : p.state.code < _IgnoreSpace ∧ isSpace b = true
  · have e1 : iter p b = Outcome.advance p := by simp only [iter, if_pos hc]
    have e2 : iter q b = Outcome.advance q := by simp only [iter, if_pos (hws.1 hc)]
    rw [e1, e2]
    refine ⟨hq, fun _ _ => ⟨p, rfl⟩, ?_, ?_⟩
    · intro _ h'
      cases h'
    · intro _ _ _ _ h'
      cases h'
  · have e1 : iter p b = settle (transition p b) := by simp only [iter, if_neg hc]
    have e2 : iter q b = settle (transition q b) := by
      simp only [iter, if_neg (fun h' => hc (hws.2 h'))]
    obtain ⟨t1, t2, t3, _⟩ := transition_sameCore h b
    have hok := transition_ok q b
    have hn : NoSkip (transition q b).p := ⟨hok.2.2.1.trans hq.1, hok.2.2.2.1.trans hq.2⟩
    obtain ⟨n1, n2, n3, n4⟩ := settle_noSkip (transition q b) hn
    obtain ⟨_, _, s3, s4, s5⟩ := settle_spec (transition p b)
    rw [e1, e2]
    refine ⟨n1, ?_, ?_, ?_⟩
    · intro q' hq'
      by_cases c1 : (transition q b).event = Continue
      · have hp : settle (transition p b) = Outcome.cont (transition p b).rewind
            (transition p b).p := by simp only [settle, if_pos (t1.trans c1)]
        rw [n2 c1] at hq'
        rw [hp, t3]
        revert hq'
        unfold Outcome.cont
        split
        · intro h'; cases h'
        · intro _; exact ⟨_, rfl⟩
      · by_cases c2 : (transition q b).event = SyntaxError
        · rw [n3 c2] at hq'; cases hq'
        · rw [n4 c1 c2] at hq'; cases hq'
    · intro q' hq'
      by_cases c1 : (transition q b).event = Continue
      · have hp : settle (transition p b) = Outcome.cont (transition p b).rewind
            (transition p b).p := by simp only [settle, if_pos (t1.trans c1)]
        rw [n2 c1] at hq'
        rw [hp, t3]
        revert hq'
        unfold Outcome.cont
        split
        · intro _; exact ⟨_, rfl⟩
        · intro h'; cases h'
      · by_cases c2 : (transition q b).event = SyntaxError
        · rw [n3 c2] at hq'; cases hq'
        · rw [n4 c1 c2] at hq'; cases hq'
    · intro q' c ev err hq'
      by_cases c1 : (transition q b).event = Continue
      · rw [n2 c1] at hq'
        revert hq'
        unfold Outcome.cont
        split <;> (intro h'; cases h')
      · by_cases c2 : (transition q b).event = SyntaxError
        · rw [n3 c2] at hq'
          cases hq'
          have c1' : (transition p b).event ≠ Continue := by rw [t1]; exact c1
          have hp : settle (transition p b) =
              Outcome.ret (transition p b).p false SyntaxError (transition p b).err := by
            simp only [settle, if_neg c1', if_pos (t1.trans c2)]
          rw [hp, t2]
          exact ⟨_, Or.inl rfl⟩
        · rw [n4 c1 c2] at hq'
          cases hq'
          cases ho : settle (transition p b) with
          | advance p' =>
            have := s4 p' ho
            rw [t3] at this
            exact ⟨p', Or.inr (Or.inl ⟨c2, by simp [this], rfl⟩)⟩
          | again p' =>
            have := s3 p' ho
            rw [t3] at this
            exact ⟨p', Or.inr (Or.inr ⟨c2, by simp [this], rfl⟩)⟩
          | ret p' c' ev' err' =>
            rcases s5 p' c' ev' err' ho with ⟨_, h4, _⟩ | ⟨h3, _, _, h6, h7⟩
            · exact absurd (t1.symm.trans h4) c2
            · rw [t1] at h3
              rw [t3] at h6
              exact ⟨p', Or.inl (by rw [h3, h6, h7])⟩

/-- The run of a parser with any skip fields against the run of a parser
with no skip active that agrees with it otherwise: the parsers agree again,
a `SyntaxError` comes at the same byte with the same error, and the events
are a subsequence. -/
theorem Runs.sim {q : Parser} {d : List Byte} {r2 : Run} (h : Runs q d r2) :
    ∀ p, SameCore p q → NoSkip q →
      ∃ r1, Runs p d r1 ∧ SameCore r1.p r2.p ∧ r1.failed = r2.failed ∧
        r1.consumed = r2.consumed ∧ r1.err = r2.err ∧ r1.events.Sublist r2.events := by
  induction h with
  | nil q =>
    intro p hc _
    exact ⟨_, Runs.nil p, hc, rfl, rfl, rfl, List.Sublist.refl _⟩
  | @advance q q' b rest r hit _ ih =>
    intro p hc hn
    obtain ⟨n1, a1, _, _⟩ := iter_shape hc hn b
    obtain ⟨p', hp⟩ := a1 q' hit
    have hs := iter_sameCore hc b
    rw [hp, hit] at hs
    rw [hit] at n1
    obtain ⟨r1, g1, g2, g3, g4, g5, g6⟩ := ih p' hs n1
    exact ⟨_, Runs.advance hp g1, g2, g3, by simp [g4], g5, g6⟩
  | @again q q' b rest r hit _ ih =>
    intro p hc hn
    obtain ⟨n1, _, a2, _⟩ := iter_shape hc hn b
    obtain ⟨p', hp⟩ := a2 q' hit
    have hs := iter_sameCore hc b
    rw [hp, hit] at hs
    rw [hit] at n1
    obtain ⟨r1, g1, g2, g3, g4, g5, g6⟩ := ih p' hs n1
    exact ⟨_, Runs.again hp g1, g2, g3, g4, g5, g6⟩
  | @emit q q' b rest r ev err hit hev _ ih =>
    intro p hc hn
    obtain ⟨n1, _, _, a3⟩ := iter_shape hc hn b
    obtain ⟨p', hp | ⟨_, _, hp⟩ | ⟨_, hcf, _⟩⟩ := a3 q' true ev err hit
    · have hs := iter_sameCore hc b
      rw [hp, hit] at hs
      rw [hit] at n1
      obtain ⟨r1, g1, g2, g3, g4, g5, g6⟩ := ih p' hs n1
      exact ⟨_, Runs.emit hp hev g1, g2, g3, by simp [g4], g5, List.Sublist.cons₂ _ g6⟩
    · have hs := iter_sameCore hc b
      rw [hp, hit] at hs
      rw [hit] at n1
      obtain ⟨r1, g1, g2, g3, g4, g5, g6⟩ := ih p' hs n1
      exact ⟨_, Runs.advance hp g1, g2, g3, by simp [g4], g5, List.Sublist.cons _ g6⟩
    · cases hcf
  | @emitAgain q q' b rest r ev err hit hev _ ih =>
    intro p hc hn
    obtain ⟨n1, _, _, a3⟩ := iter_shape hc hn b
    obtain ⟨p', hp | ⟨_, hcf, _⟩ | ⟨_, _, hp⟩⟩ := a3 q' false ev err hit
    · have hs := iter_sameCore hc b
      rw [hp, hit] at hs
      rw [hit] at n1
      obtain ⟨r1, g1, g2, g3, g4, g5, g6⟩ := ih p' hs n1
      exact ⟨_, Runs.emitAgain hp hev g1, g2, g3, g4, g5, List.Sublist.cons₂ _ g6⟩
    · cases hcf
    · have hs := iter_sameCore hc b
      rw [hp, hit] at hs
      rw [hit] at n1
      obtain ⟨r1, g1, g2, g3, g4, g5, g6⟩ := ih p' hs n1
      exact ⟨_, Runs.again hp g1, g2, g3, g4, g5, List.Sublist.cons _ g6⟩
  | @fail q q' b rest c err hit =>
    intro p hc hn
    obtain ⟨n1, _, _, a3⟩ := iter_shape hc hn b
    obtain ⟨p', hp | ⟨hne, _⟩ | ⟨hne, _⟩⟩ := a3 q' c SyntaxError err hit
    · have hs := iter_sameCore hc b
      rw [hp, hit] at hs
      exact ⟨_, Runs.fail hp, hs, rfl, rfl, rfl, List.Sublist.refl _⟩
    · exact absurd rfl hne
    · exact absurd rfl hne

/-- Driving two parsers that agree on the state, the queue, the depth and
the property flag over the same bytes: they agree again, both fail at the
same byte with the same error or neither does, and when no skip is active on
the second its events hold those of the first as a subsequence. -/
theorem drive_sameCore (p q : Parser) (d : List Byte) (h : SameCore p q) :
    ∃ r1 r2, drive p d = some r1 ∧ drive q d = some r2 ∧ SameCore r1.p r2.p ∧
      r1.failed = r2.failed ∧ r1.consumed = r2.consumed ∧ r1.err = r2.err ∧
      (NoSkip q → r1.events.Sublist r2.events) := by
  have hn : NoSkip { q with drop := 0, empty := 0 } := ⟨rfl, rfl⟩
  have hqn : SameCore q { q with drop := 0, empty := 0 } := ⟨rfl, rfl, rfl, rfl⟩
  obtain ⟨rn, hrn⟩ := Runs.total d { q with drop := 0, empty := 0 }
  obtain ⟨r1, a1, a2, a3, a4, a5, _⟩ := hrn.sim p (h.chain hqn) hn
  obtain ⟨r2, b1, b2, b3, b4, b5, _⟩ := hrn.sim q hqn hn
  refine ⟨r1, r2, (drive_iff _ _ _).2 a1, (drive_iff _ _ _).2 b1, a2.chain b2.swap,
    a3.trans b3.symm, a4.trans b4.symm, a5.trans b5.symm, fun hq => ?_⟩
  obtain ⟨r1', c1, _, _, _, _, c6⟩ := b1.sim p h hq
  rw [a1.det c1]
  exact c6

/-! ## The claims on the end of input, the skip controller and the grammar -/

/-- C11: on every parser reached from the zero value by `Parse`, `Skip`,
`End` and `Reset`, `End` returns `Done` without error exactly in the done
state and leaves the parser as it is; it returns `NumberEnd` without error
exactly when the parser is in a number state with a complete lexeme and the
queue is empty, and goes to the done state; in every other case it returns
`SyntaxError` with an error and leaves the parser as it is. In terms of the
bytes read: after the zero parser has been driven over a buffer without
`SyntaxError`, `End` returns `Done` exactly when the buffer is a well-formed
text whose value is complete (a number is followed by whitespace), and
`NumberEnd` exactly when the buffer is whitespace and a number lexeme with
nothing after it. -/
theorem End_classification :
    (∀ p : Parser, Reachable p →
      ((End p).1 = (Done, none) ↔ p.state = _StateDone) ∧
      ((End p).1 = (Done, none) → (End p).2 = p) ∧
      ((End p).1 = (NumberEnd, none) ↔ (p.state.numberComplete = true ∧ p.queue = [])) ∧
      ((End p).1 = (NumberEnd, none) → (End p).2 = { p with state := _StateDone }) ∧
      (p.state ≠ _StateDone → ¬ (p.state.numberComplete = true ∧ p.queue = []) →
        (End p).1.1 = SyntaxError ∧ (End p).1.2 ≠ none ∧ (End p).2 = p)) ∧
    (∀ (d : List Byte) (r : Run), drive Parser.zero d = some r → r.failed = false →
      ((End r.p).1 = (Done, none) ↔
        ∃ v w1 body w2, d = w1 ++ (body ++ w2) ∧ Ws w1 ∧ Ser v body ∧ Ws w2 ∧
          ((∃ w, v = JValue.number w) → w2 ≠ [])) ∧
      ((End r.p).1 = (NumberEnd, none) ↔
        ∃ w1 w, d = w1 ++ w ∧ Ws w1 ∧ NumberLexeme w)) := by
  refine ⟨fun p h => ?_, drive_end_iff⟩
  have hI := h.inv
  rcases End_cases p with ⟨h1, h2⟩ | ⟨h1, h2, h3⟩ | ⟨h1, h2, h3⟩
  · rw [h2]
    simp [h1, State.numberComplete]
  · have hq := (hI.number_depth h1).1 h2
    have hs : p.state ≠ _StateDone := by
      intro hd
      rw [hd] at h1
      cases h1
    rw [h3]
    simp [h1, hq, hs]
  · have hq : ¬ (p.state.numberComplete = true ∧ p.queue = []) :=
      fun hc => h2 ⟨hc.1, (hI.number_depth hc.1).2 hc.2⟩
    rw [h3]
    simp [h1, hq]

/-- Witness of C11: the parser after the bytes `1e+`, an incomplete number. -/
theorem End_classification_witness :
    Reachable ⟨_StateNumberExpFirstDigit, [], 1, 0, 0, 0, false⟩ ∧
    (End ⟨_StateNumberExpFirstDigit, [], 1, 0, 0, 0, false⟩).1.1 = SyntaxError ∧
    (End ⟨_StateNumberExpFirstDigit, [], 1, 0, 0, 0, false⟩).1.2 ≠ none ∧
    (End ⟨_StateNumberExpFirstDigit, [], 1, 0, 0, 0, false⟩).2 =
      ⟨_StateNumberExpFirstDigit, [], 1, 0, 0, 0, false⟩ :=
  have h1 : Reachable ⟨_StateNumber, [], 1, 0, 0, 0, false⟩ :=
    Reachable.parse [49] Reachable.zero
      (show Parse Parser.zero [49] = some (⟨1, NumberStart, none⟩, _) by decide)
  have h2 : Reachable ⟨_StateNumberExpFirstDigit, [], 1, 0, 0, 0, false⟩ :=
    Reachable.parse [101, 43] h1
      (show Parse ⟨_StateNumber, [], 1, 0, 0, 0, false⟩ [101, 43] =
        some (⟨2, Continue, none⟩, _) by decide)
  ⟨h2, (End_classification.1 _ h2).2.2.2.2 (by decide) (by decide)⟩

/-- C12: `Skip` with the arguments `2^62` and `2^62`, both in the range of
a Go `int`, does not panic on the zero parser although the sum `2^63`
exceeds the depth 0: the 64-bit addition wraps around to `-2^63`, and `Skip`
sets the skip fields. -/
theorem Skip_overflow_accepted :
    (0 : Int) ≤ 2 ^ 62 ∧ (2 : Int) ^ 62 < 2 ^ 63 ∧
    (2 : Int) ^ 62 + 2 ^ 62 > Depth Parser.zero ∧
    wrapInt (2 ^ 62 + 2 ^ 62) = -2 ^ 63 ∧
    Skip Parser.zero (2 ^ 62) (2 ^ 62) =
      some ⟨_StateValue, [], 0, -1, 2 ^ 62, 2 ^ 62, false⟩ := by
  decide

/-- C13: the example of the doc comment of `Skip`, first part: on
`skipExample` the zero parser delivers `ArrayStart` and `ObjectStart` and
the depth is 2; after `Skip(0, 1)` the next call of `Parse` reads the twelve
bytes of the first object to its closing brace and delivers `ObjectEnd`,
with no event of the key and the string before it; then `ObjectStart` and
`KeyStart` of the second object are delivered, no skip being active. -/
theorem skip_example_A :
    Parse Parser.zero skipExample =
      some (⟨1, ArrayStart, none⟩, ⟨_StateArrayValueOrBracket, [], 1, 0, 0, 0, false⟩) ∧
    Parse ⟨_StateArrayValueOrBracket, [], 1, 0, 0, 0, false⟩ (skipExample.drop 1) =
      some (⟨1, ObjectStart, none⟩,
        ⟨_StateObjectKeyOrBrace, [_StateArrayCommaOrBracket], 2, 0, 0, 0, false⟩) ∧
    Depth ⟨_StateObjectKeyOrBrace, [_StateArrayCommaOrBracket], 2, 0, 0, 0, false⟩ = 2 ∧
    Skip ⟨_StateObjectKeyOrBrace, [_StateArrayCommaOrBracket], 2, 0, 0, 0, false⟩ 0 1 =
      some ⟨_StateObjectKeyOrBrace, [_StateArrayCommaOrBracket], 2, 1, 0, 1, false⟩ ∧
    Parse ⟨_StateObjectKeyOrBrace, [_StateArrayCommaOrBracket], 2, 1, 0, 1, false⟩
        (skipExample.drop 2) =
      some (⟨12, ObjectEnd, none⟩, ⟨_StateArrayCommaOrBracket, [], 1, 0, 0, 0, false⟩) ∧
    Parse ⟨_StateArrayCommaOrBracket, [], 1, 0, 0, 0, false⟩ (skipExample.drop 14) =
      some (⟨2, ObjectStart, none⟩,
        ⟨_StateObjectKeyOrBrace, [_StateArrayCommaOrBracket], 2, 0, 0, 0, false⟩) ∧
    Parse ⟨_StateObjectKeyOrBrace, [_StateArrayCommaOrBracket], 2, 0, 0, 0, false⟩
        (skipExample.drop 16) =
      some (⟨1, KeyStart, none⟩,
        ⟨_StateString, [_StateObjectKeyDone, _StateArrayCommaOrBracket], 3, 0, 0, 0, true⟩) := by
  decide

/-- C14: the example of the doc comment of `Skip`, second part: driven
over `skipExample` after `Skip(0, 1)`, the parser delivers `ObjectEnd`,
`ObjectStart` and the `KeyStart` of `baz`; after `Skip(2, 0)` the next call
of `Parse` reads the fourteen bytes that remain and delivers the `ArrayEnd`
of the outer array, with no event of the key's end, of the array `[1,2,3]`
or of the end of the object before it; `End` then returns `Done`. -/
theorem skip_example_B :
    (drive ⟨_StateObjectKeyOrBrace, [_StateArrayCommaOrBracket], 2, 1, 0, 1, false⟩
        ((skipExample.drop 2).take 15)).map (fun r => (r.events, r.consumed, r.p)) =
      some ([ObjectEnd, ObjectStart, KeyStart], 15,
        ⟨_StateString, [_StateObjectKeyDone, _StateArrayCommaOrBracket], 3, 0, 0, 0, true⟩) ∧
    Skip ⟨_StateString, [_StateObjectKeyDone, _StateArrayCommaOrBracket], 3, 0, 0, 0, true⟩ 2 0 =
      some ⟨_StateString, [_StateObjectKeyDone, _StateArrayCommaOrBracket], 3, 2, 2, 0, true⟩ ∧
    skipExample.length = 17 + 14 ∧
    Parse ⟨_StateString, [_StateObjectKeyDone, _StateArrayCommaOrBracket], 3, 2, 2, 0, true⟩
        (skipExample.drop 17) =
      some (⟨14, ArrayEnd, none⟩, ⟨_StateDone, [], 0, 0, 0, 0, false⟩) ∧
    End ⟨_StateDone, [], 0, 0, 0, 0, false⟩ =
      ((Done, none), ⟨_StateDone, [], 0, 0, 0, 0, false⟩) := by
  decide

/-- Counterexample of C15: on `[[],[]]`, after the two `ArrayStart` the
depth is 2 and `Skip(0, 2)` is accepted (`D = 2`, `drop = 0`, `N = 2`). The
`ArrayEnd` of the first inner array lowers the depth to 1 and is delivered;
the `ArrayEnd` of the second inner array also lowers the depth to
`D - drop - 1 = 1`, with one unit of `empty` left, and is suppressed: the
parser with the skip delivers two `ArrayEnd` where three end events lower
the depth to 1, 1 and 0. -/
theorem skip_sibling_counterexample :
    (drive Parser.zero [91, 91]).map (fun r => (r.events, r.p)) =
      some ([ArrayStart, ArrayStart],
        ⟨_StateArrayValueOrBracket, [_StateArrayCommaOrBracket], 2, 0, 0, 0, false⟩) ∧
    Skip ⟨_StateArrayValueOrBracket, [_StateArrayCommaOrBracket], 2, 0, 0, 0, false⟩ 0 2 =
      some ⟨_StateArrayValueOrBracket, [_StateArrayCommaOrBracket], 2, 1, 0, 2, false⟩ ∧
    drive ⟨_StateArrayValueOrBracket, [_StateArrayCommaOrBracket], 2, 1, 0, 2, false⟩
        [93, 44, 91] =
      some ⟨[ArrayEnd], 3, false, none,
        ⟨_StateArrayValueOrBracket, [_StateArrayCommaOrBracket], 2, 0, 0, 1, false⟩⟩ ∧
    computedEvent
      ⟨_StateArrayValueOrBracket, [_StateArrayCommaOrBracket], 2, 0, 0, 1, false⟩ 93 =
      ArrayEnd ∧
    iter ⟨_StateArrayValueOrBracket, [_StateArrayCommaOrBracket], 2, 0, 0, 1, false⟩ 93 =
      Outcome.advance ⟨_StateArrayCommaOrBracket, [], 1, 0, 0, 1, false⟩ ∧
    (drive ⟨_StateArrayValueOrBracket, [_StateArrayCommaOrBracket], 2, 1, 0, 2, false⟩
        [93, 44, 91, 93, 93]).map (fun r => r.events) = some [ArrayEnd, ArrayEnd] ∧
    (drive ⟨_StateArrayValueOrBracket, [_StateArrayCommaOrBracket], 2, 0, 0, 0, false⟩
        [93, 44, 91, 93, 93]).map (fun r => r.events) =
      some [ArrayEnd, ArrayStart, ArrayEnd, ArrayEnd] := by
  decide

/-- C15, amended: let `Skip(drop, empty)` be accepted at depth `D`, with one
unit of `empty` moved to `drop` when the call is made in the span of an
object key with `drop = 0` and `empty > 0`, and let `N = drop + empty`. `Skip`
opens the window `Window D drop N 0`; with `used` units of the budget spent,
an iteration of the loop of `Parse` behaves as follows. `Continue` delivers
nothing, `SyntaxError` is returned as always. With budget left (`used < N`)
an event is suppressed and spends nothing unless it brings the depth down to
`D - 1 - used`; such an event is an end event of a composite or primitive
value, it spends exactly one unit, and it is suppressed while `used < drop`
and delivered from then on. With the budget spent (`used = N`, both fields 0)
every event is delivered. Every call of `Parse` leaves the parser in the
window. -/
theorem skip_semantics (p0 p1 : Parser) (drop empty : Int)
    (h : Skip p0 drop empty = some p1) :
    p1.drop = (if p0.property = true ∧ drop = 0 ∧ 0 < empty then drop + 1 else drop) ∧
    p1.empty = (if p0.property = true ∧ drop = 0 ∧ 0 < empty then empty - 1 else empty) ∧
    SameCore p0 p1 ∧
    Window p0.depth p1.drop (drop + empty) 0 p1 ∧
    (∀ p, Window p0.depth p1.drop (drop + empty) (drop + empty) p → NoSkip p) ∧
    (∀ (used : Int) (p : Parser) (b : Byte),
      Window p0.depth p1.drop (drop + empty) used p →
      (computedEvent p b = Continue →
        (iter p b).delivered = none ∧
        Window p0.depth p1.drop (drop + empty) used (iter p b).parser) ∧
      (computedEvent p b = SyntaxError →
        (iter p b).delivered = some SyntaxError ∧
        Window p0.depth p1.drop (drop + empty) used (iter p b).parser) ∧
      (computedEvent p b ≠ Continue → computedEvent p b ≠ SyntaxError →
        (used = drop + empty →
          (iter p b).delivered = some (computedEvent p b) ∧
          Window p0.depth p1.drop (drop + empty) used (iter p b).parser) ∧
        (used < drop + empty → (iter p b).parser.depth ≠ p0.depth - 1 - used →
          (iter p b).delivered = none ∧
          Window p0.depth p1.drop (drop + empty) used (iter p b).parser) ∧
        (used < drop + empty → (iter p b).parser.depth = p0.depth - 1 - used →
          p.depth = p0.depth - used ∧
          ((computedEvent p b).isComposite || (computedEvent p b).isPrimitive) = true ∧
          (computedEvent p b).isEnd = true ∧
          Window p0.depth p1.drop (drop + empty) (used + 1) (iter p b).parser ∧
          (used < p1.drop → (iter p b).delivered = none) ∧
          (p1.drop ≤ used → (iter p b).delivered = some (computedEvent p b))))) ∧
    (∀ (used : Int) (p : Parser) (input : List Byte) (r : ParseResult) (p' : Parser),
      Window p0.depth p1.drop (drop + empty) used p → Parse p input = some (r, p') →
      ∃ used', used ≤ used' ∧ Window p0.depth p1.drop (drop + empty) used' p') := by
  obtain ⟨h1, h2, h3, h4⟩ := Skip_window h
  refine ⟨h1, h2, h3, h4, ?_, fun used p b hw => iter_window p b hw,
    fun used p input r p' hw hp => Parse_window input p r p' hw hp⟩
  intro p hw
  obtain ⟨_, _, w3, w4, w5, w6, _, _⟩ := hw
  exact ⟨by omega, by omega⟩

/-- Witness of C15: `Skip(0, 1)` at depth 2, after `ArrayStart` and
`ObjectStart` of `skipExample`; the `KeyStart` computed on the quote that
follows is suppressed and spends nothing. -/
theorem skip_semantics_witness :
    Skip ⟨_StateObjectKeyOrBrace, [_StateArrayCommaOrBracket], 2, 0, 0, 0, false⟩ 0 1 =
      some ⟨_StateObjectKeyOrBrace, [_StateArrayCommaOrBracket], 2, 1, 0, 1, false⟩ ∧
    Window 2 0 1 0 ⟨_StateObjectKeyOrBrace, [_StateArrayCommaOrBracket], 2, 1, 0, 1, false⟩ ∧
    computedEvent
      ⟨_StateObjectKeyOrBrace, [_StateArrayCommaOrBracket], 2, 1, 0, 1, false⟩ 34 = KeyStart ∧
    (iter ⟨_StateObjectKeyOrBrace, [_StateArrayCommaOrBracket], 2, 1, 0, 1, false⟩ 34).delivered
      = none ∧
    Window 2 0 1 0
      (iter ⟨_StateObjectKeyOrBrace, [_StateArrayCommaOrBracket], 2, 1, 0, 1, false⟩ 34).parser :=
  have hs : Skip ⟨_StateObjectKeyOrBrace, [_StateArrayCommaOrBracket], 2, 0, 0, 0, false⟩ 0 1 =
      some ⟨_StateObjectKeyOrBrace, [_StateArrayCommaOrBracket], 2, 1, 0, 1, false⟩ := by decide
  have hw := (skip_semantics _ _ 0 1 hs).2.2.2.1
  ⟨hs, hw, by decide,
    ((((skip_semantics _ _ 0 1 hs).2.2.2.2.2.1 0 _ 34 hw).2.2 (by decide) (by decide)).2.1
      (by decide) (by decide))⟩

/-- C16: every call of `Parse` returns; the error is there exactly when
the event is `SyntaxError`; with `SyntaxError` the count is the index of a
byte of the input, the offending byte, on which the parser returns the same
error again without consuming it; with `Continue` the count is the length of
the input; the count never exceeds the length of the input. -/
theorem Parse_result_shape (p : Parser) (input : List Byte) :
    ∃ r p', Parse p input = some (r, p') ∧
      (r.err ≠ none ↔ r.event = SyntaxError) ∧
      (r.event = SyntaxError → r.consumed < input.length ∧
        ∃ b, input[r.consumed]? = some b ∧
          iter p' b = Outcome.ret p' false SyntaxError r.err) ∧
      (r.event = Continue → r.consumed = input.length) ∧
      r.consumed ≤ input.length := by
  obtain ⟨r, p', h⟩ := Parse_total input p
  obtain ⟨h1, h2, h3, h4⟩ := Parse_shape input p r p' h
  exact ⟨r, p', h, h1, fun he => ⟨h3 he, Parse_error_byte input p r p' h he⟩, h2, h4⟩

/-- C17: in the done state `Parse` consumes an input of whitespace bytes
and returns `Continue`; on any other input it returns `SyntaxError` at the
first byte that is no whitespace, the count being the index of that byte;
in both cases the parser is left as it is. -/
theorem Parse_after_done (p : Parser) (hs : p.state = _StateDone) (input : List Byte) :
    ((∀ b ∈ input, isSpace b = true) →
      Parse p input = some (⟨input.length, Continue, none⟩, p)) ∧
    (∀ ws b rest, input = ws ++ b :: rest → (∀ c ∈ ws, isSpace c = true) →
      isSpace b = false →
      Parse p input =
        some (⟨ws.length, SyntaxError, some "expected EOF after top-level value"⟩, p)) := by
  refine ⟨fun hw => Parse_done_ws p hs input hw, fun ws b rest hi hw hb => ?_⟩
  rw [hi]
  exact Parse_done_error p hs ws b rest hw hb

/-- Witness of C17: a space and `1` after the top-level value. -/
theorem Parse_after_done_witness :
    State._StateDone = _StateDone ∧
    Parse ⟨_StateDone, [], 0, 0, 0, 0, false⟩ [32, 49] =
      some (⟨1, SyntaxError, some "expected EOF after top-level value"⟩,
        ⟨_StateDone, [], 0, 0, 0, 0, false⟩) ∧
    Parse ⟨_StateDone, [], 0, 0, 0, 0, false⟩ [32, 10] =
      some (⟨2, Continue, none⟩, ⟨_StateDone, [], 0, 0, 0, 0, false⟩) :=
  ⟨rfl,
    (Parse_after_done ⟨_StateDone, [], 0, 0, 0, 0, false⟩ rfl [32, 49]).2 [32] 49 [] rfl
      (by decide) (by decide),
    (Parse_after_done ⟨_StateDone, [], 0, 0, 0, 0, false⟩ rfl [32, 10]).1 (by decide)⟩

/-- C18: for every buffer `w` without a whitespace byte, driving the zero
parser over `w` and calling `End` until `Done` gives no `SyntaxError` and
exactly the events `NumberStart`, `NumberEnd`, `Done` if and only if `w`
matches `-? (0 | [1-9][0-9]*) (\.[0-9]+)? ([eE][+-]?[0-9]+)?`. -/
theorem number_grammar (w : List Byte) (hw : ∀ b ∈ w, isSpace b = false) :
    (∃ r es pf, drive Parser.zero w = some r ∧ r.failed = false ∧
      finish r.p = (es, none, pf) ∧ r.events ++ es = [NumberStart, NumberEnd, Done]) ↔
    NumberLexeme w :=
  number_iff w hw

/-- The buffers `01`, `-`, `1.`, `.5`, `1e` and `1e+` are rejected: the
drive fails or `End` returns an error. -/
theorem number_rejects :
    (drive Parser.zero [48, 49]).map (fun r => r.failed) = some true ∧
    (drive Parser.zero [45]).map (fun r => (finish r.p).2.1) = some (some "unexpected EOF") ∧
    (drive Parser.zero [49, 46]).map (fun r => (finish r.p).2.1) =
      some (some "unexpected EOF") ∧
    (drive Parser.zero [46, 53]).map (fun r => r.failed) = some true ∧
    (drive Parser.zero [49, 101]).map (fun r => (finish r.p).2.1) =
      some (some "unexpected EOF") ∧
    (drive Parser.zero [49, 101, 43]).map (fun r => (finish r.p).2.1) =
      some (some "unexpected EOF") := by
  decide

/-- Witness of C18: `42` is accepted as a number, and `01` is no number
lexeme, the drive over it failing at the second byte. -/
theorem number_grammar_witness :
    (∀ b ∈ [52, 50], isSpace b = false) ∧
    (∃ r es pf, drive Parser.zero [52, 50] = some r ∧ r.failed = false ∧
      finish r.p = (es, none, pf) ∧ r.events ++ es = [NumberStart, NumberEnd, Done]) ∧
    ¬ NumberLexeme [48, 49] :=
  have hn : NumberLexeme [52, 50] :=
    ⟨[], [52, 50], [], [], rfl, Or.inl rfl,
      Or.inr ⟨52, [50], rfl, by decide, by decide,
        fun b hb => by simp at hb; subst hb; decide⟩, Or.inl rfl, Or.inl rfl⟩
  ⟨by decide, (number_grammar [52, 50] (by decide)).2 hn, fun h => by
    obtain ⟨r, es, pf, h1, h2, _⟩ := (number_grammar [48, 49] (by decide)).2 h
    have hd : drive Parser.zero [48, 49] =
        some ⟨[NumberStart, NumberEnd, SyntaxError], 1, true,
          some "expected EOF after top-level value", ⟨_StateDone, [], 0, 0, 0, 0, false⟩⟩ := by
      decide
    rw [hd] at h1
    cases h1
    cases h2⟩

/-- C19: for every `body`, driving the zero parser over a quote, `body`
and a quote and calling `End` until `Done` gives no `SyntaxError` and exactly
the events `StringStart`, `StringEnd`, `Done` if and only if `body` is a
concatenation of bytes from 0x20 on other than the quote and the backslash,
of two-byte escapes with one of `b f n r t \ / "` and of `\u` with four
hexadecimal digits; after the fourth hexadecimal digit the parser is back in
the state of the string body. -/
theorem string_grammar (body : List Byte) :
    ((∃ r es pf, drive Parser.zero (34 :: (body ++ [34])) = some r ∧ r.failed = false ∧
      finish r.p = (es, none, pf) ∧ r.events ++ es = [StringStart, StringEnd, Done]) ↔
      StringBody body) ∧
    (∀ (p : Parser) (b : Byte), p.state = _StateStringUnicode4 → isHex b = true →
      iter p b = Outcome.advance { p with state := _StateString }) :=
  ⟨string_iff body, iter_unicode4⟩

/-- C20: two parsers that agree on the state, the queue, the depth and the
property flag and differ in the skip fields at will, driven over the same
bytes, agree again on the four; both return `SyntaxError` at the same byte
with the same error or neither does; and when no skip is active on the
second parser, the events of the first are a subsequence of its events. -/
theorem skip_independent (p q : Parser) (d : List Byte) (h : SameCore p q) :
    ∃ r1 r2, drive p d = some r1 ∧ drive q d = some r2 ∧ SameCore r1.p r2.p ∧
      r1.failed = r2.failed ∧ r1.consumed = r2.consumed ∧ r1.err = r2.err ∧
      (NoSkip q → r1.events.Sublist r2.events) :=
  drive_sameCore p q d h

/-- Witness of C20: `skipExample` after its first two bytes, with
`Skip(0, 1)` and without. -/
theorem skip_independent_witness :
    SameCore ⟨_StateObjectKeyOrBrace, [_StateArrayCommaOrBracket], 2, 1, 0, 1, false⟩
      ⟨_StateObjectKeyOrBrace, [_StateArrayCommaOrBracket], 2, 0, 0, 0, false⟩ ∧
    ∃ r1 r2,
      drive ⟨_StateObjectKeyOrBrace, [_StateArrayCommaOrBracket], 2, 1, 0, 1, false⟩
        (skipExample.drop 2) = some r1 ∧
      drive ⟨_StateObjectKeyOrBrace, [_StateArrayCommaOrBracket], 2, 0, 0, 0, false⟩
        (skipExample.drop 2) = some r2 ∧
      SameCore r1.p r2.p ∧ r1.failed = r2.failed ∧ r1.consumed = r2.consumed ∧
      r1.err = r2.err ∧
      (NoSkip ⟨_StateObjectKeyOrBrace, [_StateArrayCommaOrBracket], 2, 0, 0, 0, false⟩ →
        r1.events.Sublist r2.events) :=
  ⟨⟨rfl, rfl, rfl, rfl⟩, skip_independent _ _ _ ⟨rfl, rfl, rfl, rfl⟩⟩

/-! ## Re-examination of a byte -/

/-- The switch executes `i--` in a rewinding state only, and in the string
state only on the quote. -/
theorem rewind_state (p : Parser) (b : Byte) (h : (transition p b).rewind = true) :
    p.state.rewinds = true ∧ (p.state = _StateString → b = 34) := by
  constructor
  · rcases (transition_ok p b).2.2.2.2.2.2.2 h with ⟨h1, _⟩ | ⟨h1, _⟩
    · rw [h1]; rfl
    · exact h1
  · intro hs
    rcases p with ⟨st, q, d, l, dr, e, pr⟩
    simp only at hs
    subst hs
    simp only [transition, caseString] at h
    by_contra hb
    rw [if_neg hb] at h
    split_ifs at h

/-- The parser after `i--` under the invariant: its state does not rewind. -/
theorem Inv.after_rewind {p : Parser} (hI : Inv p) (b : Byte)
    (h : (transition p b).rewind = true) : (transition p b).p.state.rewinds = false := by
  rcases (transition_ok p b).2.2.2.2.2.2.2 h with ⟨_, _, h3⟩ | ⟨h1, h2, h3, _⟩
  · rw [h3]
    rfl
  · rw [h3]
    rcases p with ⟨st, q, d, l, dr, e, pr⟩
    simp only at h1 h2
    cases st <;> simp [State.rewinds] at h1 h2 <;> simp only [Inv] at hI
    · obtain ⟨q', _, h | h⟩ := hI <;> (rw [h.1]; rfl)
    all_goals
      obtain ⟨hq, _⟩ := hI
      cases q with
      | nil => rfl
      | cons s q' => rcases hq.head_frames with rfl | rfl <;> rfl

/-- A byte is read again only by the states that rewind. -/
theorem iter_again_state {p p' : Parser} {b : Byte} (h : iter p b = Outcome.again p') :
    (transition p b).rewind = true ∧ p'.state = (transition p b).p.state := by
  rcases iter_outcome p b with h0 | ⟨h0, h1, _⟩
  · rw [h] at h0; cases h0
  · rw [h] at h0 h1
    exact ⟨(settle_spec _).2.2.1 p' h0.symm, h1⟩

/-- In a state that does not rewind an iteration consumes the byte or
returns `SyntaxError` on it. -/
theorem iter_no_rewind (p : Parser) (b : Byte) (h : p.state.rewinds = false) :
    (∃ p', iter p b = Outcome.advance p') ∨
    (∃ p' ev, iter p b = Outcome.ret p' true ev none ∧ ev ≠ SyntaxError) ∨
    (∃ p' err, iter p b = Outcome.ret p' false SyntaxError err) := by
  have hr : (transition p b).rewind = false := by
    by_contra hne
    have := (rewind_state p b (by simpa using hne)).1
    rw [h] at this
    cases this
  rcases iter_outcome p b with h0 | ⟨h0, _, _⟩
  · exact Or.inl ⟨p, h0⟩
  · obtain ⟨_, _, s3, _, s5⟩ := settle_spec (transition p b)
    rw [h0]
    cases ho : settle (transition p b) with
    | advance p' => exact Or.inl ⟨p', rfl⟩
    | again p' =>
      have := s3 p' ho
      rw [hr] at this
      cases this
    | ret p' c ev err =>
      rcases s5 p' c ev err ho with ⟨h1, _, h3, _, _⟩ | ⟨_, h2, _, h4, h5⟩
      · subst h1 h3
        exact Or.inr (Or.inr ⟨p', err, rfl⟩)
      · rw [hr] at h4
        subst h4 h5
        exact Or.inr (Or.inl ⟨p', ev, rfl, h2⟩)

/-- Under the invariant a byte that is read again is not read a third time:
the iteration after `i--` consumes the byte or returns `SyntaxError` on it. -/
theorem Inv.again_once {p p' : Parser} {b : Byte} (hI : Inv p)
    (h : iter p b = Outcome.again p') :
    (p.state = _StateArrayValueOrBracket ∨ (p.state = _StateString ∧ b = 34) ∨
      p.state.numberComplete = true) ∧
    p'.state.rewinds = false ∧
    ((∃ p'', iter p' b = Outcome.advance p'') ∨
      (∃ p'' ev, iter p' b = Outcome.ret p'' true ev none ∧ ev ≠ SyntaxError) ∨
      (∃ p'' err, iter p' b = Outcome.ret p'' false SyntaxError err)) := by
  obtain ⟨hr, hs⟩ := iter_again_state h
  have h1 := rewind_state p b hr
  have h2 : p'.state.rewinds = false := by rw [hs]; exact hI.after_rewind b hr
  refine ⟨?_, h2, iter_no_rewind p' b h2⟩
  have h3 := h1.1
  have h4 := h1.2
  revert h3 h4
  cases p.state <;> simp [State.rewinds, State.numberComplete]

/-- Under the invariant an event that is returned after `i--`, the byte
not being consumed, is the `NumberEnd` of a number state, and the iteration
of the next call on that byte consumes it or returns `SyntaxError` on it. -/
theorem Inv.return_rewound {p p' : Parser} {b : Byte} {ev : Event} {err : Option String}
    (hI : Inv p) (h : iter p b = Outcome.ret p' false ev err) (hev : ev ≠ SyntaxError) :
    p.state.numberComplete = true ∧ ev = NumberEnd ∧ p'.state.rewinds = false ∧
    ((∃ p'', iter p' b = Outcome.advance p'') ∨
      (∃ p'' ev', iter p' b = Outcome.ret p'' true ev' none ∧ ev' ≠ SyntaxError) ∨
      (∃ p'' err', iter p' b = Outcome.ret p'' false SyntaxError err')) := by
  rcases iter_outcome p b with h0 | ⟨h0, h1, _⟩
  · rw [h] at h0; cases h0
  · rw [h] at h0 h1
    simp only [Outcome.parser] at h1
    rcases (settle_spec _).2.2.2.2 p' false ev err h0.symm with ⟨h3, _⟩ | ⟨h3, _, h5, h6, _⟩
    · exact absurd h3 hev
    · have hr : (transition p b).rewind = true := by
        revert h6
        cases (transition p b).rewind <;> simp
      have h2 : p'.state.rewinds = false := by rw [h1]; exact hI.after_rewind b hr
      refine ⟨?_, ?_, h2, iter_no_rewind p' b h2⟩
      · rcases (transition_ok p b).2.2.2.2.2.2.2 hr with ⟨_, k2, _⟩ | ⟨k1, k2, _, k4⟩
        · rw [h3] at h5
          exact absurd k2 h5
        · rcases k4 with k4 | k4
          · rw [h3] at h5
            exact absurd k4 h5
          · have hs := (rewind_state p b hr).2
            have hne : p.state ≠ _StateString := by
              intro hst
              have hb := hs hst
              rcases p with ⟨st, q, d, l, dr, e, pr⟩
              simp only at hst
              subst hst hb
              simp [transition, caseString] at k4
            revert k1 k2 hne
            cases p.state <;> simp [State.rewinds, State.numberComplete]
      · rcases (transition_ok p b).2.2.2.2.2.2.2 hr with ⟨_, k2, _⟩ | ⟨_, _, _, k4⟩
        · rw [h3] at h5
          exact absurd k2 h5
        · rcases k4 with k4 | k4
          · rw [h3] at h5
            exact absurd k4 h5
          · rw [h3]
            exact k4

/-- Under the invariant the loop on a byte ends after two iterations. -/
theorem loopByte_two {p : Parser} (hI : Inv p) (b : Byte) (f : Nat) :
    loopByte (f + 1) p b = loopByte 1 p b := by
  by_cases hna : ∀ p', iter p b ≠ Outcome.again p'
  · rw [loopByte_of_not_again _ hna, loopByte_of_not_again _ hna]
  · push_neg at hna
    obtain ⟨p', hp'⟩ := hna
    rw [loopByte_of_again _ hp', loopByte_of_again _ hp']
    have h2 := (hI.again_once hp').2.1
    have hna' : ∀ p'', iter p' b ≠ Outcome.again p'' := by
      intro p'' h''
      have := (rewind_state p' b (iter_again_state h'').1).1
      rw [h2] at this
      cases this
    rw [loopByte_of_not_again _ hna', loopByte_of_not_again _ hna']

/-- The loop on a byte keeps the invariant. -/
theorem loopByte_inv (f : Nat) : ∀ (p : Parser) (b : Byte), Inv p → Inv (loopByte f p b).parser := by
  induction f with
  | zero => exact fun p b hI => Inv_iter p b hI
  | succ f ih =>
    intro p b hI
    unfold loopByte
    have := Inv_iter p b hI
    split
    · next p' h =>
      rw [h] at this
      exact ih p' b this
    · exact this

/-- Under the invariant `Parse` reads no byte more than twice. -/
theorem parseWith_eq (input : List Byte) : ∀ (i : Nat) (p : Parser), Inv p →
    parseWith 1 i p input = parseFrom i p input := by
  induction input with
  | nil => exact fun _ _ _ => rfl
  | cons b rest ih =>
    intro i p hI
    have hl := loopByte_two hI b p.queue.length
    have hinv := loopByte_inv 1 p b hI
    unfold parseWith parseFrom
    rw [hl]
    cases ho : loopByte 1 p b with
    | advance p' =>
      rw [ho] at hinv
      exact ih (i + 1) p' hinv
    | again p' => rfl
    | ret p' c ev err => rfl

/-! ## The states that take the quote unchecked -/

/-- The condition on the closing quote holds trivially outside the two
states that take it unchecked. -/
theorem QuoteCond.of_settled {p : Parser} (h : p.state.unchecked = false) (z : List Byte) :
    QuoteCond p z := by
  intro hs
  rcases hs with hs | hs <;> (rw [hs] at h; cases h)

/-- At the end of the buffer the parser is in neither of the two states. -/
theorem QuoteCond.at_end {p : Parser} (h : QuoteCond p []) : p.state.unchecked = false := by
  cases hs : p.state <;> first
    | rfl
    | (obtain ⟨z', hz⟩ := h (by simp [hs]); cases hz)

/-- The loop of a call keeps the invariant and the condition on the closing
quote. -/
theorem Loop.keeps {p q : Parser} {input z : List Byte} (h : Loop p input q z)
    (hI : Inv p) (hq : QuoteCond p input) : Inv q ∧ QuoteCond q z := by
  induction h with
  | start => exact ⟨hI, hq⟩
  | @advance q q' rest b _ hit ih =>
    obtain ⟨i1, i2⟩ := ih
    have := Inv_iter q b i1
    rw [hit] at this
    exact ⟨this, ((iter_sound rest i1 i2).1 q' hit).1⟩
  | @again q q' rest b _ hit ih =>
    obtain ⟨i1, i2⟩ := ih
    have := Inv_iter q b i1
    rw [hit] at this
    exact ⟨this, ((iter_sound rest i1 i2).2.1 q' hit).1⟩

/-- The state that a row of the switch without a pop leads to is neither of
the two states. -/
theorem KeepRow.keep_target {s s' : State} {b : Byte} {ev : Event} (h : KeepRow s b ev s') :
    s'.unchecked = false := by
  cases h <;> rfl

theorem PushRow.push_target {s x s' : State} {b : Byte} {ev : Event} {rw : Bool}
    (h : PushRow s b ev x s' rw) : s'.unchecked = false := by
  cases h <;> rfl

/-- The state on top of a queue of frames is neither of the two states. -/
theorem toNext_settled (s : State) (q : List State) (d l dr e : Int) (pr : Bool)
    (hq : Frames q) : (Parser.toNext ⟨s, q, d, l, dr, e, pr⟩).state.unchecked = false := by
  cases q with
  | nil => rfl
  | cons s' q' => rcases hq.head_frames with rfl | rfl <;> rfl

/-- A pass through the switch that sets an event leaves neither of the two
states, under the invariant. -/
theorem transition_settled {p : Parser} (hI : Inv p) (b : Byte)
    (hev : (transition p b).event ≠ Continue) :
    (transition p b).p.state.unchecked = false := by
  by_cases hu : p.state.unchecked = true
  · rcases p with ⟨st, q, d, l, dr, e, pr⟩
    cases st <;> simp [State.unchecked] at hu
    · rfl
    · simp only [Inv] at hI
      simp only [transition]
      exact toNext_settled _ q d l dr e pr hI.1
  · have hu' : p.state.unchecked = false := by simpa using hu
    have hm := transition_move p b
    generalize transition p b = t at hm hev ⊢
    cases hm with
    | keep ev s' hr => exact hr.keep_target
    | push ev x s' rw hr => exact hr.push_target
    | pop ev rw hr =>
      by_cases hs : p.state = _StateString
      · rw [hs] at hr
        cases hr
        exact absurd rfl hev
      · rcases p with ⟨st, q, d, l, dr, e, pr⟩
        exact toNext_settled _ q d l dr e pr (hr.frames hs hI)
    | error s' msg hr =>
      rcases hr with rfl | ⟨_, rfl⟩ | ⟨_, rfl⟩
      · exact hu'
      · rfl
      · rfl

/-- An iteration that returns leaves neither of the two states. -/
theorem iter_ret_settled {p p' : Parser} {b : Byte} {c : Bool} {ev : Event}
    {err : Option String} (hI : Inv p) (h : iter p b = Outcome.ret p' c ev err) :
    p'.state.unchecked = false := by
  rcases iter_outcome p b with h0 | ⟨h0, h1, _⟩
  · rw [h] at h0; cases h0
  · rw [h] at h0 h1
    simp only [Outcome.parser] at h1
    rw [h1]
    apply transition_settled hI
    rcases (settle_spec _).2.2.2.2 p' c ev err h0.symm with ⟨_, h4, _⟩ | ⟨h3, _, h5, _⟩
    · rw [h4]; decide
    · rw [← h3]; exact h5

/-- A call of `Parse` returns in neither of the two states. -/
theorem Parse_settled (input : List Byte) (p : Parser) (r : ParseResult) (p' : Parser)
    (h : Parse p input = some (r, p')) :
    Inv p → QuoteCond p input → p'.state.unchecked = false := by
  refine Parse_induction
    (fun p input _ p' => Inv p → QuoteCond p input → p'.state.unchecked = false)
    ?_ ?_ ?_ ?_ input p r p' h
  · intro p _ hq
    exact hq.at_end
  · intro p p1 b rest r p' hit _ ih hI hq
    have := Inv_iter p b hI
    rw [hit] at this
    exact ih this ((iter_sound rest hI hq).1 p1 hit).1
  · intro p p1 b rest r p' hit _ ih hI hq
    have := Inv_iter p b hI
    rw [hit] at this
    exact ih this ((iter_sound rest hI hq).2.1 p1 hit).1
  · intro p p1 b rest c ev err hit hI _
    exact iter_ret_settled hI hit

/-- Every parser that a caller can reach is in neither of the two states. -/
theorem Reachable.settled {p : Parser} (h : Reachable p) : p.state.unchecked = false := by
  induction h with
  | zero => rfl
  | @parse p p' r input hp hparse ih =>
    exact Parse_settled input p r p' hparse hp.inv (QuoteCond.of_settled ih input)
  | @endCall p _ ih =>
    rcases End_cases p with ⟨_, h2⟩ | ⟨_, _, h3⟩ | ⟨_, _, h3⟩
    · rw [h2]; exact ih
    · rw [h3]; rfl
    · rw [h3]; exact ih
  | @skip p p' drop empty _ hs ih =>
    have := (Skip_window hs).2.2.1.1
    rw [← this]
    exact ih
  | reset _ _ => rfl

/-! ## The loop of a call and what the call returns -/

/-- A loop that follows an iteration which consumes a byte. -/
theorem Loop.after_advance {p p1 q : Parser} {b : Byte} {rest z : List Byte}
    (hit : iter p b = Outcome.advance p1) (h : Loop p1 rest q z) : Loop p (b :: rest) q z := by
  induction h with
  | start => exact Loop.advance Loop.start hit
  | advance _ h2 ih => exact Loop.advance ih h2
  | again _ h2 ih => exact Loop.again ih h2

/-- A loop that follows an iteration which reads the byte again. -/
theorem Loop.after_again {p p1 q : Parser} {b : Byte} {rest z : List Byte}
    (hit : iter p b = Outcome.again p1) (h : Loop p1 (b :: rest) q z) :
    Loop p (b :: rest) q z := by
  induction h with
  | start => exact Loop.again Loop.start hit
  | advance _ h2 ih => exact Loop.advance ih h2
  | again _ h2 ih => exact Loop.again ih h2

/-- What a call of `Parse` returns comes from its loop: `Continue` at the
end of the buffer, any other event from the iteration that returns it. -/
theorem Parse_loop (input : List Byte) (p : Parser) (r : ParseResult) (p' : Parser)
    (h : Parse p input = some (r, p')) :
    (r.event = Continue ∧ Loop p input p' []) ∨
    (∃ q b rest c, Loop p input q (b :: rest) ∧
      iter q b = Outcome.ret p' c r.event r.err) := by
  refine Parse_induction
    (fun p input r p' => (r.event = Continue ∧ Loop p input p' []) ∨
      (∃ q b rest c, Loop p input q (b :: rest) ∧ iter q b = Outcome.ret p' c r.event r.err))
    ?_ ?_ ?_ ?_ input p r p' h
  · intro p
    exact Or.inl ⟨rfl, Loop.start⟩
  · intro p p1 b rest r p' hit _ ih
    rcases ih with ⟨h1, h2⟩ | ⟨q, c, z, k, h1, h2⟩
    · exact Or.inl ⟨h1, h2.after_advance hit⟩
    · exact Or.inr ⟨q, c, z, k, h1.after_advance hit, h2⟩
  · intro p p1 b rest r p' hit _ ih
    rcases ih with ⟨h1, h2⟩ | ⟨q, c, z, k, h1, h2⟩
    · exact Or.inl ⟨h1, h2.after_again hit⟩
    · exact Or.inr ⟨q, c, z, k, h1.after_again hit, h2⟩
  · intro p p1 b rest c ev err hit
    exact Or.inr ⟨p, b, rest, c, Loop.start, hit⟩

/-! ## The budget invariant of the skip fields -/

/-- The budget invariant depends on the depth and the skip fields only. -/
theorem Budget_congr {p q : Parser} (h1 : q.depth = p.depth) (h2 : q.limit = p.limit)
    (h3 : q.drop = p.drop) (h4 : q.empty = p.empty) (h : Budget p) : Budget q := by
  unfold Budget at h ⊢
  rw [h1, h2, h3, h4]
  exact h

/-- With no budget left no skip is active. -/
theorem Budget.noSkip {p : Parser} (h : Budget p) (h0 : ¬ p.drop + p.empty > 0) : NoSkip p := by
  obtain ⟨h1, h2, _⟩ := h
  exact ⟨by omega, by omega⟩

/-- At depth 0 no skip is active. -/
theorem Budget.depth_zero {p : Parser} (h : Budget p) (hd : p.depth = 0) : NoSkip p := by
  obtain ⟨h1, h2, h3⟩ := h
  by_cases ha : p.drop + p.empty > 0
  · have := h3 ha
    omega
  · exact ⟨by omega, by omega⟩

/-- An event that does not bring the depth down to the limit leaves the skip
fields as they are. -/
theorem settle_budget_above (t : Step) (hB : Budget t.p) (h1 : t.event ≠ Continue)
    (h2 : t.event ≠ SyntaxError)
    (hd : (updateDepth t.p t.event).depth > t.p.limit ∨ ¬ t.p.drop + t.p.empty > 0) :
    (settle t).parser = updateDepth t.p t.event := by
  obtain ⟨b1, b2, b3⟩ := hB
  have e1 : (updateDepth t.p t.event).drop = t.p.drop := updateDepth_drop _ _
  have e2 : (updateDepth t.p t.event).empty = t.p.empty := updateDepth_empty _ _
  have e3 : (updateDepth t.p t.event).limit = t.p.limit := updateDepth_limit _ _
  rw [settle_event t _ h1 h2 rfl]
  by_cases hz : (updateDepth t.p t.event).drop ≠ 0 ∨ (updateDepth t.p t.event).empty ≠ 0
  · have hdl : (updateDepth t.p t.event).depth > (updateDepth t.p t.event).limit := by
      rw [e3]
      rcases hd with hd | hd
      · exact hd
      · rw [e1, e2] at hz
        omega
    rw [if_pos hz, if_pos hdl]
    exact (cont_delivered _ _).2
  · rw [if_neg hz]
    rfl

/-- An event that brings the depth down to the limit while a skip is active
is an end event of a composite or primitive value; it spends one unit, of
`drop` if there is one and of `empty` otherwise. -/
theorem settle_budget_at (t : Step) (hB : Budget t.p) (h1 : t.event ≠ Continue)
    (h2 : t.event ≠ SyntaxError) (ha : t.p.drop + t.p.empty > 0)
    (hd : ¬ (updateDepth t.p t.event).depth > t.p.limit) :
    (t.event.isComposite || t.event.isPrimitive) = true ∧ t.event.isEnd = true ∧
    (settle t).parser.depth = t.p.depth - 1 ∧ (settle t).parser.depth = t.p.limit ∧
    (settle t).parser.limit = t.p.limit - 1 ∧
    ((0 < t.p.drop ∧ (settle t).parser.drop = t.p.drop - 1 ∧
        (settle t).parser.empty = t.p.empty) ∨
      (t.p.drop = 0 ∧ (settle t).parser.drop = 0 ∧
        (settle t).parser.empty = t.p.empty - 1)) := by
  obtain ⟨b1, b2, b3⟩ := hB
  obtain ⟨b4, b5⟩ := b3 ha
  have hdp := updateDepth_depth t.p t.event
  have e1 : (updateDepth t.p t.event).drop = t.p.drop := updateDepth_drop _ _
  have e2 : (updateDepth t.p t.event).empty = t.p.empty := updateDepth_empty _ _
  have e3 : (updateDepth t.p t.event).limit = t.p.limit := updateDepth_limit _ _
  have hz : (updateDepth t.p t.event).drop ≠ 0 ∨ (updateDepth t.p t.event).empty ≠ 0 := by
    rw [e1, e2]
    omega
  have hdl : ¬ (updateDepth t.p t.event).depth > (updateDepth t.p t.event).limit := by
    rw [e3]
    exact hd
  have hend : (t.event.isComposite || t.event.isPrimitive) = true ∧ t.event.isEnd = true ∧
      (updateDepth t.p t.event).depth = t.p.depth - 1 := by
    rcases hdp with h | h | ⟨h, h', h''⟩
    · omega
    · omega
    · exact ⟨h', h'', h⟩
  have hlim : (updateDepth t.p t.event).depth = t.p.limit := by omega
  by_cases hdr : (updateDepth t.p t.event).drop > 0
  · rw [settle_event t _ h1 h2 rfl, if_pos hz, if_neg hdl, if_pos hdr, (cont_delivered _ _).2]
    refine ⟨hend.1, hend.2.1, hend.2.2, hlim, ?_, Or.inl ⟨by omega, ?_, ?_⟩⟩
    · show (updateDepth t.p t.event).limit - 1 = _
      rw [e3]
    · show (updateDepth t.p t.event).drop - 1 = _
      rw [e1]
    · show (updateDepth t.p t.event).empty = _
      rw [e2]
  · have hne : ¬ t.event.isEnd = false := by simp [hend.2.1]
    rw [settle_event t _ h1 h2 rfl, if_pos hz, if_neg hdl, if_neg hdr, if_neg hne]
    refine ⟨hend.1, hend.2.1, hend.2.2, hlim, ?_, Or.inr ⟨by omega, ?_, ?_⟩⟩
    · show (updateDepth t.p t.event).limit - 1 = _
      rw [e3]
    · show (updateDepth t.p t.event).drop = _
      rw [e1]
      omega
    · show (updateDepth t.p t.event).empty - 1 = _
      rw [e2]

/-- The lines after the switch keep the budget invariant, and they spend a
unit of budget only on an end event of a composite or primitive value. -/
theorem settle_budget (t : Step) (hB : Budget t.p) :
    Budget (settle t).parser ∧
    (((settle t).parser.drop = t.p.drop ∧ (settle t).parser.empty = t.p.empty) ∨
      ((settle t).parser.drop + (settle t).parser.empty = t.p.drop + t.p.empty - 1 ∧
        (t.event.isComposite || t.event.isPrimitive) = true ∧ t.event.isEnd = true)) := by
  by_cases h1 : t.event = Continue
  · have hs : (settle t).parser = t.p := by
      simp only [settle, if_pos h1]
      exact (cont_delivered _ _).2
    rw [hs]
    exact ⟨hB, Or.inl ⟨rfl, rfl⟩⟩
  by_cases h2 : t.event = SyntaxError
  · have hs : (settle t).parser = t.p := by
      simp only [settle, if_neg h1, if_pos h2, Outcome.parser]
    rw [hs]
    exact ⟨hB, Or.inl ⟨rfl, rfl⟩⟩
  by_cases hc : (updateDepth t.p t.event).depth > t.p.limit ∨ ¬ t.p.drop + t.p.empty > 0
  · rw [settle_budget_above t hB h1 h2 hc]
    refine ⟨?_, Or.inl ⟨updateDepth_drop _ _, updateDepth_empty _ _⟩⟩
    obtain ⟨b1, b2, b3⟩ := hB
    refine ⟨by rw [updateDepth_drop]; exact b1, by rw [updateDepth_empty]; exact b2, ?_⟩
    rw [updateDepth_drop, updateDepth_empty, updateDepth_limit]
    intro ha
    rcases hc with hc | hc
    · exact ⟨hc, (b3 ha).2⟩
    · exact absurd ha hc
  · push_neg at hc
    obtain ⟨hc1, hc2⟩ := hc
    obtain ⟨g1, g2, g3, g4, g5, g6⟩ := settle_budget_at t hB h1 h2 hc2 (by omega)
    obtain ⟨b1, b2, b3⟩ := hB
    obtain ⟨b4, b5⟩ := b3 hc2
    rcases g6 with ⟨k1, k2, k3⟩ | ⟨k1, k2, k3⟩
    · exact ⟨⟨by omega, by omega, fun _ => ⟨by omega, by omega⟩⟩,
        Or.inr ⟨by omega, g1, g2⟩⟩
    · exact ⟨⟨by omega, by omega, fun _ => ⟨by omega, by omega⟩⟩,
        Or.inr ⟨by omega, g1, g2⟩⟩

/-- An iteration of the loop of `Parse` keeps the budget invariant, and it
spends a unit of budget only on an end event of a composite or primitive
value. -/
theorem iter_budget (p : Parser) (b : Byte) (hB : Budget p) :
    Budget (iter p b).parser ∧
    (((iter p b).parser.drop = p.drop ∧ (iter p b).parser.empty = p.empty) ∨
      ((iter p b).parser.drop + (iter p b).parser.empty = p.drop + p.empty - 1 ∧
        ((computedEvent p b).isComposite || (computedEvent p b).isPrimitive) = true ∧
        (computedEvent p b).isEnd = true)) := by
  by_cases hws : p.state.code < _IgnoreSpace ∧ isSpace b = true
  · have h2 : iter p b = Outcome.advance p := by simp only [iter, if_pos hws]
    rw [h2]
    exact ⟨hB, Or.inl ⟨rfl, rfl⟩⟩
  · have h1 : computedEvent p b = (transition p b).event := by
      simp only [computedEvent, if_neg hws]
    have h2 : iter p b = settle (transition p b) := by simp only [iter, if_neg hws]
    have hok := transition_ok p b
    have hB' : Budget (transition p b).p :=
      Budget_congr hok.1 hok.2.1 hok.2.2.1 hok.2.2.2.1 hB
    rw [h1, h2, ← hok.2.2.1, ← hok.2.2.2.1]
    exact settle_budget (transition p b) hB'

/-- A call of `Skip` that does not panic and whose arguments have a sum in
the range of a Go `int` establishes the budget invariant. -/
theorem Skip_budget {p p' : Parser} {drop empty : Int} (h : Skip p drop empty = some p')
    (hr : drop + empty < 2 ^ 63) : Budget p' := by
  unfold Skip at h
  split_ifs at h with h1 h2
  simp only [Option.some.injEq] at h
  subst h
  have hd : 0 ≤ drop := by omega
  have he : 0 ≤ empty := by omega
  rw [wrapInt_eq _ (by omega) hr] at h2
  by_cases hc : p.property = true ∧ drop = 0 ∧ 0 < empty
  · obtain ⟨hp, hd0, he0⟩ := hc
    simp [hp, hd0, he0, Budget]
    omega
  · have hc' : (p.property && decide (drop = 0) && decide (empty > 0)) = false := by
      by_contra hne
      simp at hne
      exact hc hne
    simp only [hc']
    simp [Budget]
    omega

/-- Every parser reached with calls of `Skip` whose arguments have a sum in
the range of a Go `int` satisfies the budget invariant. -/
theorem InRange.budget {p : Parser} (h : InRange p) : Budget p := by
  induction h with
  | zero => simp [Budget, Parser.zero]
  | @parse p p' r input _ hparse ih =>
    exact Parse_preserves Budget (fun q b hq => (iter_budget q b hq).1) input p ih r p' hparse
  | @endCall p _ ih =>
    rcases End_cases p with ⟨_, h2⟩ | ⟨_, _, h3⟩ | ⟨_, _, h3⟩
    · rw [h2]; exact ih
    · rw [h3]; exact Budget_congr rfl rfl rfl rfl ih
    · rw [h3]; exact ih
  | @skip p p' drop empty _ hr hs _ => exact Skip_budget hs hr
  | reset _ _ => simp [Budget, Reset, Parser.zero]

/-- The parsers reached with sums in range are parsers that a caller can
reach. -/
theorem InRange.reachable {p : Parser} (h : InRange p) : Reachable p := by
  induction h with
  | zero => exact Reachable.zero
  | parse input _ hparse ih => exact Reachable.parse input ih hparse
  | endCall _ ih => exact Reachable.endCall ih
  | skip drop empty _ _ hs ih => exact Reachable.skip drop empty ih hs
  | reset _ ih => exact Reachable.reset ih

/-! ## The claims on re-examination, the unchecked quote, the literal
messages and the skip budget -/

/-- C21: every call of `Parse` returns; on a parser reached from the zero
value no byte of the input is read more than twice within one call (the loop
that reads a byte again at most once computes what `Parse` computes); and
whenever the loop of such a call rewinds (`i--`), it does so in the state
`_StateArrayValueOrBracket`, in the string state on the quote, or in a number
state with a complete lexeme, and the next iteration on that byte consumes it
or returns `SyntaxError` on it and never rewinds again, whether it follows in
the same call (the byte is read again) or in the next call (`NumberEnd` was
returned without the byte). -/
theorem Parse_bounded :
    (∀ (p : Parser) (input : List Byte), ∃ r p', Parse p input = some (r, p')) ∧
    (∀ (p : Parser) (input : List Byte), Reachable p →
      parseWith 1 0 p input = Parse p input) ∧
    (∀ (p q q' : Parser) (input rest : List Byte) (b : Byte), Reachable p →
      Loop p input q (b :: rest) → iter q b = Outcome.again q' →
      (q.state = _StateArrayValueOrBracket ∨ (q.state = _StateString ∧ b = 34) ∨
        q.state.numberComplete = true) ∧
      ((∃ q'', iter q' b = Outcome.advance q'') ∨
        (∃ q'' ev, iter q' b = Outcome.ret q'' true ev none ∧ ev ≠ SyntaxError) ∨
        (∃ q'' err, iter q' b = Outcome.ret q'' false SyntaxError err))) ∧
    (∀ (p q q' : Parser) (input rest : List Byte) (b : Byte) (ev : Event)
      (err : Option String), Reachable p → Loop p input q (b :: rest) →
      iter q b = Outcome.ret q' false ev err → ev ≠ SyntaxError →
      q.state.numberComplete = true ∧ ev = NumberEnd ∧
      ((∃ q'', iter q' b = Outcome.advance q'') ∨
        (∃ q'' ev', iter q' b = Outcome.ret q'' true ev' none ∧ ev' ≠ SyntaxError) ∨
        (∃ q'' err', iter q' b = Outcome.ret q'' false SyntaxError err'))) := by
  refine ⟨fun p input => Parse_total input p, fun p input h => parseWith_eq input 0 p h.inv,
    fun p q q' input rest b h hl hit => ?_, fun p q q' input rest b ev err h hl hit hev => ?_⟩
  · have hI := (hl.keeps h.inv (QuoteCond.of_settled h.settled input)).1
    obtain ⟨h1, _, h3⟩ := hI.again_once hit
    exact ⟨h1, h3⟩
  · have hI := (hl.keeps h.inv (QuoteCond.of_settled h.settled input)).1
    obtain ⟨h1, h2, _, h4⟩ := hI.return_rewound hit hev
    exact ⟨h1, h2, h4⟩

/-- C22: a parser reached from the zero value by `Parse`, `End`, `Skip`
and `Reset` is never in the state `_StateObjectKeyDone` or
`_StateStringDone`, so `Parse` never returns in one of them; whenever the
loop of a call on such a parser reads a byte in one of the two states, the
byte is the quote; and whenever it reads the quote in the string state, it
reads the quote again in the state popped from the queue, which is one of
the two. -/
theorem unchecked_quote :
    (∀ p : Parser, Reachable p →
      p.state ≠ _StateObjectKeyDone ∧ p.state ≠ _StateStringDone) ∧
    (∀ (p q : Parser) (input rest : List Byte) (b : Byte), Reachable p →
      Loop p input q (b :: rest) →
      ((q.state = _StateObjectKeyDone ∨ q.state = _StateStringDone) → b = 34) ∧
      (q.state = _StateString → b = 34 →
        iter q b = Outcome.again q.toNext ∧
        (q.toNext.state = _StateObjectKeyDone ∨ q.toNext.state = _StateStringDone))) := by
  refine ⟨fun p h => ?_, fun p q input rest b h hl => ?_⟩
  · have hs := h.settled
    constructor <;> (intro he; rw [he] at hs; cases hs)
  · obtain ⟨hI, hq⟩ := hl.keeps h.inv (QuoteCond.of_settled h.settled input)
    refine ⟨fun hs => ?_, fun hs hb => ?_⟩
    · obtain ⟨z', hz⟩ := hq hs
      cases hz
      rfl
    · subst hb
      rcases q with ⟨st, qu, d, l, dr, e, pr⟩
      simp only at hs
      subst hs
      simp only [Inv] at hI
      obtain ⟨q', _, h1 | h1⟩ := hI
      · obtain ⟨rfl, _, _⟩ := h1
        exact ⟨by simp [iter, transition, caseString, settle, Outcome.cont, State.code,
          _IgnoreSpace], Or.inr rfl⟩
      · obtain ⟨rfl, _, _⟩ := h1
        exact ⟨by simp [iter, transition, caseString, settle, Outcome.cont, State.code,
          _IgnoreSpace], Or.inl rfl⟩

/-- The messages of the literals `true` and `false`: at each position after
the first letter a byte other than the expected letter makes `Parse` return
`SyntaxError` without consuming the byte, with a message that names the
expected letter and the literal. -/
theorem literal_messages (q : List State) (d l dr e : Int) (pr : Bool) (b : Byte)
    (rest : List Byte) :
    (b ≠ 114 → Parse ⟨_StateTrue, q, d, l, dr, e, pr⟩ (b :: rest) =
      some (⟨0, SyntaxError, some "expected 'r' in literal true"⟩,
        ⟨_StateTrue, q, d, l, dr, e, pr⟩)) ∧
    (b ≠ 117 → Parse ⟨_StateTrue2, q, d, l, dr, e, pr⟩ (b :: rest) =
      some (⟨0, SyntaxError, some "expected 'u' in literal true"⟩,
        ⟨_StateTrue2, q, d, l, dr, e, pr⟩)) ∧
    (b ≠ 101 → Parse ⟨_StateTrue3, q, d, l, dr, e, pr⟩ (b :: rest) =
      some (⟨0, SyntaxError, some "expected 'e' in literal true"⟩,
        ⟨_StateTrue3, q, d, l, dr, e, pr⟩)) ∧
    (b ≠ 97 → Parse ⟨_StateFalse, q, d, l, dr, e, pr⟩ (b :: rest) =
      some (⟨0, SyntaxError, some "expected 'a' in literal false"⟩,
        ⟨_StateFalse, q, d, l, dr, e, pr⟩)) ∧
    (b ≠ 108 → Parse ⟨_StateFalse2, q, d, l, dr, e, pr⟩ (b :: rest) =
      some (⟨0, SyntaxError, some "expected 'l' in literal false"⟩,
        ⟨_StateFalse2, q, d, l, dr, e, pr⟩)) ∧
    (b ≠ 115 → Parse ⟨_StateFalse3, q, d, l, dr, e, pr⟩ (b :: rest) =
      some (⟨0, SyntaxError, some "expected 's' in literal false"⟩,
        ⟨_StateFalse3, q, d, l, dr, e, pr⟩)) ∧
    (b ≠ 101 → Parse ⟨_StateFalse4, q, d, l, dr, e, pr⟩ (b :: rest) =
      some (⟨0, SyntaxError, some "expected 'e' in literal false"⟩,
        ⟨_StateFalse4, q, d, l, dr, e, pr⟩)) := by
  refine ⟨?_, ?_, ?_, ?_, ?_, ?_, ?_⟩ <;>
    (intro hb
     rw [Parse_ret (c := false) rest]
     · rfl
     · simp [iter, transition, caseLiteral, settle, State.code, _IgnoreSpace, hb])

/-- C23: in the three states of the literal `null` after its first letter
a byte other than the expected letter makes `Parse` return `SyntaxError`
without consuming the byte, but the message names the literal `false`:
after `n` the byte `x` gives `expected 'u' in literal false`, after `nu` it
gives `expected 'l' in literal false`, and so it does after `nul`. -/
theorem null_literal_message :
    Parse Parser.zero [110] =
      some (⟨1, NullStart, none⟩, ⟨_StateNull, [], 1, 0, 0, 0, false⟩) ∧
    Parse ⟨_StateNull, [], 1, 0, 0, 0, false⟩ [120] =
      some (⟨0, SyntaxError, some "expected 'u' in literal false"⟩,
        ⟨_StateNull, [], 1, 0, 0, 0, false⟩) ∧
    Parse ⟨_StateNull, [], 1, 0, 0, 0, false⟩ [117] =
      some (⟨1, Continue, none⟩, ⟨_StateNull2, [], 1, 0, 0, 0, false⟩) ∧
    Parse ⟨_StateNull2, [], 1, 0, 0, 0, false⟩ [120] =
      some (⟨0, SyntaxError, some "expected 'l' in literal false"⟩,
        ⟨_StateNull2, [], 1, 0, 0, 0, false⟩) ∧
    Parse ⟨_StateNull2, [], 1, 0, 0, 0, false⟩ [108] =
      some (⟨1, Continue, none⟩, ⟨_StateNull3, [], 1, 0, 0, 0, false⟩) ∧
    Parse ⟨_StateNull3, [], 1, 0, 0, 0, false⟩ [120] =
      some (⟨0, SyntaxError, some "expected 'l' in literal false"⟩,
        ⟨_StateNull3, [], 1, 0, 0, 0, false⟩) := by
  decide

/-- The budget invariant on the parsers reached with calls of `Skip` whose
arguments have a sum in the range of a Go `int`: the budgets are not
negative; while a skip is active the limit is below the depth and the budgets
sum to at most the limit plus one; at depth 0 no skip is active; and an
iteration of the loop of `Parse` on a parser with the invariant leaves the
budgets as they are or spends one unit on an end event of a composite or
primitive value. -/
theorem budget_invariant (p : Parser) (h : InRange p) :
    Reachable p ∧ Budget p ∧ (Depth p = 0 → NoSkip p) ∧
    ∀ b : Byte, Budget (iter p b).parser ∧
      (((iter p b).parser.drop = p.drop ∧ (iter p b).parser.empty = p.empty) ∨
        ((iter p b).parser.drop + (iter p b).parser.empty = p.drop + p.empty - 1 ∧
          ((computedEvent p b).isComposite || (computedEvent p b).isPrimitive) = true ∧
          (computedEvent p b).isEnd = true)) :=
  ⟨h.reachable, h.budget, h.budget.depth_zero, fun b => iter_budget p b h.budget⟩

/-- C24: the call `Skip(2^62, 2^62)` on the zero parser does not panic,
the 64-bit sum of the arguments wrapping around, and leaves a parser on which
the budget invariant fails: the budgets sum to `2^63`, more than the limit
`-1` plus one, and a skip is active at depth 0 (the limit `-1` is below the
depth 0, so that part of the invariant holds). -/
theorem budget_overflow :
    Skip Parser.zero (2 ^ 62) (2 ^ 62) =
      some ⟨_StateValue, [], 0, -1, 2 ^ 62, 2 ^ 62, false⟩ ∧
    Reachable ⟨_StateValue, [], 0, -1, 2 ^ 62, 2 ^ 62, false⟩ ∧
    Depth ⟨_StateValue, [], 0, -1, 2 ^ 62, 2 ^ 62, false⟩ = 0 ∧
    ¬ NoSkip ⟨_StateValue, [], 0, -1, 2 ^ 62, 2 ^ 62, false⟩ ∧
    ¬ Budget ⟨_StateValue, [], 0, -1, 2 ^ 62, 2 ^ 62, false⟩ := by
  have hs : Skip Parser.zero (2 ^ 62) (2 ^ 62) =
      some ⟨_StateValue, [], 0, -1, 2 ^ 62, 2 ^ 62, false⟩ := by decide
  refine ⟨hs, Reachable.skip _ _ Reachable.zero hs, rfl, ?_, ?_⟩
  · intro h
    have := h.1
    simp at this
  · intro h
    obtain ⟨_, _, h3⟩ := h
    have := (h3 (by simp)).2
    simp only at this
    omega

/-! ## `End` on a pending number -/

/-- The run of the zero parser over whitespace and a number lexeme: it does
not fail and leaves a number state with the lexeme complete, an empty queue
and depth 1. -/
theorem drive_number {d : List Byte} {r : Run} (h : drive Parser.zero d = some r)
    {w1 w : List Byte} (hd : d = w1 ++ w) (hw1 : Ws w1) (hw : NumberLexeme w) :
    ∃ s, s.numberComplete = true ∧
      r = ⟨[NumberStart], d.length, false, none, ⟨s, [], 1, 0, 0, 0, false⟩⟩ := by
  subst hd
  obtain ⟨s, hs, h1⟩ := number_pending hw [] 0 0 false
  have h2 := (quiet_ws ⟨_StateValue, [], 0, 0, 0, 0, false⟩
    (by simp [State.code, _IgnoreSpace]) w1 hw1).then h1
  have e : Parser.zero = ⟨_StateValue, [], 0, 0, 0, 0, false⟩ := rfl
  rw [← e] at h2
  refine ⟨s, hs, ?_⟩
  rw [((drive_iff _ _ _).1 h).det h2]
  simp [Run.after, startValue, Parser.zero]

/-- C9: whenever a parser reached from the zero value is in one of the
number states in which the lexeme is complete (after `0`, after integer
digits, after fraction digits, after exponent digits) and the number is at
nesting depth 0, no array or object being open (the queue of states to resume
is empty), `End` returns `NumberEnd` with no error and the parser goes to the
done state, nothing else of it changing; inside an array or object `End`
returns `SyntaxError` and leaves the parser as it is. `Depth` counts the
number itself: it is at least 1 in these states, and 1 exactly at nesting
depth 0. In terms of the bytes read: after whitespace and a bare number the
zero parser is in such a state with the queue empty, and `End` returns
`NumberEnd` and goes to the done state. -/
theorem End_top_level_number :
    (∀ p : Parser, Reachable p → p.state.numberComplete = true →
      1 ≤ Depth p ∧ (p.queue = [] ↔ Depth p = 1) ∧
      (p.queue = [] → End p = ((NumberEnd, none), { p with state := _StateDone })) ∧
      (p.queue ≠ [] → End p = ((SyntaxError, some "unexpected EOF"), p))) ∧
    (∀ (d w1 w : List Byte) (r : Run), drive Parser.zero d = some r → d = w1 ++ w →
      Ws w1 → NumberLexeme w →
      r.failed = false ∧ r.p.state.numberComplete = true ∧ r.p.queue = [] ∧
      End r.p = ((NumberEnd, none), { r.p with state := _StateDone })) := by
  constructor
  · intro p h hs
    have hI := h.inv
    have hd := hI.number_depth hs
    have h1 : 1 ≤ Depth p := by
      rcases p with ⟨st, q, d, l, dr, e, pr⟩
      cases st <;> simp [State.numberComplete] at hs <;> simp only [Inv] at hI <;>
        (obtain ⟨_, _, h3⟩ := hI; simp only [Depth]; omega)
    refine ⟨h1, ⟨hd.2, hd.1⟩, fun hq => ?_, fun hq => ?_⟩
    · rcases End_cases p with ⟨k1, _⟩ | ⟨_, _, k3⟩ | ⟨_, k2, _⟩
      · rw [k1] at hs
        cases hs
      · exact k3
      · exact absurd ⟨hs, hd.2 hq⟩ k2
    · rcases End_cases p with ⟨k1, _⟩ | ⟨_, k2, _⟩ | ⟨_, _, k3⟩
      · rw [k1] at hs
        cases hs
      · exact absurd (hd.1 k2) hq
      · exact k3
  · intro d w1 w r h hd hw1 hw
    obtain ⟨s, hs, hr⟩ := drive_number h hd hw1 hw
    subst hr
    refine ⟨rfl, hs, rfl, ?_⟩
    cases s <;> simp [State.numberComplete] at hs <;> rfl

/-- Witness of C9: after the bytes `42` the number is at nesting depth 0,
`Depth` returns 1 and `End` returns `NumberEnd`; after the bytes `[1` the
number is inside an array and `End` returns `SyntaxError`. -/
theorem End_top_level_number_witness :
    (Reachable ⟨_StateNumber, [], 1, 0, 0, 0, false⟩ ∧
      Depth ⟨_StateNumber, [], 1, 0, 0, 0, false⟩ = 1 ∧
      End ⟨_StateNumber, [], 1, 0, 0, 0, false⟩ =
        ((NumberEnd, none), ⟨_StateDone, [], 1, 0, 0, 0, false⟩)) ∧
    (Reachable ⟨_StateNumber, [_StateArrayCommaOrBracket], 2, 0, 0, 0, false⟩ ∧
      End ⟨_StateNumber, [_StateArrayCommaOrBracket], 2, 0, 0, 0, false⟩ =
        ((SyntaxError, some "unexpected EOF"),
          ⟨_StateNumber, [_StateArrayCommaOrBracket], 2, 0, 0, 0, false⟩)) :=
  have h1 : Reachable ⟨_StateNumber, [], 1, 0, 0, 0, false⟩ :=
    Reachable.parse [52, 50] Reachable.zero
      (show Parse Parser.zero [52, 50] = some (⟨1, NumberStart, none⟩, _) by decide)
  have h2 : Reachable ⟨_StateArrayValueOrBracket, [], 1, 0, 0, 0, false⟩ :=
    Reachable.parse [91] Reachable.zero
      (show Parse Parser.zero [91] = some (⟨1, ArrayStart, none⟩, _) by decide)
  have h3 : Reachable ⟨_StateNumber, [_StateArrayCommaOrBracket], 2, 0, 0, 0, false⟩ :=
    Reachable.parse [49] h2
      (show Parse ⟨_StateArrayValueOrBracket, [], 1, 0, 0, 0, false⟩ [49] =
        some (⟨1, NumberStart, none⟩, _) by decide)
  ⟨⟨h1, rfl, (End_top_level_number.1 _ h1 rfl).2.2.1 rfl⟩,
    ⟨h3, (End_top_level_number.1 _ h3 rfl).2.2.2 (by decide)⟩⟩

end Jo
